import Mathlib

/-!
Verification development for the cf-webrtc-signaling-server repository.

The TypeScript sources are shallowly embedded as executable Lean
definitions:

* JavaScript strings are modelled as `List Char` (`Str`); byte arrays as
  `List Nat` with every element `< 256`.
* The opaque identifiers that the server draws from
  the runtime's uuid generator (peer ids, resume tokens, delivery ids and
  socket handles) are modelled as natural numbers drawn from a
  monotone counter `nextId` carried in the room state; this embeds the
  assumption that freshly generated uuids never collide with any id that
  has appeared before.
* `Map`/durable-storage tables are modelled as association lists whose
  `aput` updates an existing key in place (like `Map.set` /
  `storage.put`) and whose iteration order is the list order.
* Asynchronous methods are pure state transformers; each operation of
  the room durable object returns the successor state together with the
  ordered list of I/O events (WebSocket sends and closes) it performed,
  listed in the order the source performs them.
-/

/-- A JavaScript string, modelled as its list of unicode scalar values. -/
abbrev Str := List Char

/-! ## Association list helpers

The durable object keeps its tables in JavaScript `Map`s and in the
durable storage key/value store.  Both are embedded as association
lists with the three primitive operations below. -/

/-- Lookup in an association list (first match, like `Map.get`). -/
def alookup {κ α : Type} [DecidableEq κ] : List (κ × α) → κ → Option α
  | [], _ => none
  | e :: rest, k => if e.1 = k then some e.2 else alookup rest k

/-- Insert-or-update (like `Map.set` / `storage.put`): replaces the value
at an existing key in place, otherwise appends the new entry. -/
def aput {κ α : Type} [DecidableEq κ] : List (κ × α) → κ → α → List (κ × α)
  | [], k, v => [(k, v)]
  | e :: rest, k, v => if e.1 = k then (k, v) :: rest else e :: aput rest k v

/-- Delete a key (like `Map.delete` / `storage.delete`). -/
def adel {κ α : Type} [DecidableEq κ] : List (κ × α) → κ → List (κ × α)
  | [], _ => []
  | e :: rest, k => if e.1 = k then adel rest k else e :: adel rest k

theorem alookup_aput_self {κ α : Type} [DecidableEq κ] (l : List (κ × α)) (k : κ) (v : α) :
    alookup (aput l k v) k = some v := by
  induction l with
  | nil => simp [aput, alookup]
  | cons e rest ih =>
    by_cases h : e.1 = k <;> simp [aput, alookup, h, ih]

theorem alookup_aput_ne {κ α : Type} [DecidableEq κ] (l : List (κ × α)) (k k' : κ) (v : α)
    (h : k ≠ k') : alookup (aput l k v) k' = alookup l k' := by
  induction l with
  | nil => simp [aput, alookup, h]
  | cons e rest ih =>
    by_cases he : e.1 = k
    · simp [aput, alookup, he, h]
    · simp only [aput, if_neg he, alookup]
      by_cases he' : e.1 = k' <;> simp [he', ih]

theorem alookup_adel_self {κ α : Type} [DecidableEq κ] (l : List (κ × α)) (k : κ) :
    alookup (adel l k) k = none := by
  induction l with
  | nil => simp [adel, alookup]
  | cons e rest ih =>
    by_cases h : e.1 = k <;> simp [adel, alookup, h, ih]

theorem alookup_adel_ne {κ α : Type} [DecidableEq κ] (l : List (κ × α)) (k k' : κ)
    (h : k ≠ k') : alookup (adel l k) k' = alookup l k' := by
  induction l with
  | nil => simp [adel, alookup]
  | cons e rest ih =>
    by_cases he : e.1 = k
    · subst he; simp [adel, alookup, h, Ne.symm h, ih]
    · simp only [adel, if_neg he, alookup]
      by_cases he' : e.1 = k' <;> simp [he', ih]

/-! ## Bytes (`Uint8Array` values) -/

/-- A JavaScript `Uint8Array`, modelled as a list of naturals `< 256`. -/
abbrev Bytes := List Nat

/-- Every element of the byte list is an actual byte. -/
def BytesValid (bs : Bytes) : Prop := ∀ b ∈ bs, b < 256

/-! ## UTF-8 codec (`TextEncoder` / `TextDecoder` in `crypto-utils.ts`) -/

/-- UTF-8 encoding of one unicode scalar value (`TextEncoder`). -/
def utf8EncodeChar (c : Char) : Bytes :=
  let n := c.toNat
  if n < 128 then [n]
  else if n < 2048 then [192 + n / 64, 128 + n % 64]
  else if n < 65536 then [224 + n / 4096, 128 + n / 64 % 64, 128 + n % 64]
  else [240 + n / 262144, 128 + n / 4096 % 64, 128 + n / 64 % 64, 128 + n % 64]

/-- `toUtf8Bytes` from `crypto-utils.ts` (a `TextEncoder().encode`). -/
def toUtf8Bytes : Str → Bytes
  | [] => []
  | c :: cs => utf8EncodeChar c ++ toUtf8Bytes cs

/-- Is `n` a UTF-8 continuation byte? -/
def utf8Cont (n : Nat) : Bool := 128 ≤ n ∧ n < 192

/-- Prepend a decoded scalar to a decode result. -/
def consChar (n : Nat) : Option Str → Option Str
  | some s => some (Char.ofNat n :: s)
  | none => none

/-- Decode one UTF-8 scalar from the head of the byte string, returning
it with the remaining bytes; `none` on a malformed head sequence. -/
def utf8DecodeOne : Bytes → Option (Nat × Bytes)
  | [] => none
  | b0 :: rest =>
    if b0 < 128 then some (b0, rest)
    else if b0 < 224 then
      if rest.length = 0 then none
      else
        let b1 := rest.headD 0
        if 192 ≤ b0 ∧ utf8Cont b1 then
          let n := (b0 - 192) * 64 + (b1 - 128)
          if 128 ≤ n then some (n, rest.tail) else none
        else none
    else if b0 < 240 then
      if rest.length < 2 then none
      else
        let b1 := rest.headD 0
        let b2 := rest.tail.headD 0
        if utf8Cont b1 ∧ utf8Cont b2 then
          let n := (b0 - 224) * 4096 + (b1 - 128) * 64 + (b2 - 128)
          if 2048 ≤ n ∧ ¬ (55296 ≤ n ∧ n < 57344) then some (n, rest.tail.tail)
          else none
        else none
    else if b0 < 248 then
      if rest.length < 3 then none
      else
        let b1 := rest.headD 0
        let b2 := rest.tail.headD 0
        let b3 := rest.tail.tail.headD 0
        if utf8Cont b1 ∧ utf8Cont b2 ∧ utf8Cont b3 then
          let n := (b0 - 240) * 262144 + (b1 - 128) * 4096 + (b2 - 128) * 64 + (b3 - 128)
          if 65536 ≤ n ∧ n < 1114112 then some (n, rest.tail.tail.tail) else none
        else none
    else none

/-- The decoding loop (fuel-indexed: each step consumes at least one
byte, so the byte count is enough fuel). -/
def utf8DecodeLoop : Nat → Bytes → Option Str
  | _, [] => some []
  | 0, _ :: _ => none
  | fuel + 1, b0 :: rest =>
    match utf8DecodeOne (b0 :: rest) with
    | some (n, rest1) => consChar n (utf8DecodeLoop fuel rest1)
    | none => none

/-- UTF-8 decoding (`fromUtf8Bytes` / `TextDecoder().decode`); `none` on a
malformed sequence (the runtime decoder substitutes U+FFFD there; no
theorem below exercises that path). -/
def utf8Decode (bs : Bytes) : Option Str := utf8DecodeLoop bs.length bs

/-! ## Base64 codecs (`toBase64Url`, `fromBase64Url`, `btoa` in
`crypto-utils.ts`) -/

/-- The base64url alphabet used by `toBase64Url` (standard alphabet with
`+` and `/` replaced by `-` and `_`, per the two `.replace` calls). -/
def b64UrlAlphabet : Str :=
  ['A', 'B', 'C', 'D', 'E', 'F', 'G', 'H', 'I', 'J', 'K', 'L', 'M',
   'N', 'O', 'P', 'Q', 'R', 'S', 'T', 'U', 'V', 'W', 'X', 'Y', 'Z',
   'a', 'b', 'c', 'd', 'e', 'f', 'g', 'h', 'i', 'j', 'k', 'l', 'm',
   'n', 'o', 'p', 'q', 'r', 's', 't', 'u', 'v', 'w', 'x', 'y', 'z',
   '0', '1', '2', '3', '4', '5', '6', '7', '8', '9', '-', '_']

/-- Sextet to base64url character. -/
def b64UrlChar (n : Nat) : Char := b64UrlAlphabet.getD n 'A'

/-- Base64url character back to its sextet (index in the alphabet). -/
def b64UrlDecChar (c : Char) : Option Nat :=
  b64UrlAlphabet.indexOf? c

/-- `toBase64Url`: base64 over the url-safe alphabet with the `=` padding
stripped (the source strips it with `.replace(/=+$/g, "")`). -/
def toBase64Url : Bytes → Str
  | [] => []
  | [b0] => [b64UrlChar (b0 / 4), b64UrlChar (b0 % 4 * 16)]
  | [b0, b1] => [b64UrlChar (b0 / 4), b64UrlChar (b0 % 4 * 16 + b1 / 16), b64UrlChar (b1 % 16 * 4)]
  | b0 :: b1 :: b2 :: rest =>
    b64UrlChar (b0 / 4) :: b64UrlChar (b0 % 4 * 16 + b1 / 16) ::
      b64UrlChar (b1 % 16 * 4 + b2 / 64) :: b64UrlChar (b2 % 64) :: toBase64Url rest

/-- `fromBase64Url`: re-pad and `atob`.  `none` where `atob` would throw
(bad length or a character outside the alphabet). -/
def fromBase64Url : Str → Option Bytes
  | [] => some []
  | [_] => none
  | [a, b] =>
    match b64UrlDecChar a, b64UrlDecChar b with
    | some x, some y => some [x * 4 + y / 16]
    | _, _ => none
  | [a, b, c] =>
    match b64UrlDecChar a, b64UrlDecChar b, b64UrlDecChar c with
    | some x, some y, some z => some [x * 4 + y / 16, y % 16 * 16 + z / 4]
    | _, _, _ => none
  | a :: b :: c :: d :: rest =>
    match b64UrlDecChar a, b64UrlDecChar b, b64UrlDecChar c, b64UrlDecChar d with
    | some x, some y, some z, some w =>
      match fromBase64Url rest with
      | some bs => some ((x * 4 + y / 16) :: (y % 16 * 16 + z / 4) :: (z % 4 * 64 + w) :: bs)
      | none => none
    | _, _, _, _ => none

/-- The standard base64 alphabet (for `btoa` output kept as-is). -/
def b64StdAlphabet : Str :=
  ['A', 'B', 'C', 'D', 'E', 'F', 'G', 'H', 'I', 'J', 'K', 'L', 'M',
   'N', 'O', 'P', 'Q', 'R', 'S', 'T', 'U', 'V', 'W', 'X', 'Y', 'Z',
   'a', 'b', 'c', 'd', 'e', 'f', 'g', 'h', 'i', 'j', 'k', 'l', 'm',
   'n', 'o', 'p', 'q', 'r', 's', 't', 'u', 'v', 'w', 'x', 'y', 'z',
   '0', '1', '2', '3', '4', '5', '6', '7', '8', '9', '+', '/']

/-- Sextet to standard base64 character. -/
def b64StdChar (n : Nat) : Char := b64StdAlphabet.getD n 'A'

/-- `btoa` over a byte string: standard base64 with `=` padding. -/
def toBase64Std : Bytes → Str
  | [] => []
  | [b0] => [b64StdChar (b0 / 4), b64StdChar (b0 % 4 * 16), '=', '=']
  | [b0, b1] => [b64StdChar (b0 / 4), b64StdChar (b0 % 4 * 16 + b1 / 16), b64StdChar (b1 % 16 * 4), '=']
  | b0 :: b1 :: b2 :: rest =>
    b64StdChar (b0 / 4) :: b64StdChar (b0 % 4 * 16 + b1 / 16) ::
      b64StdChar (b1 % 16 * 4 + b2 / 64) :: b64StdChar (b2 % 64) :: toBase64Std rest

/-! ## Decimal rendering (JS template-literal interpolation of numbers) -/

/-- Decimal digit character. -/
def decDigit (n : Nat) : Char := Char.ofNat (48 + n % 10)

/-- Decimal digits of a positive natural, most significant first
(fuel-indexed so the recursion is structural; any fuel of at least the
digit count gives the digits). -/
def natToDecAux : Nat → Nat → Str → Str
  | 0, _, acc => acc
  | fuel + 1, n, acc =>
    if n = 0 then acc else natToDecAux fuel (n / 10) (decDigit (n % 10) :: acc)

/-- Decimal rendering of a natural number, as `${n}` renders it. -/
def natToDec (n : Nat) : Str := if n = 0 then ['0'] else natToDecAux n n []

/-- Decimal rendering of an integer, as `${n}` renders it. -/
def intToDec (n : Int) : Str :=
  if n < 0 then '-' :: natToDec n.natAbs else natToDec n.natAbs

/-! ## SHA-256, SHA-1 and HMAC (`crypto.subtle` in `crypto-utils.ts`)

32-bit machine words are embedded as naturals reduced mod `2 ^ 32`;
rotations are expressed with division and multiplication so that no
result ever exceeds 32 bits. -/

/-- Truncate to a 32-bit word. -/
def w32 (x : Nat) : Nat := x % 4294967296

/-- Right-rotation of a 32-bit word by `n` places. -/
def rotr32 (n x : Nat) : Nat := x / 2 ^ n + x % 2 ^ n * 2 ^ (32 - n)

/-- Left-rotation of a 32-bit word by `n` places. -/
def rotl32 (n x : Nat) : Nat := x % 2 ^ (32 - n) * 2 ^ n + x / 2 ^ (32 - n)

/-- Bitwise complement of a 32-bit word. -/
def not32 (x : Nat) : Nat := Nat.xor 4294967295 x

/-- Big-endian 32-bit words from bytes (length a multiple of 4). -/
def bytesToWords : Bytes → List Nat
  | b0 :: b1 :: b2 :: b3 :: rest =>
    (b0 * 16777216 + b1 * 65536 + b2 * 256 + b3) :: bytesToWords rest
  | _ => []

/-- Big-endian bytes of a list of 32-bit words. -/
def wordsToBytes : List Nat → Bytes
  | [] => []
  | w :: rest =>
    w / 16777216 % 256 :: w / 65536 % 256 :: w / 256 % 256 :: w % 256 :: wordsToBytes rest

/-- Merkle–Damgård padding shared by SHA-1 and SHA-256: append `0x80`,
zero bytes to 56 mod 64, then the 64-bit big-endian bit length. -/
def shaPad (msg : Bytes) : Bytes :=
  let L := msg.length
  let zeros := (120 - (L + 1) % 64) % 64
  let bits := L * 8
  msg ++ 128 :: List.replicate zeros 0 ++
    [bits / 2 ^ 56 % 256, bits / 2 ^ 48 % 256, bits / 2 ^ 40 % 256, bits / 2 ^ 32 % 256,
     bits / 2 ^ 24 % 256, bits / 2 ^ 16 % 256, bits / 2 ^ 8 % 256, bits % 256]

/-- The 64 SHA-256 round constants. -/
def sha256K : List Nat :=
  [1116352408, 1899447441, 3049323471, 3921009573, 961987163, 1508970993, 2453635748,
   2870763221, 3624381080, 310598401, 607225278, 1426881987, 1925078388, 2162078206,
   2614888103, 3248222580, 3835390401, 4022224774, 264347078, 604807628, 770255983,
   1249150122, 1555081692, 1996064986, 2554220882, 2821834349, 2952996808, 3210313671,
   3336571891, 3584528711, 113926993, 338241895, 666307205, 773529912, 1294757372,
   1396182291, 1695183700, 1986661051, 2177026350, 2456956037, 2730485921, 2820302411,
   3259730800, 3345764771, 3516065817, 3600352804, 4094571909, 275423344, 430227734,
   506948616, 659060556, 883997877, 958139571, 1322822218, 1537002063, 1747873779,
   1955562222, 2024104815, 2227730452, 2361852424, 2428436474, 2756734187, 3204031479,
   3329325298]

/-- SHA-256 initial hash state. -/
def sha256H0 : List Nat :=
  [1779033703, 3144134277, 1013904242, 2773480762, 1359893119, 2600822924, 528734635,
   1541459225]

/-- Extend a 16-word block to the 64-word SHA-256 message schedule. -/
def sha256Extend : Nat → List Nat → List Nat
  | 0, w => w
  | fuel + 1, w =>
    let t := w.length
    let s0 := Nat.xor (Nat.xor (rotr32 7 (w.getD (t - 15) 0)) (rotr32 18 (w.getD (t - 15) 0)))
      (w.getD (t - 15) 0 / 8)
    let s1 := Nat.xor (Nat.xor (rotr32 17 (w.getD (t - 2) 0)) (rotr32 19 (w.getD (t - 2) 0)))
      (w.getD (t - 2) 0 / 1024)
    sha256Extend fuel (w ++ [w32 (w.getD (t - 16) 0 + s0 + w.getD (t - 7) 0 + s1)])

/-- One SHA-256 round. -/
def sha256Round (k wt : Nat) (st : List Nat) : List Nat :=
  match st with
  | [a, b, c, d, e, f, g, h] =>
    let s1 := Nat.xor (Nat.xor (rotr32 6 e) (rotr32 11 e)) (rotr32 25 e)
    let ch := Nat.xor (Nat.land e f) (Nat.land (not32 e) g)
    let temp1 := w32 (h + s1 + ch + k + wt)
    let s0 := Nat.xor (Nat.xor (rotr32 2 a) (rotr32 13 a)) (rotr32 22 a)
    let maj := Nat.xor (Nat.xor (Nat.land a b) (Nat.land a c)) (Nat.land b c)
    let temp2 := w32 (s0 + maj)
    [w32 (temp1 + temp2), a, b, c, w32 (d + temp1), e, f, g]
  | other => other

/-- SHA-256 compression of one 16-word block into the running state. -/
def sha256Compress (st block : List Nat) : List Nat :=
  let w := sha256Extend 48 block
  let st' := (List.zip sha256K w).foldl (fun acc kw => sha256Round kw.1 kw.2 acc) st
  List.zipWith (fun x y => w32 (x + y)) st st'

/-- Fold SHA-256 compression over the padded message words. -/
def sha256Blocks : Nat → List Nat → List Nat → List Nat
  | 0, st, _ => st
  | _ + 1, st, [] => st
  | fuel + 1, st, ws => sha256Blocks fuel (sha256Compress st (ws.take 16)) (ws.drop 16)

/-- SHA-256 of a byte string. -/
def sha256 (msg : Bytes) : Bytes :=
  let ws := bytesToWords (shaPad msg)
  wordsToBytes (sha256Blocks ws.length sha256H0 ws)

/-- The four SHA-1 round constants. -/
def sha1K (t : Nat) : Nat :=
  if t < 20 then 1518500249
  else if t < 40 then 1859775393
  else if t < 60 then 2400959708
  else 3395469782

/-- SHA-1 initial hash state. -/
def sha1H0 : List Nat := [1732584193, 4023233417, 2562383102, 271733878, 3285377520]

/-- SHA-1 round function `f_t`. -/
def sha1F (t b c d : Nat) : Nat :=
  if t < 20 then Nat.xor (Nat.land b c) (Nat.land (not32 b) d)
  else if t < 40 then Nat.xor (Nat.xor b c) d
  else if t < 60 then Nat.xor (Nat.xor (Nat.land b c) (Nat.land b d)) (Nat.land c d)
  else Nat.xor (Nat.xor b c) d

/-- Extend a 16-word block to the 80-word SHA-1 message schedule. -/
def sha1Extend : Nat → List Nat → List Nat
  | 0, w => w
  | fuel + 1, w =>
    let t := w.length
    sha1Extend fuel (w ++ [rotl32 1 (Nat.xor (Nat.xor (w.getD (t - 3) 0) (w.getD (t - 8) 0))
      (Nat.xor (w.getD (t - 14) 0) (w.getD (t - 16) 0)))])

/-- One SHA-1 round (`t` is the round index). -/
def sha1Round (t wt : Nat) (st : List Nat) : List Nat :=
  match st with
  | [a, b, c, d, e] =>
    [w32 (rotl32 5 a + sha1F t b c d + e + sha1K t + wt), a, rotl32 30 b, c, d]
  | other => other

/-- SHA-1 compression of one 16-word block into the running state. -/
def sha1Compress (st block : List Nat) : List Nat :=
  let w := sha1Extend 64 block
  let st' := w.enum.foldl (fun acc wt => sha1Round wt.1 wt.2 acc) st
  List.zipWith (fun x y => w32 (x + y)) st st'

/-- Fold SHA-1 compression over the padded message words. -/
def sha1Blocks : Nat → List Nat → List Nat → List Nat
  | 0, st, _ => st
  | _ + 1, st, [] => st
  | fuel + 1, st, ws => sha1Blocks fuel (sha1Compress st (ws.take 16)) (ws.drop 16)

/-- SHA-1 of a byte string. -/
def sha1 (msg : Bytes) : Bytes :=
  let ws := bytesToWords (shaPad msg)
  wordsToBytes (sha1Blocks ws.length sha1H0 ws)

/-- HMAC with a given hash (`crypto.subtle.sign("HMAC", ...)`), block
size 64 bytes as for both SHA-1 and SHA-256. -/
def hmac (hash : Bytes → Bytes) (key msg : Bytes) : Bytes :=
  let k0 := if 64 < key.length then hash key else key
  let k1 := k0 ++ List.replicate (64 - k0.length) 0
  let ipad := k1.map (fun b => Nat.xor b 54)
  let opad := k1.map (fun b => Nat.xor b 92)
  hash (opad ++ hash (ipad ++ msg))

/-- `hmacSha256` from `crypto-utils.ts` (UTF-8 of secret and data done by
the callers below where the source does it inline). -/
def hmacSha256 (key msg : Bytes) : Bytes := hmac sha256 key msg

/-- `hmacSha1Base64` from `crypto-utils.ts`: base64 (standard alphabet,
padded, as `btoa` emits) of the HMAC-SHA1 tag. -/
def hmacSha1Base64 (secret data : Str) : Str :=
  toBase64Std (hmac sha1 (toUtf8Bytes secret) (toUtf8Bytes data))

/-! ## Mini JSON codec (`JSON.stringify` / `JSON.parse`)

The join-token payload and header are flat JSON objects whose values are
strings and (for `exp`/`iat`) non-negative integers, so `JSON.stringify`
and `JSON.parse` are embedded for exactly that fragment: one object of
string or number fields.  String escaping follows `JSON.stringify`
exactly; the parser is a standard JSON string/number/object parser for
this fragment (it does not model surrogate-pair `\u` escapes, fractional
or signed numbers, nested values, or whitespace, none of which the
codec's own output contains). -/

/-- The `"` character. -/
def quoteChar : Char := Char.ofNat 34

/-- The `\` character. -/
def backslashChar : Char := Char.ofNat 92

/-- The opening curly bracket. -/
def lbraceChar : Char := Char.ofNat 123

/-- The closing curly bracket. -/
def rbraceChar : Char := Char.ofNat 125

/-- A JSON value of the fragment: a string or a non-negative number. -/
inductive JVal where
  | str (s : Str)
  | num (n : Nat)
deriving DecidableEq

/-- Lowercase hex digit, as `JSON.stringify` renders `\u00xx` escapes. -/
def jsonHexDigit (n : Nat) : Char :=
  if n % 16 < 10 then Char.ofNat (48 + n % 16) else Char.ofNat (87 + n % 16)

/-- Escaping of one character inside a JSON string literal, following
`JSON.stringify`: quote, backslash, the five short escapes, `\u00xx`
for the remaining control characters, everything else verbatim. -/
def jsonEscapeChar (c : Char) : Str :=
  if c = quoteChar then [backslashChar, quoteChar]
  else if c = backslashChar then [backslashChar, backslashChar]
  else if c = Char.ofNat 8 then [backslashChar, 'b']
  else if c = Char.ofNat 9 then [backslashChar, 't']
  else if c = Char.ofNat 10 then [backslashChar, 'n']
  else if c = Char.ofNat 12 then [backslashChar, 'f']
  else if c = Char.ofNat 13 then [backslashChar, 'r']
  else if c.toNat < 32 then
    [backslashChar, 'u', '0', '0', jsonHexDigit (c.toNat / 16), jsonHexDigit (c.toNat % 16)]
  else [c]

/-- Escape a whole string body. -/
def jsonEscape : Str → Str
  | [] => []
  | c :: cs => jsonEscapeChar c ++ jsonEscape cs

/-- A JSON string literal, quotes included. -/
def printJString (s : Str) : Str := quoteChar :: (jsonEscape s ++ [quoteChar])

/-- Print one JSON value of the fragment. -/
def printJVal : JVal → Str
  | .str s => printJString s
  | .num n => natToDec n

/-- Print the `key:value` members of an object, comma separated. -/
def printJPairs : List (Str × JVal) → Str
  | [] => []
  | [p] => printJString p.1 ++ ':' :: printJVal p.2
  | p :: rest => printJString p.1 ++ ':' :: printJVal p.2 ++ ',' :: printJPairs rest

/-- `JSON.stringify` of a flat object given its fields in order. -/
def printJObj (ps : List (Str × JVal)) : Str := lbraceChar :: (printJPairs ps ++ [rbraceChar])

/-- Parse one hex digit (`JSON.parse` accepts both cases). -/
def parseHexDigit (c : Char) : Option Nat :=
  if 48 ≤ c.toNat ∧ c.toNat ≤ 57 then some (c.toNat - 48)
  else if 97 ≤ c.toNat ∧ c.toNat ≤ 102 then some (c.toNat - 87)
  else if 65 ≤ c.toNat ∧ c.toNat ≤ 70 then some (c.toNat - 55)
  else none

/-- Prepend a character to the string component of a parse result. -/
def consFst (c : Char) : Option (Str × Str) → Option (Str × Str)
  | some (s, r) => some (c :: s, r)
  | none => none

/-- Parse a JSON string body up to and including the closing quote,
returning the decoded content and the remaining input. -/
def parseJStringBody : Str → Option (Str × Str)
  | [] => none
  | c :: rest =>
    if c = quoteChar then some ([], rest)
    else if c = backslashChar then
      match rest with
      | [] => none
      | e :: rest1 =>
        if e = quoteChar then consFst quoteChar (parseJStringBody rest1)
        else if e = backslashChar then consFst backslashChar (parseJStringBody rest1)
        else if e = '/' then consFst '/' (parseJStringBody rest1)
        else if e = 'b' then consFst (Char.ofNat 8) (parseJStringBody rest1)
        else if e = 't' then consFst (Char.ofNat 9) (parseJStringBody rest1)
        else if e = 'n' then consFst (Char.ofNat 10) (parseJStringBody rest1)
        else if e = 'f' then consFst (Char.ofNat 12) (parseJStringBody rest1)
        else if e = 'r' then consFst (Char.ofNat 13) (parseJStringBody rest1)
        else if e = 'u' then
          match rest1 with
          | h1 :: h2 :: h3 :: h4 :: rest2 =>
            match parseHexDigit h1, parseHexDigit h2, parseHexDigit h3, parseHexDigit h4 with
            | some x1, some x2, some x3, some x4 =>
              let n := x1 * 4096 + x2 * 256 + x3 * 16 + x4
              if 55296 ≤ n ∧ n ≤ 57343 then none
              else consFst (Char.ofNat n) (parseJStringBody rest2)
            | _, _, _, _ => none
          | _ => none
        else none
    else if c.toNat < 32 then none
    else consFst c (parseJStringBody rest)

/-- Is the character a decimal digit? -/
def isDigitCh (c : Char) : Bool := 48 ≤ c.toNat ∧ c.toNat ≤ 57

/-- Split the longest digit prefix from the input. -/
def takeDigits : Str → Str × Str
  | [] => ([], [])
  | c :: rest =>
    if isDigitCh c then
      let p := takeDigits rest
      (c :: p.1, p.2)
    else ([], c :: rest)

/-- Numeric value of a digit string, most significant first. -/
def digitsToNat (ds : Str) : Nat := ds.foldl (fun a c => a * 10 + (c.toNat - 48)) 0

/-- Parse a non-negative JSON number (the fragment's only number shape). -/
def parseNatNum (s : Str) : Option (Nat × Str) :=
  let p := takeDigits s
  if p.1 = [] then none else some (digitsToNat p.1, p.2)

/-- Parse one JSON value of the fragment. -/
def parseJVal : Str → Option (JVal × Str)
  | [] => none
  | c :: rest =>
    if c = quoteChar then
      match parseJStringBody rest with
      | some (s, r) => some (.str s, r)
      | none => none
    else if isDigitCh c then
      match parseNatNum (c :: rest) with
      | some (n, r) => some (.num n, r)
      | none => none
    else none

/-- Parse object members after the opening brace (fuel-indexed to make
the recursion structural; the fuel strictly exceeds the member count). -/
def parseJPairsAux : Nat → Str → Option (List (Str × JVal) × Str)
  | 0, _ => none
  | fuel + 1, s =>
    match s with
    | [] => none
    | c :: rest =>
      if c = rbraceChar then some ([], rest)
      else if c = quoteChar then
        match parseJStringBody rest with
        | none => none
        | some (k, rest1) =>
          match rest1 with
          | c2 :: rest2 =>
            if c2 = ':' then
              match parseJVal rest2 with
              | none => none
              | some (v, rest3) =>
                match rest3 with
                | d :: rest4 =>
                  if d = ',' then
                    match parseJPairsAux fuel rest4 with
                    | some (ps, rest5) => some ((k, v) :: ps, rest5)
                    | none => none
                  else if d = rbraceChar then some ([(k, v)], rest4)
                  else none
                | [] => none
            else none
          | [] => none
      else none

/-- `JSON.parse` of a whole flat object (the input must be consumed
entirely, as `JSON.parse` requires). -/
def parseJson (s : Str) : Option (List (Str × JVal)) :=
  match s with
  | c :: rest =>
    if c = lbraceChar then
      match parseJPairsAux (rest.length + 1) rest with
      | some (ps, []) => some ps
      | _ => none
    else none
  | [] => none

/-! ## Join-token codec (`join-token.ts`) -/

/-- `JoinTokenPayload`: the claim set of a join token.  `exp` and `iat`
are epoch seconds (JS numbers, here naturals). -/
structure JoinTokenPayload where
  sub : Str
  room : Str
  name : Option Str
  exp : Nat
  iat : Option Nat
  jti : Option Str
deriving DecidableEq

/-- The payload's JSON fields in the order the dev issuer constructs the
object (absent optional fields are omitted, as `JSON.stringify` omits
`undefined` members). -/
def payloadPairs (p : JoinTokenPayload) : List (Str × JVal) :=
  (['s', 'u', 'b'], JVal.str p.sub) ::
  (['r', 'o', 'o', 'm'], JVal.str p.room) ::
  ((match p.name with
    | some nm => [((['n', 'a', 'm', 'e'] : Str), JVal.str nm)]
    | none => []) ++
   (match p.iat with
    | some t => [((['i', 'a', 't'] : Str), JVal.num t)]
    | none => []) ++
   [((['e', 'x', 'p'] : Str), JVal.num p.exp)] ++
   (match p.jti with
    | some j => [((['j', 't', 'i'] : Str), JVal.str j)]
    | none => []))

/-- The fixed header `{"alg":"HS256","typ":"JWT"}` as its JSON pairs. -/
def joinTokenHeaderPairs : List (Str × JVal) :=
  [(['a', 'l', 'g'], JVal.str ['H', 'S', '2', '5', '6']),
   (['t', 'y', 'p'], JVal.str ['J', 'W', 'T'])]

/-- `signJoinToken`:
`base64url(header) . base64url(payload) . base64url(HMAC-SHA256)`. -/
def signJoinToken (p : JoinTokenPayload) (secret : Str) : Str :=
  let encodedHeader := toBase64Url (toUtf8Bytes (printJObj joinTokenHeaderPairs))
  let encodedPayload := toBase64Url (toUtf8Bytes (printJObj (payloadPairs p)))
  let signingInput := encodedHeader ++ '.' :: encodedPayload
  let signature := hmacSha256 (toUtf8Bytes secret) (toUtf8Bytes signingInput)
  signingInput ++ '.' :: toBase64Url signature

/-- The failure kinds `verifyJoinToken` throws (by `Error` message). -/
inductive VerifyErr where
  | malformedToken
  | badBase64
  | invalidSignature
  | badHeaderJson
  | unsupportedHeader
  | badPayloadJson
  | invalidPayload
  | expired
  | roomMismatch
deriving DecidableEq

/-- `token.split(".")`. -/
def splitDots (s : Str) : List Str :=
  match s with
  | [] => [[]]
  | c :: rest =>
    let p := splitDots rest
    if c = '.' then [] :: p
    else match p with
      | h :: t => (c :: h) :: t
      | [] => [[c]]

/-- `timingSafeEqual` from `join-token.ts`. -/
def timingSafeEqual (a b : Bytes) : Bool :=
  if a.length ≠ b.length then false
  else ((List.zip a b).foldl (fun acc xy => Nat.lor acc (Nat.xor xy.1 xy.2)) 0) = 0

/-- Look up a string field of a parsed payload object (`payload.k` where
a string is expected; a missing or non-string member reads as absent). -/
def jGetStr (ps : List (Str × JVal)) (k : Str) : Option Str :=
  match alookup ps k with
  | some (JVal.str s) => some s
  | _ => none

/-- Look up a numeric field of a parsed payload object. -/
def jGetNum (ps : List (Str × JVal)) (k : Str) : Option Nat :=
  match alookup ps k with
  | some (JVal.num n) => some n
  | _ => none

/-- `verifyJoinToken` (the `Promise` rejection becomes `Except.error`):
split, constant-time signature comparison, header check, payload parse
and field checks, expiry, optional expected room. -/
def verifyJoinToken (token secret : Str) (expectedRoom : Option Str)
    (nowEpochSeconds : Nat) : Except VerifyErr JoinTokenPayload :=
  match splitDots token with
  | [encodedHeader, encodedPayload, encodedSignature] =>
    let signingInput := encodedHeader ++ '.' :: encodedPayload
    let expectedSignature :=
      toBase64Url (hmacSha256 (toUtf8Bytes secret) (toUtf8Bytes signingInput))
    match fromBase64Url encodedSignature, fromBase64Url expectedSignature with
    | some sigBytes, some expectedBytes =>
      if ¬ timingSafeEqual sigBytes expectedBytes then .error .invalidSignature
      else
        match fromBase64Url encodedHeader with
        | none => .error .badBase64
        | some headerBytes =>
          match utf8Decode headerBytes with
          | none => .error .badHeaderJson
          | some headerJson =>
            match parseJson headerJson with
            | none => .error .badHeaderJson
            | some headerPairs =>
              if jGetStr headerPairs ['a', 'l', 'g'] ≠ some ['H', 'S', '2', '5', '6'] ∨
                 jGetStr headerPairs ['t', 'y', 'p'] ≠ some ['J', 'W', 'T'] then
                .error .unsupportedHeader
              else
                match fromBase64Url encodedPayload with
                | none => .error .badBase64
                | some payloadBytes =>
                  match utf8Decode payloadBytes with
                  | none => .error .badPayloadJson
                  | some payloadJson =>
                    match parseJson payloadJson with
                    | none => .error .badPayloadJson
                    | some ps =>
                      match jGetStr ps ['s', 'u', 'b'], jGetStr ps ['r', 'o', 'o', 'm'],
                        jGetNum ps ['e', 'x', 'p'] with
                      | some sub, some room, some exp =>
                        if sub = [] ∨ room = [] then .error .invalidPayload
                        else if exp ≤ nowEpochSeconds then .error .expired
                        else
                          match expectedRoom with
                          | some er =>
                            if room ≠ er then .error .roomMismatch
                            else .ok { sub := sub, room := room,
                                       name := jGetStr ps ['n', 'a', 'm', 'e'], exp := exp,
                                       iat := jGetNum ps ['i', 'a', 't'],
                                       jti := jGetStr ps ['j', 't', 'i'] }
                          | none =>
                            .ok { sub := sub, room := room,
                                  name := jGetStr ps ['n', 'a', 'm', 'e'], exp := exp,
                                  iat := jGetNum ps ['i', 'a', 't'],
                                  jti := jGetStr ps ['j', 't', 'i'] }
                      | _, _, _ => .error .invalidPayload
    | _, _ => .error .badBase64
  | _ => .error .malformedToken

/-- Decimal digit sequence of `n` (empty for `0`); specification twin of
`natToDecAux`, used only in proofs. -/
def decRep (n : Nat) : Str :=
  if n = 0 then [] else decRep (n / 10) ++ [decDigit (n % 10)]
decreasing_by exact Nat.div_lt_self (Nat.pos_of_ne_zero (by assumption)) (by omega)

/-! ## TURN credential minter (`makeTurnCredentials` in the worker)

Environment strings already parsed: `TURN_TTL_SECONDS` is embedded as
the integer `Number(...)` yields, `none` when the variable is unset or
not a finite number (`toNumber` then falls back). -/

/-- The TURN-relevant environment configuration. -/
structure TurnEnvC where
  TURN_SHARED_SECRET : Option Str
  TURN_TTL_SECONDS : Option Int
deriving DecidableEq

/-- `toNumber(value, fallback)` over the parsed representation. -/
def toNumber (value : Option Int) (fallback : Int) : Int := value.getD fallback

/-- The `{username, credential, ttlSeconds}` triple. -/
structure TurnCredentials where
  username : Str
  credential : Str
  ttlSeconds : Int
deriving DecidableEq

/-- `makeTurnCredentials`: `none` without a (non-empty) shared secret;
otherwise the `<expiresAt>:<userId>` username and the base64
HMAC-SHA1 credential, with the TTL clamped to at least 60 seconds
(default 3600).  `nowMs` is `Date.now()`. -/
def makeTurnCredentials (env : TurnEnvC) (userId : Str) (nowMs : Nat) :
    Option TurnCredentials :=
  match env.TURN_SHARED_SECRET with
  | none => none
  | some turnSecret =>
    if turnSecret = [] then none
    else
      let ttlSeconds : Int := max 60 (toNumber env.TURN_TTL_SECONDS 3600)
      let expiresAt : Int := (nowMs / 1000 : Nat) + ttlSeconds
      let username := intToDec expiresAt ++ ':' :: userId
      some { username := username
             credential := hmacSha1Base64 turnSecret username
             ttlSeconds := ttlSeconds }

/-! ## Dev token issuer (`POST /token/issue` in the worker `fetch`)

Both worker variants (`src/index.ts` and the instrumented one) gate the
endpoint identically; the handler below embeds that shared logic.  The
request body is embedded post-JSON-decoding: `none` stands for an
unparsable body or one whose `userId`/`roomId` are not strings. -/

/-- Environment configuration consumed by the issuer. -/
structure IssueEnvC where
  ALLOW_DEV_TOKEN_ISSUER : Option Str
  DEV_ISSUER_SECRET : Option Str
  INTERNAL_API_SECRET : Str
  JOIN_TOKEN_SECRET : Str
deriving DecidableEq

/-- A decoded `/token/issue` request body. -/
structure IssueBody where
  userId : Str
  roomId : Str
  name : Option Str
  ttlSeconds : Option Int
deriving DecidableEq

/-- The issuer's response, by JSON error code or the issued payload. -/
inductive IssueOutcome where
  | devIssuerDisabled
  | forbidden
  | badRequest
  | issued (token : Str) (roomId userId : Str) (name : Option Str) (expiresAtMs : Int)
deriving DecidableEq

/-- Did the issuer reject with one of its 403 error codes? -/
def issue403 : IssueOutcome → Bool
  | .devIssuerDisabled => true
  | .forbidden => true
  | _ => false

/-- `toBoolean(value, false)`: `true` exactly for (case-insensitive)
`"true"`. -/
def toBooleanStr (value : Option Str) : Bool :=
  match value with
  | none => false
  | some s => s.map Char.toLower = ['t', 'r', 'u', 'e']

/-- The configured issuer secrets: `[DEV_ISSUER_SECRET,
INTERNAL_API_SECRET].filter(s => Boolean(s && s.length > 0))`. -/
def validSecrets (env : IssueEnvC) : List Str :=
  (match env.DEV_ISSUER_SECRET with
   | some s => if s = [] then [] else [s]
   | none => []) ++
  (if env.INTERNAL_API_SECRET = [] then [] else [env.INTERNAL_API_SECRET])

/-- The `/token/issue` handler.  `jti` stands for the random uuid the
handler draws; `nowEpochSeconds` is `Math.floor(Date.now() / 1000)`.
`if (providedSecret)` in the source is JS-truthiness: an empty-valued
header is falsy, so the secret check is skipped for it. -/
def tokenIssue (env : IssueEnvC) (xDevIssuerSecret xInternalSecret : Option Str)
    (body : Option IssueBody) (nowEpochSeconds : Nat) (jti : Str) : IssueOutcome :=
  if ¬ toBooleanStr env.ALLOW_DEV_TOKEN_ISSUER then .devIssuerDisabled
  else
    let providedSecret :=
      match xDevIssuerSecret with
      | some s => some s
      | none => xInternalSecret
    let secretRejected : Bool :=
      match providedSecret with
      | some s => if s = [] then false else decide (s ∉ validSecrets env)
      | none => false
    if secretRejected then .forbidden
    else
      match body with
      | none => .badRequest
      | some b =>
        let ttlSeconds : Int := max 30 (min 600 (toNumber b.ttlSeconds 120))
        let exp : Int := (nowEpochSeconds : Int) + ttlSeconds
        let token := signJoinToken
          { sub := b.userId, room := b.roomId, name := b.name,
            exp := exp.toNat, iat := some nowEpochSeconds, jti := some jti }
          env.JOIN_TOKEN_SECRET
        .issued token b.roomId b.userId b.name (exp * 1000)

/-! ## Rate limiter (`packages/server/src/do/rate-limit-do.ts`)

`RateLimitDO.fetch` with a valid request body `{key, max, windowSec}`.
Durable-object instances are sharded per limited key, so the bucket for
the request key is the whole relevant state; the embedded function maps
the (optional) stored bucket and the current time to the response
together with the bucket written back to storage. -/

/-- Stored bucket `{count, windowStartMs}` of the fixed-window limiter. -/
structure RateLimitBucket where
  count : Nat
  windowStartMs : Int
deriving DecidableEq

/-- Result of one `check`: the JSON response fields plus the bucket that
was written back to storage. -/
structure RateLimitOutcome where
  allowed : Bool
  remaining : Int
  resetAt : Int
  bucket : RateLimitBucket
deriving DecidableEq

/-- `RateLimitDO.fetch` on a valid body, embedded over the stored bucket.
`max` and `windowSec` are validated positive by `isRateLimitRequest`. -/
def rateLimitCheck (stored : Option RateLimitBucket) (now : Int) (maxReq windowSec : Nat) :
    RateLimitOutcome :=
  let windowMs : Int := (windowSec : Int) * 1000
  let bucket : RateLimitBucket :=
    match stored with
    | none => { count := 0, windowStartMs := now }
    | some b => if now - b.windowStartMs ≥ windowMs then { count := 0, windowStartMs := now } else b
  let allowed := bucket.count < maxReq
  let bucket' := if allowed then { bucket with count := bucket.count + 1 } else bucket
  { allowed := allowed
    remaining := max 0 ((maxReq : Int) - (bucket'.count : Int))
    resetAt := bucket'.windowStartMs + windowMs
    bucket := bucket' }

/-! ## Room state machine (`signaling-room-do.ts`)

The per-room durable object.  Its maps and key/value stores are the
association lists of a `RoomState`; sockets are opaque handles.  The
runtime's socket tags (`state.acceptWebSocket(server, [peer.peerId])`,
read back by `peerIdForSocket`) are the append-only `tags` table.  Each
operation returns the successor state and its I/O events, in the order
the source emits them.  Cold-start hydration (`ensureHydrated`) concerns
re-population after an eviction and is outside the operation set. -/

/-- `RESUME_TTL_MS` (30 s). -/
def RESUME_TTL_MS : Nat := 30000

/-- `DELIVERY_RETRY_INTERVAL_MS` (1.5 s). -/
def DELIVERY_RETRY_INTERVAL_MS : Nat := 1500

/-- `DELIVERY_MAX_ATTEMPTS`. -/
def DELIVERY_MAX_ATTEMPTS : Nat := 12

/-- `DELIVERY_MAX_AGE_MS` (90 s). -/
def DELIVERY_MAX_AGE_MS : Nat := 90000

/-- `PeerRecord`. -/
structure PeerRecord where
  peerId : Nat
  userId : Str
  roomId : Str
  aliasName : Option Str
  resumeToken : Nat
  resumeExpiresAt : Nat
  connected : Bool
  lastSeenAt : Nat
deriving DecidableEq

/-- `ResumeRecord`. -/
structure ResumeRecord where
  token : Nat
  peerId : Nat
  userId : Str
  roomId : Str
  aliasName : Option Str
  expiresAt : Nat
deriving DecidableEq

/-- `PendingDeliveryRecord`; the signaling payload is opaque to the
server and embedded as an uninterpreted string. -/
structure PendingDeliveryRecord where
  deliveryId : Nat
  fromPeerId : Nat
  fromUserId : Str
  toPeerId : Nat
  payload : Str
  sentAt : Nat
  attempts : Nat
  nextRetryAt : Nat
  expiresAt : Nat
deriving DecidableEq

/-- `PeerSummary` from the wire protocol. -/
structure PeerSummaryC where
  peerId : Nat
  userId : Str
  roomId : Str
  name : Option Str
deriving DecidableEq

/-- In-band error codes the room emits. -/
inductive ErrCode where
  | UNBOUND_SOCKET
  | SESSION_NOT_FOUND
  | ALIAS_INVALID
  | ALIAS_TAKEN
  | TARGET_NOT_FOUND
deriving DecidableEq

/-- Server-to-client messages (human-readable `message` texts of error
frames are dropped; codes are kept). -/
inductive ServerMsg where
  | welcome (peerId : Nat) (userId roomId : Str) (resumeToken resumeExpiresAt : Nat)
      (peers : List PeerSummaryC)
  | presenceJoined (peer : PeerSummaryC)
  | presenceLeft (peerId : Nat) (userId : Str)
  | signalMessage (deliveryId fromPeerId : Nat) (fromUserId : Str) (toPeerId : Nat)
      (payload : Str) (sentAt : Nat)
  | signalAcked (deliveryId byPeerId atMs : Nat)
  | discoveryClaimed (name : Str) (userId : Str) (requestId : Option Str)
  | discoveryResolved (requestId : Option Str) (name : Str) (userId : Str)
      (peers : List PeerSummaryC)
  | pong (ts : Nat)
  | errorMsg (code : ErrCode) (requestId : Option Str)
deriving DecidableEq

/-- One observable I/O action of the room: a WebSocket send or close. -/
inductive RoomEvent where
  | sent (socket : Nat) (msg : ServerMsg)
  | closed (socket : Nat) (code : Nat)
deriving DecidableEq

/-- Well-typed client messages (`asClientMessage` only checks the
discriminant; ill-typed fields surface as protocol errors not under
any claim here). -/
inductive ClientMsg where
  | heartbeatPing (ts : Nat)
  | discoveryClaim (name : Str) (requestId : Option Str)
  | discoveryResolve (name : Str) (requestId : Option Str)
  | signalSend (toPeerId : Nat) (payload : Str) (deliveryId : Option Nat)
      (requestId : Option Str)
  | signalAck (deliveryId toPeerId : Nat) (requestId : Option Str)
deriving DecidableEq

/-- The room's complete mutable state.  `nextId` feeds the uuid
generator (`newId`); `tags` is the append-only socket-tag table;
`alarmTime` is the scheduled alarm, `none` when cancelled. -/
structure RoomState where
  nextId : Nat
  peers : List (Nat × PeerRecord)
  sockets : List (Nat × Nat)
  tags : List (Nat × Nat)
  aliasToPeerId : List (Str × Nat)
  pendingStore : List ((Nat × Nat) × PendingDeliveryRecord)
  resumeStore : List (Nat × ResumeRecord)
  alarmTime : Option Nat
deriving DecidableEq

/-- The freshly created (empty) room. -/
def initRoom : RoomState :=
  { nextId := 0, peers := [], sockets := [], tags := [], aliasToPeerId := [],
    pendingStore := [], resumeStore := [], alarmTime := none }

/-- Whitespace for `String.prototype.trim`. -/
def isSpaceCh (c : Char) : Bool :=
  c.toNat = 32 ∨ c.toNat = 9 ∨ c.toNat = 10 ∨ c.toNat = 13 ∨ c.toNat = 11 ∨ c.toNat = 12

/-- `value.trim()`. -/
def trimStr (s : Str) : Str :=
  ((s.dropWhile isSpaceCh).reverse.dropWhile isSpaceCh).reverse

/-- First-position alias character: `[a-z0-9]`. -/
def isAliasHeadCh (c : Char) : Bool :=
  (97 ≤ c.toNat ∧ c.toNat ≤ 122) ∨ (48 ≤ c.toNat ∧ c.toNat ≤ 57)

/-- Alias tail character: `[a-z0-9_.-]`. -/
def isAliasTailCh (c : Char) : Bool :=
  isAliasHeadCh c ∨ c = '_' ∨ c = '.' ∨ c = '-'

/-- `normalizeAlias`: trim, lowercase, length 2–32, charset
`[a-z0-9][a-z0-9_.-]*`; `null` otherwise. -/
def normalizeAlias (aliasName : Option Str) : Option Str :=
  match aliasName with
  | none => none
  | some a =>
    if a = [] then none
    else
      let trimmed := (trimStr a).map Char.toLower
      if trimmed.length < 2 ∨ 32 < trimmed.length then none
      else
        match trimmed with
        | [] => none
        | c :: rest =>
          if isAliasHeadCh c ∧ rest.all isAliasTailCh then some (c :: rest) else none

/-- `toPeerSummary`. -/
def toPeerSummary (p : PeerRecord) : PeerSummaryC :=
  { peerId := p.peerId, userId := p.userId, roomId := p.roomId, name := p.aliasName }

/-- `listConnectedPeers(exceptPeerId)`. -/
def listConnectedPeers (s : RoomState) (exceptPeerId : Nat) : List PeerSummaryC :=
  s.peers.filterMap fun e =>
    if e.2.connected = true ∧ e.2.peerId ≠ exceptPeerId then some (toPeerSummary e.2) else none

/-- `broadcast(payload, exceptPeerId?)`: a send on every bound socket
except the excluded peer's. -/
def broadcast (s : RoomState) (msg : ServerMsg) (exceptPeerId : Option Nat) : List RoomEvent :=
  s.sockets.filterMap fun e =>
    if exceptPeerId = some e.1 then none else some (RoomEvent.sent e.2 msg)

/-- `scheduleAlarmAt`: re-arm only earlier than the current alarm. -/
def scheduleAlarmAt (s : RoomState) (at_ : Nat) : RoomState :=
  match s.alarmTime with
  | none => { s with alarmTime := some at_ }
  | some current => if at_ < current then { s with alarmTime := some at_ } else s

/-- `createNewPeer`: fresh peer, not yet connected.  (The source draws a
throw-away resume token here that `fetch` immediately overwrites; the
placeholder value is irrelevant and never stored.) -/
def createNewPeer (peerId : Nat) (userId roomId : Str) (now : Nat) : PeerRecord :=
  { peerId := peerId, userId := userId, roomId := roomId, aliasName := none,
    resumeToken := peerId, resumeExpiresAt := now + RESUME_TTL_MS,
    connected := false, lastSeenAt := now }

/-- `assignAlias`: refuse an alias claimed by a different peer; release
the claimer's previous alias mapping; bind the new one. -/
def assignAlias (s : RoomState) (peerId : Nat) (aliasName : Str) :
    RoomState × Option ErrCode :=
  match alookup s.peers peerId with
  | none => (s, some .SESSION_NOT_FOUND)
  | some peer =>
    let conflict : Bool :=
      match alookup s.aliasToPeerId aliasName with
      | some claimedBy => decide (claimedBy ≠ peerId)
      | none => false
    if conflict = true then (s, some .ALIAS_TAKEN)
    else
      let m1 :=
        match peer.aliasName with
        | some old =>
          if alookup s.aliasToPeerId old = some peerId then adel s.aliasToPeerId old
          else s.aliasToPeerId
        | none => s.aliasToPeerId
      ({ s with
           aliasToPeerId := aput m1 aliasName peerId,
           peers := aput s.peers peerId { peer with aliasName := some aliasName } }, none)

/-- The body of `tryDeliverPending` as a record transformer: `none`
means the record was expired and deleted; otherwise the updated record
(attempt counted only when the recipient has a socket) and any send. -/
def tryDeliverCore (sockets : List (Nat × Nat)) (r : PendingDeliveryRecord) (now : Nat) :
    Option PendingDeliveryRecord × List RoomEvent :=
  if r.expiresAt ≤ now then (none, [])
  else
    let step :=
      match alookup sockets r.toPeerId with
      | some sk =>
        ({ r with attempts := r.attempts + 1 },
         [RoomEvent.sent sk (.signalMessage r.deliveryId r.fromPeerId r.fromUserId
            r.toPeerId r.payload r.sentAt)])
      | none => (r, ([] : List RoomEvent))
    (some { step.1 with nextRetryAt := now + DELIVERY_RETRY_INTERVAL_MS }, step.2)

/-- `tryDeliverPending`: apply the core transformer to the store. -/
def tryDeliverPending (s : RoomState) (r : PendingDeliveryRecord) (now : Nat) :
    RoomState × List RoomEvent :=
  match tryDeliverCore s.sockets r now with
  | (none, evs) =>
    ({ s with pendingStore := adel s.pendingStore (r.toPeerId, r.deliveryId) }, evs)
  | (some r2, evs) =>
    ({ s with pendingStore := aput s.pendingStore (r.toPeerId, r.deliveryId) r2 }, evs)

/-- `replayPendingForPeer`: walk the stored deliveries addressed to the
peer (a snapshot, as `storage.list` returns one), deleting the expired
ones and re-attempting the rest. -/
def replayPendingForPeer (s : RoomState) (peerId : Nat) (now : Nat) :
    RoomState × List RoomEvent :=
  let snapshot := s.pendingStore.filter fun e => e.1.1 = peerId
  snapshot.foldl
    (fun acc e =>
      if e.2.expiresAt ≤ now then
        ({ acc.1 with pendingStore := adel acc.1.pendingStore e.1 }, acc.2)
      else
        let r := tryDeliverPending acc.1 e.2 now
        (r.1, acc.2 ++ r.2))
    (s, [])

/-- `tryResumeByToken`: consume a live matching resume record and
re-adopt its peer; expired records are deleted on sight. -/
def tryResumeByToken (s : RoomState) (token : Nat) (userId roomId : Str) (now : Nat) :
    RoomState × Option PeerRecord :=
  match alookup s.resumeStore token with
  | none => (s, none)
  | some record =>
    if record.expiresAt ≤ now then
      ({ s with resumeStore := adel s.resumeStore token }, none)
    else if record.userId ≠ userId ∨ record.roomId ≠ roomId then (s, none)
    else
      let s1 := { s with resumeStore := adel s.resumeStore token }
      let base :=
        match alookup s.peers record.peerId with
        | some p => p
        | none =>
          { peerId := record.peerId, userId := record.userId, roomId := record.roomId,
            aliasName := record.aliasName, resumeToken := record.token,
            resumeExpiresAt := record.expiresAt, connected := false, lastSeenAt := now }
      (s1, some { base with
                    aliasName := record.aliasName, userId := record.userId,
                    roomId := record.roomId, resumeToken := record.token,
                    resumeExpiresAt := record.expiresAt })

/-- The resume step of `fetch`: the state after the resume-record
lookup and the re-adopted peer, if any. -/
def attachAdopt (s : RoomState) (userId roomId : Str) (requestedResumeToken : Option Nat)
    (now : Nat) : RoomState × Option PeerRecord :=
  match requestedResumeToken with
  | some t => tryResumeByToken s t userId roomId now
  | none => (s, none)

/-- The peer an attach adopts: the resumed peer, else a fresh one. -/
def attachAdopted (s : RoomState) (userId roomId : Str) (requestedResumeToken : Option Nat)
    (now : Nat) : PeerRecord :=
  match (attachAdopt s userId roomId requestedResumeToken now).2 with
  | some p => p
  | none =>
    createNewPeer (attachAdopt s userId roomId requestedResumeToken now).1.nextId
      userId roomId now

/-- The first fresh id an attach draws after adopting its peer (the
rotated resume token; the new socket handle is the next one). -/
def attachBaseId (s : RoomState) (userId roomId : Str) (requestedResumeToken : Option Nat)
    (now : Nat) : Nat :=
  match (attachAdopt s userId roomId requestedResumeToken now).2 with
  | some _ => (attachAdopt s userId roomId requestedResumeToken now).1.nextId
  | none => (attachAdopt s userId roomId requestedResumeToken now).1.nextId + 1

/-- The adopted peer as it is bound: rotated resume token, fresh
`resumeExpiresAt`, connected. -/
def attachPeer1 (s : RoomState) (userId roomId : Str) (requestedResumeToken : Option Nat)
    (now : Nat) : PeerRecord :=
  { attachAdopted s userId roomId requestedResumeToken now with
      resumeToken := attachBaseId s userId roomId requestedResumeToken now,
      resumeExpiresAt := now + RESUME_TTL_MS, connected := true, lastSeenAt := now }

/-- Was the adopted peer already connected (`wasConnected` in `fetch`)? -/
def attachWasConnected (s : RoomState) (userId roomId : Str)
    (requestedResumeToken : Option Nat) (now : Nat) : Bool :=
  match (attachAdopt s userId roomId requestedResumeToken now).2 with
  | some p => p.connected
  | none => false

/-- The state after the supersession close and the new socket/tag/peer
bindings (`fetch` up to and including `this.peers.set`). -/
def attachStateBound (s : RoomState) (userId roomId : Str) (requestedResumeToken : Option Nat)
    (now : Nat) : RoomState :=
  let rs := attachAdopt s userId roomId requestedResumeToken now
  let peer0 := attachAdopted s userId roomId requestedResumeToken now
  let n1 := attachBaseId s userId roomId requestedResumeToken now
  let s2 :=
    match alookup rs.1.sockets peer0.peerId with
    | some _ => { rs.1 with sockets := adel rs.1.sockets peer0.peerId }
    | none => rs.1
  { s2 with
      nextId := n1 + 2,
      tags := aput s2.tags (n1 + 1) peer0.peerId,
      sockets := aput s2.sockets peer0.peerId (n1 + 1),
      peers := aput s2.peers peer0.peerId
        (attachPeer1 s userId roomId requestedResumeToken now) }

/-- The state after the incoming-alias assignment attempt, with its
error, if any (`incomingAlias = aliasFromToken ?? peer.alias`). -/
def attachAliased (s : RoomState) (userId roomId : Str) (nameHeader : Option Str)
    (requestedResumeToken : Option Nat) (now : Nat) : RoomState × Option ErrCode :=
  let incomingAlias :=
    match normalizeAlias nameHeader with
    | some a => some a
    | none => (attachPeer1 s userId roomId requestedResumeToken now).aliasName
  match incomingAlias with
  | some a =>
    assignAlias (attachStateBound s userId roomId requestedResumeToken now)
      (attachAdopted s userId roomId requestedResumeToken now).peerId a
  | none => (attachStateBound s userId roomId requestedResumeToken now, none)

/-- `SignalingRoomDO.fetch` on an authenticated WebSocket upgrade:
resume or create the peer, supersede a prior socket with close 1012,
rotate the resume token, bind the new socket, attempt the token-name
alias, send `session.welcome`, broadcast `presence.joined` for a newly
connected peer, replay pending deliveries, schedule maintenance. -/
def applyAttach (s : RoomState) (userId roomId : Str) (nameHeader : Option Str)
    (requestedResumeToken : Option Nat) (now : Nat) : RoomState × List RoomEvent :=
  if userId = [] ∨ roomId = [] then (s, [])
  else
    let pid := (attachAdopted s userId roomId requestedResumeToken now).peerId
    let newSock := attachBaseId s userId roomId requestedResumeToken now + 1
    let closeEvs : List RoomEvent :=
      match alookup (attachAdopt s userId roomId requestedResumeToken now).1.sockets pid with
      | some o => [RoomEvent.closed o 1012]
      | none => []
    let as4 := attachAliased s userId roomId nameHeader requestedResumeToken now
    let s4 := as4.1
    let aliasEvs : List RoomEvent :=
      match as4.2 with
      | some code => [RoomEvent.sent newSock (.errorMsg code none)]
      | none => []
    let peerNow :=
      match alookup s4.peers pid with
      | some p => p
      | none => attachPeer1 s userId roomId requestedResumeToken now
    let welcomeEv := RoomEvent.sent newSock (.welcome peerNow.peerId peerNow.userId
      peerNow.roomId peerNow.resumeToken peerNow.resumeExpiresAt
      (listConnectedPeers s4 pid))
    let joinEvs : List RoomEvent :=
      if attachWasConnected s userId roomId requestedResumeToken now then []
      else broadcast s4 (.presenceJoined (toPeerSummary peerNow)) (some pid)
    let rp := replayPendingForPeer s4 pid now
    (scheduleAlarmAt rp.1 (now + RESUME_TTL_MS),
     closeEvs ++ aliasEvs ++ [welcomeEv] ++ joinEvs ++ rp.2)

/-- `webSocketMessage` after decode, on a well-typed client message. -/
def handleMessage (s : RoomState) (socket : Nat) (msg : ClientMsg) (now : Nat) :
    RoomState × List RoomEvent :=
  match alookup s.tags socket with
  | none => (s, [RoomEvent.sent socket (.errorMsg .UNBOUND_SOCKET none)])
  | some peerId =>
    match alookup s.peers peerId with
    | none => (s, [RoomEvent.sent socket (.errorMsg .SESSION_NOT_FOUND none)])
    | some peer0 =>
      if peer0.connected = false then
        (s, [RoomEvent.sent socket (.errorMsg .SESSION_NOT_FOUND none)])
      else
        let peer := { peer0 with lastSeenAt := now }
        let s0 := { s with peers := aput s.peers peerId peer }
        match msg with
        | .heartbeatPing ts => (s0, [RoomEvent.sent socket (.pong ts)])
        | .discoveryClaim nm rq =>
          match normalizeAlias (some nm) with
          | none => (s0, [RoomEvent.sent socket (.errorMsg .ALIAS_INVALID rq)])
          | some normalized =>
            let ar := assignAlias s0 peerId normalized
            match ar.2 with
            | some code => (ar.1, [RoomEvent.sent socket (.errorMsg code rq)])
            | none =>
              let pNow :=
                match alookup ar.1.peers peerId with
                | some p => p
                | none => peer
              (ar.1, RoomEvent.sent socket (.discoveryClaimed normalized peer.userId rq) ::
                broadcast ar.1 (.presenceJoined (toPeerSummary pNow)) (some peerId))
        | .discoveryResolve nm rq =>
          match normalizeAlias (some nm) with
          | none => (s0, [RoomEvent.sent socket (.errorMsg .ALIAS_INVALID rq)])
          | some normalized =>
            let target :=
              match alookup s0.aliasToPeerId normalized with
              | some pid => alookup s0.peers pid
              | none => none
            let peersOut :=
              match target with
              | some t => if t.connected then [toPeerSummary t] else []
              | none => []
            let uid :=
              match target with
              | some t => t.userId
              | none => []
            (s0, [RoomEvent.sent socket (.discoveryResolved rq normalized uid peersOut)])
        | .signalSend toPeerId payload deliveryIdReq rq =>
          if (alookup s0.peers toPeerId).isNone then
            (s0, [RoomEvent.sent socket (.errorMsg .TARGET_NOT_FOUND rq)])
          else
            let ds :=
              match deliveryIdReq with
              | some d => (d, s0)
              | none => (s0.nextId, { s0 with nextId := s0.nextId + 1 })
            let pending : PendingDeliveryRecord :=
              { deliveryId := ds.1, fromPeerId := peer.peerId, fromUserId := peer.userId,
                toPeerId := toPeerId, payload := payload, sentAt := now, attempts := 0,
                nextRetryAt := now, expiresAt := now + DELIVERY_MAX_AGE_MS }
            let sB := { ds.2 with
              pendingStore := aput ds.2.pendingStore (toPeerId, ds.1) pending }
            let td := tryDeliverPending sB pending now
            let sC := scheduleAlarmAt td.1 (now + DELIVERY_RETRY_INTERVAL_MS)
            (sC, td.2 ++ [RoomEvent.sent socket (.signalAcked ds.1 peer.peerId now)])
        | .signalAck dId _toPeer _rq =>
          match alookup s0.pendingStore (peer.peerId, dId) with
          | none => (s0, [])
          | some pending =>
            let sA := { s0 with pendingStore := adel s0.pendingStore (peer.peerId, dId) }
            match alookup sA.sockets pending.fromPeerId with
            | some senderSocket =>
              (sA, [RoomEvent.sent senderSocket (.signalAcked pending.deliveryId
                peer.peerId now)])
            | none => (sA, [])

/-- `webSocketClose` / `webSocketError` → `handleSocketDeparture`. -/
def handleSocketDeparture (s : RoomState) (socket : Nat) (now : Nat) :
    RoomState × List RoomEvent :=
  match alookup s.tags socket with
  | none => (s, [])
  | some peerId =>
    match alookup s.peers peerId with
    | none => (s, [])
    | some peer =>
      let s1 := { s with sockets := adel s.sockets peerId }
      if peer.connected = false then (s1, [])
      else
        let peer1 := { peer with connected := false, lastSeenAt := now }
        let record : ResumeRecord :=
          { token := peer.resumeToken, peerId := peer.peerId, userId := peer.userId,
            roomId := peer.roomId, aliasName := peer.aliasName, expiresAt := peer.resumeExpiresAt }
        let s2 := { s1 with
                      peers := aput s1.peers peerId peer1,
                      resumeStore := aput s1.resumeStore peer.resumeToken record }
        let s3 := scheduleAlarmAt s2 peer.resumeExpiresAt
        (s3, broadcast s3 (.presenceLeft peer.peerId peer.userId) none)

/-- `min`-accumulator for the alarm's next-wake computation. -/
def minOpt (a : Option Nat) (n : Nat) : Option Nat :=
  match a with
  | none => some n
  | some m => some (min m n)

/-- Specification twin of the alarm's next-wake accumulation over the
pending walk: fold of `min(nextRetryAt, expiresAt)` over the entries. -/
def foldMinP (acc : Option Nat) (l : List ((Nat × Nat) × PendingDeliveryRecord)) : Option Nat :=
  l.foldl (fun a e => minOpt (minOpt a e.2.nextRetryAt) e.2.expiresAt) acc

/-- Specification twin of the next-wake accumulation over the resume
walk: fold of `expiresAt` over the entries. -/
def foldMinR (acc : Option Nat) (l : List (Nat × ResumeRecord)) : Option Nat :=
  l.foldl (fun a e => minOpt a e.2.expiresAt) acc

/-- The alarm's walk over the pending-delivery store: delete expired
records, delete exhausted due records, re-attempt the remaining due
ones, and accumulate the minimum of the survivors'
`min(nextRetryAt, expiresAt)`.  Returns the surviving entries (with
their updates), the accumulated wake time and the emitted sends. -/
def alarmPend (sockets : List (Nat × Nat)) (now : Nat) (acc : Option Nat) :
    List ((Nat × Nat) × PendingDeliveryRecord) →
      List ((Nat × Nat) × PendingDeliveryRecord) × Option Nat × List RoomEvent
  | [] => ([], acc, [])
  | e :: rest =>
    if e.2.expiresAt ≤ now then alarmPend sockets now acc rest
    else if e.2.nextRetryAt ≤ now then
      if DELIVERY_MAX_ATTEMPTS ≤ e.2.attempts then alarmPend sockets now acc rest
      else
        match tryDeliverCore sockets e.2 now with
        | (some r2, evs) =>
          let res := alarmPend sockets now (minOpt (minOpt acc r2.nextRetryAt) r2.expiresAt) rest
          ((e.1, r2) :: res.1, res.2.1, evs ++ res.2.2)
        | (none, evs) =>
          let res := alarmPend sockets now acc rest
          (res.1, res.2.1, evs ++ res.2.2)
    else
      let res := alarmPend sockets now (minOpt (minOpt acc e.2.nextRetryAt) e.2.expiresAt) rest
      (e :: res.1, res.2.1, res.2.2)

/-- The alarm's walk over the resume-record store: delete expired
records, garbage-collecting the backing still-detached peer (and its
alias binding) when it still holds the record's token; accumulate the
minimum surviving `expiresAt`. -/
def alarmResume (now : Nat) (acc : Option Nat) (peers : List (Nat × PeerRecord))
    (aliasMap : List (Str × Nat)) :
    List (Nat × ResumeRecord) →
      List (Nat × ResumeRecord) × Option Nat × List (Nat × PeerRecord) × List (Str × Nat)
  | [] => ([], acc, peers, aliasMap)
  | e :: rest =>
    if e.2.expiresAt ≤ now then
      let pa :=
        match alookup peers e.2.peerId with
        | some p =>
          if p.connected = false ∧ p.resumeToken = e.2.token then
            (adel peers p.peerId,
             match p.aliasName with
             | some a => if alookup aliasMap a = some p.peerId then adel aliasMap a
                         else aliasMap
             | none => aliasMap)
          else (peers, aliasMap)
        | none => (peers, aliasMap)
      alarmResume now acc pa.1 pa.2 rest
    else
      let res := alarmResume now (minOpt acc e.2.expiresAt) peers aliasMap rest
      (e :: res.1, res.2)

/-- `SignalingRoomDO.alarm` (`tick(now)`): both walks, then re-arm the
timer at the overall minimum or cancel it. -/
def alarm (s : RoomState) (now : Nat) : RoomState × List RoomEvent :=
  let pend := alarmPend s.sockets now none s.pendingStore
  let res := alarmResume now pend.2.1 s.peers s.aliasToPeerId s.resumeStore
  ({ s with
       pendingStore := pend.1, resumeStore := res.1, peers := res.2.2.1,
       aliasToPeerId := res.2.2.2, alarmTime := res.2.1 }, pend.2.2)

/-- The room's externally triggered operations. -/
inductive RoomOp where
  | attach (userId roomId : Str) (nameHeader : Option Str)
      (requestedResumeToken : Option Nat) (now : Nat)
  | message (socket : Nat) (msg : ClientMsg) (now : Nat)
  | depart (socket : Nat) (now : Nat)
  | tick (now : Nat)
deriving DecidableEq

/-- Dispatch one operation. -/
def applyOp (s : RoomState) : RoomOp → RoomState × List RoomEvent
  | .attach u r nh t now => applyAttach s u r nh t now
  | .message sock m now => handleMessage s sock m now
  | .depart sock now => handleSocketDeparture s sock now
  | .tick now => alarm s now

/-- Run a sequence of operations from a state. -/
def runRoom (s : RoomState) (ops : List RoomOp) : RoomState :=
  ops.foldl (fun st op => (applyOp st op).1) s

/-- C8: the fixed-window rate limiter behaves as specified: an elapsed
window first resets the bucket to `{0, now}`; the call allows exactly
when the (possibly reset) count is below `max` and increments the count
on allow; and the returned `resetAt` and `remaining` are
`windowStartMs + window` and `max(0, max - count)` over the post-call
bucket. -/
theorem rateLimitCheck_spec (b : RateLimitBucket) (now : Int) (maxReq windowSec : Nat) :
    let windowMs : Int := (windowSec : Int) * 1000
    let b1 := if now - b.windowStartMs ≥ windowMs then
      ({ count := 0, windowStartMs := now } : RateLimitBucket) else b
    let r := rateLimitCheck (some b) now maxReq windowSec
    (r.allowed = true ↔ b1.count < maxReq) ∧
    r.bucket = (if b1.count < maxReq then { b1 with count := b1.count + 1 } else b1) ∧
    r.resetAt = r.bucket.windowStartMs + windowMs ∧
    r.remaining = max 0 ((maxReq : Int) - (r.bucket.count : Int)) := by
  simp only [rateLimitCheck]
  by_cases hw : now - b.windowStartMs ≥ (windowSec : Int) * 1000 <;>
    by_cases hc : ({ count := 0, windowStartMs := now } : RateLimitBucket).count < maxReq <;>
      simp_all

/-- The delivery-record invariant asserted by the specification. -/
def pendingDeliveryInvariant (s : RoomState) : Prop :=
  ∀ e ∈ s.pendingStore,
    e.2.attempts ≤ DELIVERY_MAX_ATTEMPTS ∧
    e.2.expiresAt ≤ e.2.sentAt + DELIVERY_MAX_AGE_MS

/-- Is the operation free of resume adoption (attaches carry no resume
token)? -/
def noResumeAttach : RoomOp → Prop
  | .attach _ _ _ t _ => t = none
  | _ => True

instance : DecidablePred noResumeAttach := by
  intro op
  cases op <;> simp only [noResumeAttach] <;> infer_instance

instance (s : RoomState) : Decidable (pendingDeliveryInvariant s) := by
  unfold pendingDeliveryInvariant; infer_instance

def keysBound (s : RoomState) : Prop :=
  (∀ e ∈ s.peers, e.1 < s.nextId) ∧ (∀ e ∈ s.pendingStore, e.1.1 < s.nextId)

def c3wOps : List RoomOp :=
  [RoomOp.attach ['a'] ['r'] none none 0,
   RoomOp.attach ['b'] ['r'] none none 0,
   RoomOp.message 2 (ClientMsg.signalSend 3 [] none none) 0]

def c3CyclePairs : List (Nat × Nat) :=
  [(5, 4), (8, 7), (10, 9), (12, 11), (14, 13), (16, 15), (18, 17), (20, 19),
   (22, 21), (24, 23), (26, 25), (28, 27)]

def c3Ops : List RoomOp :=
  c3wOps ++ c3CyclePairs.foldr
    (fun p acc => RoomOp.depart p.1 0 :: RoomOp.attach ['b'] ['r'] none (some p.2) 0 :: acc) []

/-- The room's structural invariant: unique keys, key-field agreement,
peer-alias/table agreement in both directions, and resume records backed
by matching detached peers. -/
def RoomInvC (nextId : Nat) (peers : List (Nat × PeerRecord)) (aliasMap : List (Str × Nat))
    (resumeStore : List (Nat × ResumeRecord)) : Prop :=
  (peers.map Prod.fst).Nodup ∧
  (aliasMap.map Prod.fst).Nodup ∧
  (resumeStore.map Prod.fst).Nodup ∧
  (∀ e ∈ peers, e.2.peerId = e.1 ∧ e.1 < nextId) ∧
  (∀ e ∈ peers, ∀ a, e.2.aliasName = some a → alookup aliasMap a = some e.1) ∧
  (∀ e ∈ aliasMap, ∃ p, alookup peers e.2 = some p ∧ p.aliasName = some e.1) ∧
  (∀ e ∈ resumeStore, e.2.token = e.1 ∧
    ∃ p, alookup peers e.2.peerId = some p ∧ p.connected = false ∧
      p.aliasName = e.2.aliasName ∧ p.resumeToken = e.1)

def RoomInv (s : RoomState) : Prop :=
  RoomInvC s.nextId s.peers s.aliasToPeerId s.resumeStore

def c4wOps : List RoomOp := [RoomOp.attach ['a'] ['r'] (some ['n', 'm']) none 0]

/-! ## Concrete inputs for closed witnesses and counterexamples -/

/-- A pending delivery addressed to peer 2, used by the C6 theorems. -/
def c6Rec : PendingDeliveryRecord :=
  { deliveryId := 1, fromPeerId := 0, fromUserId := [], toPeerId := 2, payload := [],
    sentAt := 0, attempts := 3, nextRetryAt := 0, expiresAt := 5 }

/-- A room storing `c6Rec` and binding no socket for peer 2. -/
def c6Room : RoomState := { initRoom with pendingStore := [((2, 1), c6Rec)] }

/-- Issuer environment with the dev issuer enabled and both secrets
configured. -/
def c1Env : IssueEnvC :=
  { ALLOW_DEV_TOKEN_ISSUER := some ['t', 'r', 'u', 'e'], DEV_ISSUER_SECRET := some ['d'],
    INTERNAL_API_SECRET := ['i'], JOIN_TOKEN_SECRET := ['k'] }

/-- A well-formed issuance request body. -/
def c1Body : IssueBody := { userId := ['u'], roomId := ['r'], name := none, ttlSeconds := none }

/-- TURN environment with a shared secret and no TTL override. -/
def c9Env : TurnEnvC := { TURN_SHARED_SECRET := some ['s'], TURN_TTL_SECONDS := none }

/-- A room where peer 0 is connected with alias `xy` claimed, used by the
C10 witness. -/
def c10Peer : PeerRecord :=
  { peerId := 0, userId := ['a'], roomId := ['r'], aliasName := some ['x', 'y'],
    resumeToken := 1, resumeExpiresAt := 30000, connected := true, lastSeenAt := 0 }

/-- The C10 witness room. -/
def c10Room : RoomState :=
  { initRoom with
      nextId := 6, peers := [(0, c10Peer)], sockets := [(0, 5)],
      tags := [(5, 0)], aliasToPeerId := [(['x', 'y'], 0)] }

/-- A detached peer 0 holding resume token 1, used by the C2 witness. -/
def c2Peer : PeerRecord :=
  { peerId := 0, userId := ['a'], roomId := ['r'], aliasName := none,
    resumeToken := 1, resumeExpiresAt := 10, connected := true, lastSeenAt := 0 }

/-- Its resume record. -/
def c2Record : ResumeRecord :=
  { token := 1, peerId := 0, userId := ['a'], roomId := ['r'], aliasName := none,
    expiresAt := 10 }

/-- The C2 witness room: peer 0 still has socket 5 bound while resume
record 1 for it is stored (the half-closed-socket supersession shape). -/
def c2Room : RoomState :=
  { initRoom with
      nextId := 6, peers := [(0, c2Peer)], sockets := [(0, 5)],
      tags := [(5, 0)], resumeStore := [(1, c2Record)] }

def c7Bad : JoinTokenPayload :=
  { sub := [], room := ['r'], name := none, exp := 9, iat := none, jti := none }

def c7Good : JoinTokenPayload :=
  { sub := ['u'], room := ['r'], name := none, exp := 9, iat := none, jti := none }

/-! # Theorems -/

/-- C6 counterexample: the claim says a delivery attempt to a
disconnected recipient leaves every field of the stored record
unchanged, but `tryDeliverPending` writes back the record with
`nextRetryAt` advanced to `now + DELIVERY_RETRY_INTERVAL_MS`: at this
concrete input the stored record no longer equals the original. -/
theorem tryDeliverPending_changes_record :
    alookup c6Room.sockets c6Rec.toPeerId = none ∧
    alookup (tryDeliverPending c6Room c6Rec 1).1.pendingStore (2, 1) ≠ some c6Rec := by
  constructor
  · rfl
  · decide

/-- C6 (amended): a delivery attempt on a non-expired record whose
recipient has no connected socket sends nothing and keeps the record
(same `attempts` and all other fields) except that `nextRetryAt` is set
to `now + DELIVERY_RETRY_INTERVAL_MS`. -/
theorem tryDeliverPending_disconnected (s : RoomState) (r : PendingDeliveryRecord) (now : Nat)
    (hsock : alookup s.sockets r.toPeerId = none) (hexp : now < r.expiresAt) :
    (tryDeliverPending s r now).2 = [] ∧
    (tryDeliverPending s r now).1 =
      { s with
          pendingStore := aput s.pendingStore (r.toPeerId, r.deliveryId)
            { r with nextRetryAt := now + DELIVERY_RETRY_INTERVAL_MS } } := by
  have h1 : ¬ r.expiresAt ≤ now := by omega
  simp [tryDeliverPending, tryDeliverCore, hsock, h1]

/-- C6 witness: the amended theorem applied at the concrete input. -/
theorem tryDeliverPending_disconnected_witness :
    (alookup c6Room.sockets c6Rec.toPeerId = none ∧ (1 : Nat) < c6Rec.expiresAt) ∧
    ((tryDeliverPending c6Room c6Rec 1).2 = [] ∧
     (tryDeliverPending c6Room c6Rec 1).1 =
       { c6Room with
           pendingStore := aput c6Room.pendingStore (c6Rec.toPeerId, c6Rec.deliveryId)
             { c6Rec with nextRetryAt := 1 + DELIVERY_RETRY_INTERVAL_MS } }) :=
  ⟨⟨by decide, by decide⟩, tryDeliverPending_disconnected c6Room c6Rec 1 (by decide) (by decide)⟩

/-- C10: a successful alias assignment for a peer that already holds a
different alias (whose table entry points at that peer) removes the old
alias from the table, binds the new alias to the peer, and updates the
peer's alias field; the old alias is afterwards unclaimed. -/
theorem assignAlias_transfer (s : RoomState) (pid : Nat) (p : PeerRecord) (oldA newA : Str)
    (hp : alookup s.peers pid = some p) (holdsOld : p.aliasName = some oldA)
    (hmapOld : alookup s.aliasToPeerId oldA = some pid)
    (hfree : alookup s.aliasToPeerId newA = none ∨ alookup s.aliasToPeerId newA = some pid)
    (hne : newA ≠ oldA) :
    (assignAlias s pid newA).2 = none ∧
    alookup (assignAlias s pid newA).1.aliasToPeerId oldA = none ∧
    alookup (assignAlias s pid newA).1.aliasToPeerId newA = some pid ∧
    alookup (assignAlias s pid newA).1.peers pid = some { p with aliasName := some newA } := by
  rcases hfree with h | h <;>
    refine ⟨?_, ?_, ?_, ?_⟩ <;>
      simp [assignAlias, hp, holdsOld, hmapOld, h,
        alookup_aput_ne _ _ _ _ hne, alookup_adel_self, alookup_aput_self]

/-- C10 witness: the transfer theorem applied at the concrete room. -/
theorem assignAlias_transfer_witness :
    (alookup c10Room.peers 0 = some c10Peer ∧ c10Peer.aliasName = some ['x', 'y'] ∧
     alookup c10Room.aliasToPeerId ['x', 'y'] = some 0 ∧
     alookup c10Room.aliasToPeerId ['z', 'w'] = none ∧ (['z', 'w'] : Str) ≠ ['x', 'y']) ∧
    ((assignAlias c10Room 0 ['z', 'w']).2 = none ∧
     alookup (assignAlias c10Room 0 ['z', 'w']).1.aliasToPeerId ['x', 'y'] = none ∧
     alookup (assignAlias c10Room 0 ['z', 'w']).1.aliasToPeerId ['z', 'w'] = some 0 ∧
     alookup (assignAlias c10Room 0 ['z', 'w']).1.peers 0 =
       some { c10Peer with aliasName := some ['z', 'w'] }) :=
  ⟨⟨by decide, by decide, by decide, by decide, by decide⟩,
   assignAlias_transfer c10Room 0 c10Peer ['x', 'y'] ['z', 'w'] (by decide) (by decide)
     (by decide) (Or.inl (by decide)) (by decide)⟩

/-- C1 counterexample: with `ALLOW_DEV_TOKEN_ISSUER="true"` and both
secrets configured, a `/token/issue` request carrying no
`x-internal-secret` or `x-dev-issuer-secret` header at all is not
rejected with 403 — the handler only validates the header when one is
present, so this request reaches issuance. -/
theorem tokenIssue_no_header_admitted :
    issue403 (tokenIssue c1Env none none (some c1Body) 0 ['j']) = false := by
  rfl

/-- C1 (amended): `/token/issue` answers 403 `DEV_ISSUER_DISABLED`
whenever `ALLOW_DEV_TOKEN_ISSUER` is not `"true"`; when it is enabled
and a *nonempty* secret header is present but matches no configured
secret it answers 403 `FORBIDDEN`; but a request with no secret header,
or whose provided secret header is the empty string (JS-falsy), bypasses
the secret check entirely and (with a valid body) is issued a token. -/
theorem tokenIssue_gate (env : IssueEnvC) (x1 x2 : Option Str) (body : Option IssueBody)
    (now : Nat) (jti : Str) :
    (toBooleanStr env.ALLOW_DEV_TOKEN_ISSUER = false →
      tokenIssue env x1 x2 body now jti = .devIssuerDisabled) ∧
    (∀ sHdr, (x1 = some sHdr ∨ (x1 = none ∧ x2 = some sHdr)) → sHdr ≠ [] →
      sHdr ∉ validSecrets env →
      toBooleanStr env.ALLOW_DEV_TOKEN_ISSUER = true →
      tokenIssue env x1 x2 body now jti = .forbidden) ∧
    (∀ b, body = some b →
      ((x1 = none ∧ x2 = none) ∨ x1 = some [] ∨ (x1 = none ∧ x2 = some [])) →
      toBooleanStr env.ALLOW_DEV_TOKEN_ISSUER = true →
      tokenIssue env x1 x2 body now jti =
        .issued (signJoinToken
            { sub := b.userId, room := b.roomId, name := b.name,
              exp := (((now : Int) + max 30 (min 600 (toNumber b.ttlSeconds 120)))).toNat,
              iat := some now, jti := some jti } env.JOIN_TOKEN_SECRET)
          b.roomId b.userId b.name
          (((now : Int) + max 30 (min 600 (toNumber b.ttlSeconds 120))) * 1000)) := by
  refine ⟨?_, ?_, ?_⟩
  · intro h
    simp [tokenIssue, h]
  · intro sHdr hx hne hnotin hallow
    rcases hx with h | ⟨h1, h2⟩
    · simp [tokenIssue, h, hallow, hne, hnotin]
    · simp [tokenIssue, h1, h2, hallow, hne, hnotin]
  · intro b hb hx hallow
    rcases hx with ⟨h1, h2⟩ | h1 | ⟨h1, h2⟩
    · simp [tokenIssue, hb, h1, h2, hallow]
    · simp [tokenIssue, hb, h1, hallow]
    · simp [tokenIssue, hb, h1, h2, hallow]

/-- C1 witness: the amended theorem's conjuncts at concrete inputs —
a wrong nonempty header is refused; an empty-valued secret header is
skipped by the truthiness guard and a token is issued. -/
theorem tokenIssue_gate_witness :
    ((['w'] : Str) ∉ validSecrets c1Env ∧
     tokenIssue c1Env (some ['w']) none (some c1Body) 0 ['j'] = .forbidden) ∧
    (toBooleanStr c1Env.ALLOW_DEV_TOKEN_ISSUER = true ∧
     tokenIssue c1Env (some []) none (some c1Body) 0 ['j'] =
       .issued (signJoinToken
           { sub := c1Body.userId, room := c1Body.roomId,
             name := c1Body.name,
             exp := (((0 : Nat) : Int) + max 30 (min 600 (toNumber c1Body.ttlSeconds 120))).toNat,
             iat := some 0, jti := some ['j'] } c1Env.JOIN_TOKEN_SECRET)
         c1Body.roomId c1Body.userId c1Body.name
         ((((0 : Nat) : Int) + max 30 (min 600 (toNumber c1Body.ttlSeconds 120))) * 1000)) :=
  ⟨⟨by decide,
    (tokenIssue_gate c1Env (some ['w']) none (some c1Body) 0 ['j']).2.1 ['w']
      (Or.inl rfl) (by decide) (by decide) (by decide)⟩,
   ⟨by decide,
    (tokenIssue_gate c1Env (some []) none (some c1Body) 0 ['j']).2.2 c1Body rfl
      (Or.inr (Or.inl rfl)) (by decide)⟩⟩

/-- C9: TURN credential minting — without a configured shared secret
nothing is produced; with one, the effective TTL is `TURN_TTL_SECONDS`
defaulted to 3600 and clamped to at least 60, the username is
`<expiresAt>:<userId>` for `expiresAt = floor(now / 1000) + ttl`, and
the credential is the (standard, padded) base64 of the HMAC-SHA1 of the
username under the shared secret. -/
theorem makeTurnCredentials_spec (env : TurnEnvC) (userId : Str) (nowMs : Nat) :
    (env.TURN_SHARED_SECRET = none → makeTurnCredentials env userId nowMs = none) ∧
    (∀ secret, env.TURN_SHARED_SECRET = some secret → secret ≠ [] →
      makeTurnCredentials env userId nowMs =
        some { username := intToDec (((nowMs / 1000 : Nat) : Int) +
                 max 60 (toNumber env.TURN_TTL_SECONDS 3600)) ++ ':' :: userId,
               credential := toBase64Std (hmac sha1 (toUtf8Bytes secret)
                 (toUtf8Bytes (intToDec (((nowMs / 1000 : Nat) : Int) +
                   max 60 (toNumber env.TURN_TTL_SECONDS 3600)) ++ ':' :: userId))),
               ttlSeconds := max 60 (toNumber env.TURN_TTL_SECONDS 3600) }) := by
  constructor
  · intro h
    simp [makeTurnCredentials, h]
  · intro secret hs hne
    simp [makeTurnCredentials, hs, hne, hmacSha1Base64]

/-- C9 witness: the minting theorem at a concrete environment (secret
configured, TTL unset hence 3600, `now` 2500 ms so `expiresAt` 3602). -/
theorem makeTurnCredentials_spec_witness :
    (c9Env.TURN_SHARED_SECRET = some ['s'] ∧ (['s'] : Str) ≠ []) ∧
    makeTurnCredentials c9Env ['u'] 2500 =
      some { username := intToDec (((2500 / 1000 : Nat) : Int) +
               max 60 (toNumber c9Env.TURN_TTL_SECONDS 3600)) ++ ':' :: ['u'],
             credential := toBase64Std (hmac sha1 (toUtf8Bytes ['s'])
               (toUtf8Bytes (intToDec (((2500 / 1000 : Nat) : Int) +
                 max 60 (toNumber c9Env.TURN_TTL_SECONDS 3600)) ++ ':' :: ['u']))),
             ttlSeconds := max 60 (toNumber c9Env.TURN_TTL_SECONDS 3600) } :=
  ⟨⟨rfl, by decide⟩,
   (makeTurnCredentials_spec c9Env ['u'] 2500).2 ['s'] rfl (by decide)⟩

/-! ### Attach/supersession support lemmas -/

theorem attachAdopt_sockets (s : RoomState) (u r : Str) (t : Option Nat) (now : Nat) :
    (attachAdopt s u r t now).1.sockets = s.sockets := by
  cases t with
  | none => rfl
  | some tok =>
    simp only [attachAdopt, tryResumeByToken]
    rcases h : alookup s.resumeStore tok with _ | R
    · rfl
    · by_cases h1 : R.expiresAt ≤ now <;> by_cases h2 : R.userId ≠ u ∨ R.roomId ≠ r <;>
        simp [h1, h2]

theorem attachAdopt_peers (s : RoomState) (u r : Str) (t : Option Nat) (now : Nat) :
    (attachAdopt s u r t now).1.peers = s.peers := by
  cases t with
  | none => rfl
  | some tok =>
    simp only [attachAdopt, tryResumeByToken]
    rcases h : alookup s.resumeStore tok with _ | R
    · rfl
    · by_cases h1 : R.expiresAt ≤ now <;> by_cases h2 : R.userId ≠ u ∨ R.roomId ≠ r <;>
        simp [h1, h2]

theorem tryDeliverPending_peers (s : RoomState) (r : PendingDeliveryRecord) (now : Nat) :
    (tryDeliverPending s r now).1.peers = s.peers := by
  rcases h : tryDeliverCore s.sockets r now with ⟨o, evs⟩
  cases o <;> simp [tryDeliverPending, h]

theorem replay_foldl_peers (now : Nat) (l : List ((Nat × Nat) × PendingDeliveryRecord)) :
    ∀ acc : RoomState × List RoomEvent,
      (l.foldl
        (fun acc e =>
          if e.2.expiresAt ≤ now then
            ({ acc.1 with pendingStore := adel acc.1.pendingStore e.1 }, acc.2)
          else
            let r := tryDeliverPending acc.1 e.2 now
            (r.1, acc.2 ++ r.2))
        acc).1.peers = acc.1.peers := by
  induction l with
  | nil => intro acc; rfl
  | cons e rest ih =>
    intro acc
    simp only [List.foldl_cons]
    rw [ih]
    by_cases h : e.2.expiresAt ≤ now <;> simp [h, tryDeliverPending_peers]

theorem replayPendingForPeer_peers (s : RoomState) (pid : Nat) (now : Nat) :
    (replayPendingForPeer s pid now).1.peers = s.peers := by
  simp only [replayPendingForPeer]
  exact replay_foldl_peers now _ (s, [])

theorem scheduleAlarmAt_peers (s : RoomState) (at_ : Nat) :
    (scheduleAlarmAt s at_).peers = s.peers := by
  rcases h : s.alarmTime with _ | cur <;> simp [scheduleAlarmAt, h]
  split <;> rfl

theorem assignAlias_lookup (s : RoomState) (pid : Nat) (a : Str) (q : Nat) :
    alookup (assignAlias s pid a).1.peers q = alookup s.peers q ∨
    (∃ p, alookup s.peers pid = some p ∧ q = pid ∧
      alookup (assignAlias s pid a).1.peers q = some { p with aliasName := some a }) := by
  rcases hp : alookup s.peers pid with _ | p
  · left; simp [assignAlias, hp]
  · rcases ha : alookup s.aliasToPeerId a with _ | claimedBy
    · by_cases hq : pid = q
      · subst hq
        right
        exact ⟨p, rfl, rfl, by simp [assignAlias, hp, ha, alookup_aput_self]⟩
      · left
        simp [assignAlias, hp, ha, alookup_aput_ne _ _ _ _ hq]
    · by_cases hcb : claimedBy = pid
      · subst hcb
        by_cases hq : claimedBy = q
        · subst hq
          right
          exact ⟨p, rfl, rfl, by simp [assignAlias, hp, ha, alookup_aput_self]⟩
        · left
          simp [assignAlias, hp, ha, alookup_aput_ne _ _ _ _ hq]
      · left
        simp [assignAlias, hp, ha, hcb]

theorem attachStateBound_lookup (s : RoomState) (u r : Str) (t : Option Nat) (now : Nat) :
    alookup (attachStateBound s u r t now).peers (attachAdopted s u r t now).peerId =
      some (attachPeer1 s u r t now) := by
  simp only [attachStateBound]
  rcases h : alookup (attachAdopt s u r t now).1.sockets (attachAdopted s u r t now).peerId
    with _ | o <;> simp [h, alookup_aput_self]

theorem attachPeer1_connected (s : RoomState) (u r : Str) (t : Option Nat) (now : Nat) :
    (attachPeer1 s u r t now).connected = true := rfl

theorem attachAliased_lookup_connected (s : RoomState) (u r : Str) (nh : Option Str)
    (t : Option Nat) (now : Nat) :
    ∃ p, alookup (attachAliased s u r nh t now).1.peers (attachAdopted s u r t now).peerId =
      some p ∧ p.connected = true := by
  simp only [attachAliased]
  rcases hin : (match normalizeAlias nh with
    | some a => some a
    | none => (attachPeer1 s u r t now).aliasName) with _ | a
  · simp only [hin]
    exact ⟨attachPeer1 s u r t now, attachStateBound_lookup s u r t now, rfl⟩
  · simp only [hin]
    rcases assignAlias_lookup (attachStateBound s u r t now)
      (attachAdopted s u r t now).peerId a (attachAdopted s u r t now).peerId with h | ⟨p, hp, _, h⟩
    · exact ⟨attachPeer1 s u r t now, by rw [h]; exact attachStateBound_lookup s u r t now, rfl⟩
    · rw [attachStateBound_lookup] at hp
      cases hp
      exact ⟨_, h, rfl⟩

/-- C2: when an attach adopts a peerId that still has a bound socket,
the room closes the prior socket with code 1012 as the first action of
the attach — before `session.welcome` is sent (on the new socket) — and
the peer's `connected` flag, true before the attach, is true after it. -/
theorem applyAttach_supersede (s : RoomState) (userId roomId : Str) (nameHeader : Option Str)
    (requestedResumeToken : Option Nat) (now : Nat) (oldSock : Nat) (pPre : PeerRecord)
    (hu : userId ≠ []) (hr : roomId ≠ [])
    (hold : alookup s.sockets (attachAdopted s userId roomId requestedResumeToken now).peerId =
      some oldSock)
    (hpre : alookup s.peers (attachAdopted s userId roomId requestedResumeToken now).peerId =
      some pPre)
    (hconn : pPre.connected = true) :
    ∃ rest,
      (applyAttach s userId roomId nameHeader requestedResumeToken now).2 =
        RoomEvent.closed oldSock 1012 :: rest ∧
      (∃ pid2 u2 r2 tok texp ps,
        RoomEvent.sent (attachBaseId s userId roomId requestedResumeToken now + 1)
          (ServerMsg.welcome pid2 u2 r2 tok texp ps) ∈ rest) ∧
      (∃ pPost,
        alookup (applyAttach s userId roomId nameHeader requestedResumeToken now).1.peers
          (attachAdopted s userId roomId requestedResumeToken now).peerId = some pPost ∧
        pPost.connected = true) := by
  have hold1 : alookup (attachAdopt s userId roomId requestedResumeToken now).1.sockets
      (attachAdopted s userId roomId requestedResumeToken now).peerId = some oldSock := by
    rw [attachAdopt_sockets]; exact hold
  have hguard : ¬ (userId = [] ∨ roomId = []) := by simp [hu, hr]
  obtain ⟨pPost, hPost, hPostConn⟩ :=
    attachAliased_lookup_connected s userId roomId nameHeader requestedResumeToken now
  simp only [applyAttach, if_neg hguard, hold1]
  refine ⟨_, rfl, ?_, ⟨pPost, ?_, hPostConn⟩⟩
  · set s4 := (attachAliased s userId roomId nameHeader requestedResumeToken now).1 with hs4
    set pid := (attachAdopted s userId roomId requestedResumeToken now).peerId with hpid
    set pn := (match alookup s4.peers pid with
      | some p => p
      | none => attachPeer1 s userId roomId requestedResumeToken now) with hpn
    exact ⟨pn.peerId, pn.userId, pn.roomId, pn.resumeToken, pn.resumeExpiresAt,
      listConnectedPeers s4 pid, by simp [List.mem_append]⟩
  · rw [scheduleAlarmAt_peers, replayPendingForPeer_peers]
    exact hPost

/-- C2 witness: the supersession theorem at a concrete room in which
peer 0 still has socket 5 bound while its resume record is consumed. -/
theorem applyAttach_supersede_witness :
    ((['a'] : Str) ≠ [] ∧ (['r'] : Str) ≠ [] ∧
     alookup c2Room.sockets (attachAdopted c2Room ['a'] ['r'] (some 1) 0).peerId = some 5 ∧
     alookup c2Room.peers (attachAdopted c2Room ['a'] ['r'] (some 1) 0).peerId = some c2Peer ∧
     c2Peer.connected = true) ∧
    (∃ rest,
      (applyAttach c2Room ['a'] ['r'] none (some 1) 0).2 =
        RoomEvent.closed 5 1012 :: rest ∧
      (∃ pid2 u2 r2 tok texp ps,
        RoomEvent.sent (attachBaseId c2Room ['a'] ['r'] (some 1) 0 + 1)
          (ServerMsg.welcome pid2 u2 r2 tok texp ps) ∈ rest) ∧
      (∃ pPost,
        alookup (applyAttach c2Room ['a'] ['r'] none (some 1) 0).1.peers
          (attachAdopted c2Room ['a'] ['r'] (some 1) 0).peerId = some pPost ∧
        pPost.connected = true)) :=
  ⟨⟨by decide, by decide, by decide, by decide, rfl⟩,
   applyAttach_supersede c2Room ['a'] ['r'] none (some 1) 0 5 c2Peer
     (by decide) (by decide) (by decide) (by decide) rfl⟩

/-! ### Alarm idempotence (C5) -/

theorem tryDeliverCore_eq (sockets : List (Nat × Nat)) (r : PendingDeliveryRecord) (now : Nat) :
    (r.expiresAt ≤ now ∧ tryDeliverCore sockets r now = (none, [])) ∨
    (¬ r.expiresAt ≤ now ∧ ∃ r1 evs,
      tryDeliverCore sockets r now =
        (some { r1 with nextRetryAt := now + DELIVERY_RETRY_INTERVAL_MS }, evs) ∧
      (r1 = r ∨ r1 = { r with attempts := r.attempts + 1 })) := by
  by_cases he : r.expiresAt ≤ now
  · exact Or.inl ⟨he, by simp [tryDeliverCore, he]⟩
  · refine Or.inr ⟨he, ?_⟩
    rcases hs : alookup sockets r.toPeerId with _ | sk
    · exact ⟨r, [], by simp [tryDeliverCore, he, hs], Or.inl rfl⟩
    · exact ⟨{ r with attempts := r.attempts + 1 },
        [RoomEvent.sent sk (.signalMessage r.deliveryId r.fromPeerId r.fromUserId
          r.toPeerId r.payload r.sentAt)],
        by simp [tryDeliverCore, he, hs], Or.inr rfl⟩

theorem alarmPend_prop (sockets : List (Nat × Nat)) (now : Nat) :
    ∀ (l : List ((Nat × Nat) × PendingDeliveryRecord)) (acc : Option Nat),
      ∀ e ∈ (alarmPend sockets now acc l).1, now < e.2.expiresAt ∧ now < e.2.nextRetryAt := by
  intro l
  induction l with
  | nil => intro acc e he; simp [alarmPend] at he
  | cons a rest ih =>
    intro acc e he
    by_cases h1 : a.2.expiresAt ≤ now
    · rw [alarmPend, if_pos h1] at he
      exact ih acc e he
    · by_cases h2 : a.2.nextRetryAt ≤ now
      · by_cases h3 : DELIVERY_MAX_ATTEMPTS ≤ a.2.attempts
        · rw [alarmPend, if_neg h1, if_pos h2, if_pos h3] at he
          exact ih acc e he
        · rcases tryDeliverCore_eq sockets a.2 now with ⟨hc, _⟩ | ⟨_, r1, evs, hceq, hr1⟩
          · exact absurd hc h1
          · rw [alarmPend, if_neg h1, if_pos h2, if_neg h3] at he
            simp only [hceq] at he
            rcases List.mem_cons.mp he with he | he
            · subst he
              refine ⟨?_, by simp [DELIVERY_RETRY_INTERVAL_MS]⟩
              rcases hr1 with h | h <;> subst h <;> simpa using Nat.lt_of_not_le h1
            · exact ih _ e he
      · rw [alarmPend, if_neg h1, if_neg h2] at he
        rcases List.mem_cons.mp he with he | he
        · subst he
          exact ⟨Nat.lt_of_not_le h1, Nat.lt_of_not_le h2⟩
        · exact ih _ e he

theorem alarmPend_of_prop (sockets : List (Nat × Nat)) (now : Nat) :
    ∀ (l : List ((Nat × Nat) × PendingDeliveryRecord)) (acc : Option Nat),
      (∀ e ∈ l, now < e.2.expiresAt ∧ now < e.2.nextRetryAt) →
      alarmPend sockets now acc l = (l, foldMinP acc l, []) := by
  intro l
  induction l with
  | nil => intro acc _; rfl
  | cons a rest ih =>
    intro acc h
    have ha := h a (List.mem_cons_self a rest)
    have h1 : ¬ a.2.expiresAt ≤ now := by omega
    have h2 : ¬ a.2.nextRetryAt ≤ now := by omega
    rw [alarmPend, if_neg h1, if_neg h2,
      ih _ (fun e he => h e (List.mem_cons_of_mem a he))]
    rfl

theorem alarmPend_acc_eq (sockets : List (Nat × Nat)) (now : Nat) :
    ∀ (l : List ((Nat × Nat) × PendingDeliveryRecord)) (acc : Option Nat),
      (alarmPend sockets now acc l).2.1 = foldMinP acc (alarmPend sockets now acc l).1 := by
  intro l
  induction l with
  | nil => intro acc; rfl
  | cons a rest ih =>
    intro acc
    by_cases h1 : a.2.expiresAt ≤ now
    · rw [alarmPend, if_pos h1]
      exact ih acc
    · by_cases h2 : a.2.nextRetryAt ≤ now
      · by_cases h3 : DELIVERY_MAX_ATTEMPTS ≤ a.2.attempts
        · rw [alarmPend, if_neg h1, if_pos h2, if_pos h3]
          exact ih acc
        · rcases tryDeliverCore_eq sockets a.2 now with ⟨hc, _⟩ | ⟨_, r1, evs, hceq, _⟩
          · exact absurd hc h1
          · rw [alarmPend, if_neg h1, if_pos h2, if_neg h3]
            simp only [hceq]
            exact ih _
      · rw [alarmPend, if_neg h1, if_neg h2]
        exact ih _

theorem alarmResume_prop (now : Nat) :
    ∀ (l : List (Nat × ResumeRecord)) (acc : Option Nat) (peers : List (Nat × PeerRecord))
      (aliasMap : List (Str × Nat)),
      ∀ e ∈ (alarmResume now acc peers aliasMap l).1, now < e.2.expiresAt := by
  intro l
  induction l with
  | nil => intro acc peers aliasMap e he; simp [alarmResume] at he
  | cons a rest ih =>
    intro acc peers aliasMap e he
    by_cases h1 : a.2.expiresAt ≤ now
    · rw [alarmResume, if_pos h1] at he
      exact ih _ _ _ e he
    · rw [alarmResume, if_neg h1] at he
      rcases List.mem_cons.mp he with he | he
      · subst he; exact Nat.lt_of_not_le h1
      · exact ih _ _ _ e he

theorem alarmResume_of_prop (now : Nat) :
    ∀ (l : List (Nat × ResumeRecord)) (acc : Option Nat) (peers : List (Nat × PeerRecord))
      (aliasMap : List (Str × Nat)),
      (∀ e ∈ l, now < e.2.expiresAt) →
      alarmResume now acc peers aliasMap l = (l, foldMinR acc l, peers, aliasMap) := by
  intro l
  induction l with
  | nil => intro acc peers aliasMap _; rfl
  | cons a rest ih =>
    intro acc peers aliasMap h
    have ha := h a (List.mem_cons_self a rest)
    have h1 : ¬ a.2.expiresAt ≤ now := by omega
    rw [alarmResume, if_neg h1, ih _ _ _ (fun e he => h e (List.mem_cons_of_mem a he))]
    rfl

theorem alarmResume_acc_eq (now : Nat) :
    ∀ (l : List (Nat × ResumeRecord)) (acc : Option Nat) (peers : List (Nat × PeerRecord))
      (aliasMap : List (Str × Nat)),
      (alarmResume now acc peers aliasMap l).2.1 =
        foldMinR acc (alarmResume now acc peers aliasMap l).1 := by
  intro l
  induction l with
  | nil => intro acc peers aliasMap; rfl
  | cons a rest ih =>
    intro acc peers aliasMap
    by_cases h1 : a.2.expiresAt ≤ now
    · rw [alarmResume, if_pos h1]
      exact ih _ _ _
    · rw [alarmResume, if_neg h1]
      exact ih _ _ _

theorem alarmResume_fst_indep (now : Nat) :
    ∀ (l : List (Nat × ResumeRecord)) (acc acc2 : Option Nat)
      (peers : List (Nat × PeerRecord)) (aliasMap : List (Str × Nat)),
      (alarmResume now acc peers aliasMap l).1 = (alarmResume now acc2 peers aliasMap l).1 := by
  intro l
  induction l with
  | nil => intro acc acc2 peers aliasMap; rfl
  | cons a rest ih =>
    intro acc acc2 peers aliasMap
    by_cases h1 : a.2.expiresAt ≤ now
    · rw [alarmResume, if_pos h1, alarmResume, if_pos h1]
      exact ih _ _ _ _
    · rw [alarmResume, if_neg h1, alarmResume, if_neg h1]
      simp only [List.cons.injEq, true_and]
      exact ih _ _ _ _

theorem alarm_of_normalized (s1 : RoomState) (now : Nat)
    (hp : ∀ e ∈ s1.pendingStore, now < e.2.expiresAt ∧ now < e.2.nextRetryAt)
    (hr : ∀ e ∈ s1.resumeStore, now < e.2.expiresAt)
    (ht : s1.alarmTime = foldMinR (foldMinP none s1.pendingStore) s1.resumeStore) :
    alarm s1 now = (s1, []) := by
  simp only [alarm, alarmPend_of_prop s1.sockets now s1.pendingStore none hp]
  simp only [alarmResume_of_prop now s1.resumeStore (foldMinP none s1.pendingStore)
    s1.peers s1.aliasToPeerId hr]
  rw [← ht]

/-- C5: running the maintenance alarm twice at the same instant with no
intervening event is the same as running it once — the second run leaves
the pending and resume stores, the peer and alias tables and the
scheduled alarm exactly as the first run left them, and performs no
sends or deletions (its event list is empty). -/
theorem alarm_idempotent (s : RoomState) (now : Nat) :
    alarm (alarm s now).1 now = ((alarm s now).1, []) := by
  apply alarm_of_normalized
  · intro e he
    exact alarmPend_prop s.sockets now s.pendingStore none e he
  · intro e he
    exact alarmResume_prop now s.resumeStore _ s.peers s.aliasToPeerId e he
  · show (alarmResume now (alarmPend s.sockets now none s.pendingStore).2.1 s.peers
      s.aliasToPeerId s.resumeStore).2.1 = _
    rw [alarmResume_acc_eq, alarmPend_acc_eq,
      alarmResume_fst_indep now s.resumeStore
        (foldMinP none (alarmPend s.sockets now none s.pendingStore).1)
        ((alarmPend s.sockets now none s.pendingStore).2.1) s.peers s.aliasToPeerId]
    rfl

/-! ### Pending-delivery bounds (C3) -/

theorem alookup_mem {κ α : Type} [DecidableEq κ] (k : κ) (v : α) :
    ∀ l : List (κ × α), alookup l k = some v → (k, v) ∈ l := by
  intro l
  induction l with
  | nil => intro h; simp [alookup] at h
  | cons a rest ih =>
    intro h
    by_cases ha : a.1 = k
    · rw [alookup, if_pos ha] at h
      have : a = (k, v) := by
        obtain ⟨a1, a2⟩ := a
        simp at ha
        simp at h
        simp [ha, h]
      exact this ▸ List.mem_cons_self a rest
    · rw [alookup, if_neg ha] at h
      exact List.mem_cons_of_mem a (ih h)

theorem mem_aput {κ α : Type} [DecidableEq κ] (k : κ) (v : α) :
    ∀ (l : List (κ × α)) (e : κ × α), e ∈ aput l k v → e ∈ l ∨ e = (k, v) := by
  intro l
  induction l with
  | nil => intro e he; simp [aput] at he; exact Or.inr (by simp [he])
  | cons a rest ih =>
    intro e he
    by_cases h : a.1 = k
    · rw [aput, if_pos h] at he
      rcases List.mem_cons.mp he with he | he
      · exact Or.inr (by simp [he])
      · exact Or.inl (List.mem_cons_of_mem a he)
    · rw [aput, if_neg h] at he
      rcases List.mem_cons.mp he with he | he
      · exact Or.inl (by rw [he]; exact List.mem_cons_self a rest)
      · rcases ih e he with h2 | h2
        · exact Or.inl (List.mem_cons_of_mem a h2)
        · exact Or.inr h2

theorem mem_adel {κ α : Type} [DecidableEq κ] (k : κ) :
    ∀ (l : List (κ × α)) (e : κ × α), e ∈ adel l k → e ∈ l := by
  intro l
  induction l with
  | nil => intro e he; simp [adel] at he
  | cons a rest ih =>
    intro e he
    by_cases h : a.1 = k
    · rw [adel, if_pos h] at he
      exact List.mem_cons_of_mem a (ih e he)
    · rw [adel, if_neg h] at he
      rcases List.mem_cons.mp he with he | he
      · exact by rw [he]; exact List.mem_cons_self a rest
      · exact List.mem_cons_of_mem a (ih e he)

theorem tryResumeByToken_pendingStore (s : RoomState) (t : Nat) (u r : Str) (now : Nat) :
    (tryResumeByToken s t u r now).1.pendingStore = s.pendingStore := by
  simp only [tryResumeByToken]
  rcases h : alookup s.resumeStore t with _ | R
  · rfl
  · by_cases h1 : R.expiresAt ≤ now <;> by_cases h2 : R.userId ≠ u ∨ R.roomId ≠ r <;>
      simp [h1, h2]

theorem attachAdopt_pendingStore (s : RoomState) (u r : Str) (t : Option Nat) (now : Nat) :
    (attachAdopt s u r t now).1.pendingStore = s.pendingStore := by
  cases t with
  | none => rfl
  | some tok => exact tryResumeByToken_pendingStore s tok u r now

theorem assignAlias_pendingStore (s : RoomState) (pid : Nat) (a : Str) :
    (assignAlias s pid a).1.pendingStore = s.pendingStore := by
  simp only [assignAlias]
  rcases h : alookup s.peers pid with _ | p
  · rfl
  · split <;> first
      | rfl
      | (split <;> rfl)

theorem attachStateBound_pendingStore (s : RoomState) (u r : Str) (t : Option Nat) (now : Nat) :
    (attachStateBound s u r t now).pendingStore = s.pendingStore := by
  simp only [attachStateBound]
  rcases h : alookup (attachAdopt s u r t now).1.sockets
      (attachAdopted s u r t now).peerId with _ | o <;>
    simp [h, attachAdopt_pendingStore]

theorem attachAliased_pendingStore (s : RoomState) (u r : Str) (nh : Option Str)
    (t : Option Nat) (now : Nat) :
    (attachAliased s u r nh t now).1.pendingStore = s.pendingStore := by
  simp only [attachAliased]
  rcases h : (match normalizeAlias nh with
    | some a => some a
    | none => (attachPeer1 s u r t now).aliasName) with _ | a <;>
    simp only [h]
  · exact attachStateBound_pendingStore s u r t now
  · rw [assignAlias_pendingStore, attachStateBound_pendingStore]

theorem scheduleAlarmAt_pendingStore (s : RoomState) (at_ : Nat) :
    (scheduleAlarmAt s at_).pendingStore = s.pendingStore := by
  rcases h : s.alarmTime with _ | cur <;> simp [scheduleAlarmAt, h]
  split <;> rfl

theorem handleSocketDeparture_pendingStore (s : RoomState) (sock : Nat) (now : Nat) :
    (handleSocketDeparture s sock now).1.pendingStore = s.pendingStore := by
  simp only [handleSocketDeparture]
  rcases ht : alookup s.tags sock with _ | peerId
  · rfl
  · dsimp only
    rcases hp : alookup s.peers peerId with _ | peer
    · rfl
    · dsimp only
      by_cases hc : peer.connected = false
      · simp [hc]
      · simp [hc, scheduleAlarmAt_pendingStore]

theorem tryDeliverPending_mem (s : RoomState) (r : PendingDeliveryRecord) (now : Nat)
    (e : (Nat × Nat) × PendingDeliveryRecord)
    (he : e ∈ (tryDeliverPending s r now).1.pendingStore) :
    e ∈ s.pendingStore ∨
      (e.1.1 = r.toPeerId ∧ e.2.sentAt = r.sentAt ∧ e.2.expiresAt = r.expiresAt ∧
        e.2.attempts ≤ r.attempts + 1) := by
  rcases tryDeliverCore_eq s.sockets r now with ⟨_, hc⟩ | ⟨_, r1, evs, hc, hr1⟩
  · simp only [tryDeliverPending, hc] at he
    exact Or.inl (mem_adel _ _ e he)
  · simp only [tryDeliverPending, hc] at he
    rcases mem_aput _ _ _ e he with h | h
    · exact Or.inl h
    · right
      rcases hr1 with h1 | h1 <;> subst h1 <;> rw [h] <;>
        exact ⟨rfl, rfl, rfl, by simp⟩

theorem replay_foldl_mem (now : Nat) (l : List ((Nat × Nat) × PendingDeliveryRecord)) :
    ∀ acc : RoomState × List RoomEvent,
      ∀ e ∈ (l.foldl
        (fun acc e =>
          if e.2.expiresAt ≤ now then
            ({ acc.1 with pendingStore := adel acc.1.pendingStore e.1 }, acc.2)
          else
            let r := tryDeliverPending acc.1 e.2 now
            (r.1, acc.2 ++ r.2))
        acc).1.pendingStore,
        e ∈ acc.1.pendingStore ∨
          ∃ a ∈ l, e.2.sentAt = a.2.sentAt ∧ e.2.expiresAt = a.2.expiresAt ∧
            e.2.attempts ≤ a.2.attempts + 1 := by
  induction l with
  | nil => intro acc e he; exact Or.inl he
  | cons a rest ih =>
    intro acc e he
    simp only [List.foldl_cons] at he
    by_cases h : a.2.expiresAt ≤ now
    · simp only [if_pos h] at he
      rcases ih _ e he with h2 | ⟨b, hb, h2⟩
      · exact Or.inl (mem_adel _ _ e h2)
      · exact Or.inr ⟨b, List.mem_cons_of_mem a hb, h2⟩
    · simp only [if_neg h] at he
      rcases ih _ e he with h2 | ⟨b, hb, h2⟩
      · rcases tryDeliverPending_mem _ _ _ e h2 with h3 | h3
        · exact Or.inl h3
        · exact Or.inr ⟨a, List.mem_cons_self a rest, h3.2⟩
      · exact Or.inr ⟨b, List.mem_cons_of_mem a hb, h2⟩

theorem replayPendingForPeer_mem (s : RoomState) (pid : Nat) (now : Nat)
    (e : (Nat × Nat) × PendingDeliveryRecord)
    (he : e ∈ (replayPendingForPeer s pid now).1.pendingStore) :
    e ∈ s.pendingStore ∨
      ∃ a ∈ s.pendingStore, e.2.sentAt = a.2.sentAt ∧ e.2.expiresAt = a.2.expiresAt ∧
        e.2.attempts ≤ a.2.attempts + 1 := by
  simp only [replayPendingForPeer] at he
  rcases replay_foldl_mem now _ (s, []) e he with h | ⟨b, hb, h⟩
  · exact Or.inl h
  · exact Or.inr ⟨b, (List.mem_filter.mp hb).1, h⟩

theorem replayPendingForPeer_of_empty (s : RoomState) (pid : Nat) (now : Nat)
    (h : ∀ e ∈ s.pendingStore, e.1.1 ≠ pid) :
    replayPendingForPeer s pid now = (s, []) := by
  simp only [replayPendingForPeer]
  have hf : s.pendingStore.filter (fun e => e.1.1 = pid) = [] := by
    rw [List.filter_eq_nil_iff]
    intro a ha
    simp [h a ha]
  rw [hf]
  rfl

theorem alarmPend_mem (sockets : List (Nat × Nat)) (now : Nat) :
    ∀ (l : List ((Nat × Nat) × PendingDeliveryRecord)) (acc : Option Nat),
      ∀ e ∈ (alarmPend sockets now acc l).1,
        ∃ a ∈ l, e.1 = a.1 ∧ e.2.sentAt = a.2.sentAt ∧ e.2.expiresAt = a.2.expiresAt ∧
          (e.2.attempts = a.2.attempts ∨
           (e.2.attempts = a.2.attempts + 1 ∧ a.2.attempts < DELIVERY_MAX_ATTEMPTS)) := by
  intro l
  induction l with
  | nil => intro acc e he; simp [alarmPend] at he
  | cons a rest ih =>
    intro acc e he
    by_cases h1 : a.2.expiresAt ≤ now
    · rw [alarmPend, if_pos h1] at he
      rcases ih acc e he with ⟨b, hb, h2⟩
      exact ⟨b, List.mem_cons_of_mem a hb, h2⟩
    · by_cases h2 : a.2.nextRetryAt ≤ now
      · by_cases h3 : DELIVERY_MAX_ATTEMPTS ≤ a.2.attempts
        · rw [alarmPend, if_neg h1, if_pos h2, if_pos h3] at he
          rcases ih acc e he with ⟨b, hb, h4⟩
          exact ⟨b, List.mem_cons_of_mem a hb, h4⟩
        · rcases tryDeliverCore_eq sockets a.2 now with ⟨hc, _⟩ | ⟨_, r1, evs, hceq, hr1⟩
          · exact absurd hc h1
          · rw [alarmPend, if_neg h1, if_pos h2, if_neg h3] at he
            simp only [hceq] at he
            rcases List.mem_cons.mp he with he | he
            · subst he
              refine ⟨a, List.mem_cons_self a rest, rfl, ?_⟩
              rcases hr1 with h | h <;> subst h
              · exact ⟨rfl, rfl, Or.inl rfl⟩
              · exact ⟨rfl, rfl, Or.inr ⟨rfl, Nat.lt_of_not_le h3⟩⟩
            · rcases ih _ e he with ⟨b, hb, h4⟩
              exact ⟨b, List.mem_cons_of_mem a hb, h4⟩
      · rw [alarmPend, if_neg h1, if_neg h2] at he
        rcases List.mem_cons.mp he with he | he
        · exact ⟨a, List.mem_cons_self a rest, by rw [he], by rw [he], by rw [he],
            Or.inl (by rw [he])⟩
        · rcases ih _ e he with ⟨b, hb, h4⟩
          exact ⟨b, List.mem_cons_of_mem a hb, h4⟩

theorem applyAttach_pend_mem (s : RoomState) (u r : Str) (nh : Option Str) (t : Option Nat)
    (now : Nat) (e : (Nat × Nat) × PendingDeliveryRecord)
    (he : e ∈ (applyAttach s u r nh t now).1.pendingStore) :
    e ∈ s.pendingStore ∨
      ∃ a ∈ s.pendingStore, e.2.sentAt = a.2.sentAt ∧ e.2.expiresAt = a.2.expiresAt ∧
        e.2.attempts ≤ a.2.attempts + 1 := by
  by_cases hg : u = [] ∨ r = []
  · simp only [applyAttach, if_pos hg] at he
    exact Or.inl he
  · simp only [applyAttach, if_neg hg] at he
    rw [scheduleAlarmAt_pendingStore] at he
    rcases replayPendingForPeer_mem _ _ _ e he with h | ⟨b, hb, h⟩
    · rw [attachAliased_pendingStore] at h
      exact Or.inl h
    · rw [attachAliased_pendingStore] at hb
      exact Or.inr ⟨b, hb, h⟩

theorem handleMessage_pend_mem (s : RoomState) (sock : Nat) (m : ClientMsg) (now : Nat)
    (e : (Nat × Nat) × PendingDeliveryRecord)
    (he : e ∈ (handleMessage s sock m now).1.pendingStore) :
    e ∈ s.pendingStore ∨
      ((∃ v, (e.1.1, v) ∈ s.peers) ∧ e.2.sentAt = now ∧
        e.2.expiresAt = now + DELIVERY_MAX_AGE_MS ∧ e.2.attempts ≤ 1) := by
  simp only [handleMessage] at he
  split at he
  · exact Or.inl he
  · rename_i peerId ht
    split at he
    · exact Or.inl he
    · rename_i peer0 hp
      split at he
      · exact Or.inl he
      · rename_i hcon
        split at he
        · exact Or.inl he
        · split at he
          · exact Or.inl he
          · split at he <;>
              (dsimp only at he; rw [assignAlias_pendingStore] at he; exact Or.inl he)
        · split at he <;> exact Or.inl he
        · rename_i toPeer payload dReq rq
          split at he
          · exact Or.inl he
          · rename_i hT
            obtain ⟨tv, htv⟩ := Option.ne_none_iff_exists'.mp
              (fun hnone => hT (Option.isNone_iff_eq_none.mpr hnone))
            split at he <;>
            · dsimp only at he
              rw [scheduleAlarmAt_pendingStore] at he
              have hpeerT : ∃ v, (toPeer, v) ∈ s.peers := by
                rcases mem_aput _ _ _ _ (alookup_mem _ _ _ htv) with h3 | h3
                · exact ⟨tv, h3⟩
                · have h4 : toPeer = peerId := congrArg Prod.fst h3
                  exact ⟨peer0, by rw [h4]; exact alookup_mem _ _ _ hp⟩
              rcases tryDeliverPending_mem _ _ _ e he with h | h
              · dsimp only at h
                rcases mem_aput _ _ _ e h with h2 | h2
                · exact Or.inl h2
                · right
                  refine ⟨?_, by rw [h2], by rw [h2], by rw [h2]; exact Nat.le_succ 0⟩
                  have hkey : e.1.1 = toPeer := by rw [h2]
                  rw [hkey]
                  exact hpeerT
              · right
                obtain ⟨hk, h1, h2, h3⟩ := h
                refine ⟨?_, h1, h2, h3⟩
                rw [hk]
                exact hpeerT
        · split at he
          · exact Or.inl he
          · split at he <;> (dsimp only at he; exact Or.inl (mem_adel _ _ e he))

theorem applyOp_pend_mem (s : RoomState) (op : RoomOp)
    (e : (Nat × Nat) × PendingDeliveryRecord)
    (he : e ∈ (applyOp s op).1.pendingStore) :
    e ∈ s.pendingStore ∨
      (∃ a ∈ s.pendingStore, e.2.sentAt = a.2.sentAt ∧ e.2.expiresAt = a.2.expiresAt ∧
        e.2.attempts ≤ a.2.attempts + 1) ∨
      (e.2.expiresAt = e.2.sentAt + DELIVERY_MAX_AGE_MS ∧ e.2.attempts ≤ 1) := by
  cases op with
  | attach u r nh t now =>
    simp only [applyOp] at he
    rcases applyAttach_pend_mem s u r nh t now e he with h | h
    · exact Or.inl h
    · exact Or.inr (Or.inl h)
  | message sock m now =>
    simp only [applyOp] at he
    rcases handleMessage_pend_mem s sock m now e he with h | ⟨_, h1, h2, h3⟩
    · exact Or.inl h
    · exact Or.inr (Or.inr ⟨by rw [h2, h1], h3⟩)
  | depart sock now =>
    simp only [applyOp] at he
    rw [handleSocketDeparture_pendingStore] at he
    exact Or.inl he
  | tick now =>
    simp only [applyOp] at he
    have he2 : e ∈ (alarmPend s.sockets now none s.pendingStore).1 := he
    rcases alarmPend_mem s.sockets now s.pendingStore none e he2 with ⟨a, ha, hk, h1, h2, h3⟩
    refine Or.inr (Or.inl ⟨a, ha, h1, h2, ?_⟩)
    rcases h3 with h | ⟨h, _⟩ <;> omega

theorem runRoom_expiry (ops : List RoomOp) :
    ∀ s : RoomState,
      (∀ e ∈ s.pendingStore, e.2.expiresAt = e.2.sentAt + DELIVERY_MAX_AGE_MS) →
      ∀ e ∈ (runRoom s ops).pendingStore,
        e.2.expiresAt = e.2.sentAt + DELIVERY_MAX_AGE_MS := by
  induction ops with
  | nil => intro s h; exact h
  | cons op rest ih =>
    intro s h
    have hstep : ∀ e ∈ (applyOp s op).1.pendingStore,
        e.2.expiresAt = e.2.sentAt + DELIVERY_MAX_AGE_MS := by
      intro e he
      rcases applyOp_pend_mem s op e he with h1 | ⟨a, ha, h1, h2, _⟩ | ⟨h1, _⟩
      · exact h e h1
      · rw [h1, h2]; exact h a ha
      · exact h1
    exact ih _ hstep

theorem scheduleAlarmAt_nextId (s : RoomState) (at_ : Nat) :
    (scheduleAlarmAt s at_).nextId = s.nextId := by
  rcases h : s.alarmTime with _ | cur <;> simp [scheduleAlarmAt, h]
  split <;> rfl

theorem tryDeliverPending_nextId (s : RoomState) (r : PendingDeliveryRecord) (now : Nat) :
    (tryDeliverPending s r now).1.nextId = s.nextId := by
  rcases h : tryDeliverCore s.sockets r now with ⟨o, evs⟩
  cases o <;> simp [tryDeliverPending, h]

theorem assignAlias_nextId (s : RoomState) (pid : Nat) (a : Str) :
    (assignAlias s pid a).1.nextId = s.nextId := by
  simp only [assignAlias]
  rcases h : alookup s.peers pid with _ | p
  · rfl
  · split <;> first
      | rfl
      | (split <;> rfl)

theorem assignAlias_peers_mem (s : RoomState) (pid : Nat) (a : Str)
    (e : Nat × PeerRecord) (he : e ∈ (assignAlias s pid a).1.peers) :
    e ∈ s.peers ∨ e.1 = pid := by
  simp only [assignAlias] at he
  split at he
  · exact Or.inl he
  · split at he
    · exact Or.inl he
    · dsimp only at he
      rcases mem_aput _ _ _ e he with h | h
      · exact Or.inl h
      · exact Or.inr (congrArg Prod.fst h)

theorem attachAdopt_none (s : RoomState) (u r : Str) (now : Nat) :
    attachAdopt s u r none now = (s, none) := rfl

theorem attachAdopted_none (s : RoomState) (u r : Str) (now : Nat) :
    attachAdopted s u r none now = createNewPeer s.nextId u r now := rfl

theorem attachBaseId_none (s : RoomState) (u r : Str) (now : Nat) :
    attachBaseId s u r none now = s.nextId + 1 := rfl

theorem createNewPeer_peerId (pid : Nat) (u r : Str) (now : Nat) :
    (createNewPeer pid u r now).peerId = pid := rfl

theorem attachStateBound_none_fields (s : RoomState) (u r : Str) (now : Nat) :
    (attachStateBound s u r none now).nextId = s.nextId + 3 ∧
    (attachStateBound s u r none now).peers =
      aput s.peers s.nextId (attachPeer1 s u r none now) ∧
    (attachStateBound s u r none now).pendingStore = s.pendingStore := by
  simp only [attachStateBound, attachAdopt_none, attachAdopted_none, attachBaseId_none,
    createNewPeer_peerId]
  rcases h : alookup s.sockets s.nextId with _ | o <;> simp [h]

theorem attachAliased_none_fields (s : RoomState) (u r : Str) (nh : Option Str) (now : Nat) :
    (attachAliased s u r nh none now).1.nextId = s.nextId + 3 ∧
    (∀ e ∈ (attachAliased s u r nh none now).1.peers,
        (∃ v, (e.1, v) ∈ s.peers) ∨ e.1 = s.nextId) ∧
    (attachAliased s u r nh none now).1.pendingStore = s.pendingStore := by
  obtain ⟨hn, hp, hpend⟩ := attachStateBound_none_fields s u r now
  simp only [attachAliased, attachAdopted_none, createNewPeer_peerId]
  split
  · refine ⟨by rw [assignAlias_nextId, hn], ?_, by rw [assignAlias_pendingStore, hpend]⟩
    intro e he
    rcases assignAlias_peers_mem _ _ _ e he with h | h
    · rw [hp] at h
      rcases mem_aput _ _ _ e h with h2 | h2
      · exact Or.inl ⟨e.2, h2⟩
      · exact Or.inr (congrArg Prod.fst h2)
    · exact Or.inr h
  · refine ⟨hn, ?_, hpend⟩
    intro e he
    rw [hp] at he
    rcases mem_aput _ _ _ e he with h2 | h2
    · exact Or.inl ⟨e.2, h2⟩
    · exact Or.inr (congrArg Prod.fst h2)

theorem applyAttach_none_state (s : RoomState) (u r : Str) (nh : Option Str) (now : Nat)
    (hb : ∀ e ∈ s.pendingStore, e.1.1 < s.nextId) :
    (applyAttach s u r nh none now).1 = s ∨
    ((applyAttach s u r nh none now).1.nextId = s.nextId + 3 ∧
     (∀ e ∈ (applyAttach s u r nh none now).1.peers,
        (∃ v, (e.1, v) ∈ s.peers) ∨ e.1 = s.nextId) ∧
     (applyAttach s u r nh none now).1.pendingStore = s.pendingStore) := by
  obtain ⟨hn, hp, hpend⟩ := attachAliased_none_fields s u r nh now
  by_cases hg : u = [] ∨ r = []
  · left
    simp [applyAttach, hg]
  · right
    have hemp : replayPendingForPeer (attachAliased s u r nh none now).1 s.nextId now
        = ((attachAliased s u r nh none now).1, []) := by
      apply replayPendingForPeer_of_empty
      intro e he
      rw [hpend] at he
      exact Nat.ne_of_lt (hb e he)
    simp only [applyAttach, if_neg hg, attachAdopted_none, createNewPeer_peerId, hemp]
    exact ⟨by rw [scheduleAlarmAt_nextId, hn],
           fun e he => hp e (by rwa [scheduleAlarmAt_peers] at he),
           by rw [scheduleAlarmAt_pendingStore, hpend]⟩

theorem handleSocketDeparture_keys (s : RoomState) (sock : Nat) (now : Nat) :
    (handleSocketDeparture s sock now).1.nextId = s.nextId ∧
    ∀ e ∈ (handleSocketDeparture s sock now).1.peers, ∃ v, (e.1, v) ∈ s.peers := by
  simp only [handleSocketDeparture]
  rcases ht : alookup s.tags sock with _ | peerId
  · exact ⟨rfl, fun e he => ⟨e.2, he⟩⟩
  · dsimp only
    rcases hp : alookup s.peers peerId with _ | peer
    · exact ⟨rfl, fun e he => ⟨e.2, he⟩⟩
    · dsimp only
      by_cases hc : peer.connected = false
      · simp only [if_pos hc]
        refine ⟨trivial, ?_⟩
        intro e he
        exact ⟨e.2, he⟩
      · simp only [if_neg hc]
        refine ⟨by rw [scheduleAlarmAt_nextId], ?_⟩
        intro e he
        rw [scheduleAlarmAt_peers] at he
        dsimp only at he
        rcases mem_aput _ _ _ e he with h | h
        · exact ⟨e.2, h⟩
        · exact ⟨peer, by rw [congrArg Prod.fst h]; exact alookup_mem _ _ _ hp⟩

theorem alarmResume_peers_sub (now : Nat) :
    ∀ (l : List (Nat × ResumeRecord)) (acc : Option Nat) (peers : List (Nat × PeerRecord))
      (aliasMap : List (Str × Nat)),
      ∀ e ∈ (alarmResume now acc peers aliasMap l).2.2.1, e ∈ peers := by
  intro l
  induction l with
  | nil => intro acc peers aliasMap e he; exact he
  | cons a rest ih =>
    intro acc peers aliasMap e he
    by_cases h1 : a.2.expiresAt ≤ now
    · rw [alarmResume, if_pos h1] at he
      rcases hm : alookup peers a.2.peerId with _ | p
      · rw [hm] at he
        dsimp only at he
        exact ih _ _ _ e he
      · rw [hm] at he
        dsimp only at he
        by_cases h2 : p.connected = false ∧ p.resumeToken = a.2.token
        · rw [if_pos h2] at he
          exact mem_adel _ _ e (ih _ _ _ e he)
        · rw [if_neg h2] at he
          exact ih _ _ _ e he
    · rw [alarmResume, if_neg h1] at he
      exact ih _ _ _ e he

theorem handleMessage_keys (s : RoomState) (sock : Nat) (m : ClientMsg) (now : Nat) :
    s.nextId ≤ (handleMessage s sock m now).1.nextId ∧
    ∀ e ∈ (handleMessage s sock m now).1.peers, ∃ v, (e.1, v) ∈ s.peers := by
  simp only [handleMessage]
  split
  · exact ⟨Nat.le_refl _, fun e he => ⟨e.2, he⟩⟩
  · rename_i peerId ht
    split
    · exact ⟨Nat.le_refl _, fun e he => ⟨e.2, he⟩⟩
    · rename_i peer0 hp
      split
      · exact ⟨Nat.le_refl _, fun e he => ⟨e.2, he⟩⟩
      · rename_i hcon
        have hs0 : ∀ (X : PeerRecord) (e : Nat × PeerRecord),
            e ∈ aput s.peers peerId X → ∃ v, (e.1, v) ∈ s.peers := by
          intro X e he
          rcases mem_aput _ _ _ e he with h | h
          · exact ⟨e.2, h⟩
          · exact ⟨peer0, by rw [congrArg Prod.fst h]; exact alookup_mem _ _ _ hp⟩
        split
        · exact ⟨Nat.le_refl _, fun e he => hs0 _ e he⟩
        · split
          · exact ⟨Nat.le_refl _, fun e he => hs0 _ e he⟩
          · split <;>
            · refine ⟨?_, ?_⟩
              · rw [assignAlias_nextId]
              · intro e he
                rcases assignAlias_peers_mem _ _ _ e he with h | h
                · exact hs0 _ e h
                · exact ⟨peer0, by rw [h]; exact alookup_mem _ _ _ hp⟩
        · split <;> exact ⟨Nat.le_refl _, fun e he => hs0 _ e he⟩
        · split
          · exact ⟨Nat.le_refl _, fun e he => hs0 _ e he⟩
          · split <;>
            · refine ⟨?_, ?_⟩
              · rw [scheduleAlarmAt_nextId, tryDeliverPending_nextId]
                try exact Nat.le_succ _
              · intro e he
                rw [scheduleAlarmAt_peers, tryDeliverPending_peers] at he
                exact hs0 _ e he
        · split
          · exact ⟨Nat.le_refl _, fun e he => hs0 _ e he⟩
          · split <;> exact ⟨Nat.le_refl _, fun e he => hs0 _ e he⟩

theorem applyOp_keysBound (s : RoomState) (op : RoomOp) (hk : keysBound s)
    (hnr : noResumeAttach op) : keysBound (applyOp s op).1 := by
  obtain ⟨hkp, hkd⟩ := hk
  cases op with
  | attach u r nh t now =>
    have ht : t = none := hnr
    subst ht
    simp only [applyOp]
    rcases applyAttach_none_state s u r nh now hkd with h | ⟨hn, hp, hpend⟩
    · rw [h]; exact ⟨hkp, hkd⟩
    · constructor
      · intro e he
        rw [hn]
        rcases hp e he with ⟨v, hv⟩ | hke
        · have h2 : e.1 < s.nextId := hkp (e.1, v) hv
          omega
        · omega
      · intro e he
        rw [hpend] at he
        have h2 := hkd e he
        rw [hn]
        omega
  | message sock m now =>
    simp only [applyOp]
    obtain ⟨hle, hpe⟩ := handleMessage_keys s sock m now
    constructor
    · intro e he
      obtain ⟨v, hv⟩ := hpe e he
      have h2 : e.1 < s.nextId := hkp (e.1, v) hv
      omega
    · intro e he
      rcases handleMessage_pend_mem s sock m now e he with h | ⟨⟨v, hv⟩, _⟩
      · have h2 := hkd e h
        omega
      · have h2 : e.1.1 < s.nextId := hkp (e.1.1, v) hv
        omega
  | depart sock now =>
    simp only [applyOp]
    obtain ⟨hn, hpe⟩ := handleSocketDeparture_keys s sock now
    constructor
    · intro e he
      obtain ⟨v, hv⟩ := hpe e he
      rw [hn]
      exact hkp (e.1, v) hv
    · intro e he
      rw [handleSocketDeparture_pendingStore] at he
      rw [hn]
      exact hkd e he
  | tick now =>
    simp only [applyOp]
    constructor
    · intro e he
      have he2 : e ∈ (alarmResume now (alarmPend s.sockets now none s.pendingStore).2.1
          s.peers s.aliasToPeerId s.resumeStore).2.2.1 := he
      have h2 := alarmResume_peers_sub now s.resumeStore _ s.peers s.aliasToPeerId e he2
      exact hkp e h2
    · intro e he
      have he2 : e ∈ (alarmPend s.sockets now none s.pendingStore).1 := he
      obtain ⟨a, hamem, hk1, _⟩ := alarmPend_mem s.sockets now s.pendingStore none e he2
      have h2 := hkd a hamem
      rw [hk1]
      exact h2

theorem applyOp_attempts (s : RoomState) (op : RoomOp) (hk : keysBound s)
    (ha : ∀ e ∈ s.pendingStore, e.2.attempts ≤ DELIVERY_MAX_ATTEMPTS)
    (hnr : noResumeAttach op) :
    ∀ e ∈ (applyOp s op).1.pendingStore, e.2.attempts ≤ DELIVERY_MAX_ATTEMPTS := by
  cases op with
  | attach u r nh t now =>
    have ht : t = none := hnr
    subst ht
    intro e he
    simp only [applyOp] at he
    rcases applyAttach_none_state s u r nh now hk.2 with h | ⟨_, _, hpend⟩
    · rw [h] at he
      exact ha e he
    · rw [hpend] at he
      exact ha e he
  | message sock m now =>
    intro e he
    simp only [applyOp] at he
    rcases handleMessage_pend_mem s sock m now e he with h | ⟨_, _, _, h3⟩
    · exact ha e h
    · exact le_trans h3 (by decide)
  | depart sock now =>
    intro e he
    simp only [applyOp] at he
    rw [handleSocketDeparture_pendingStore] at he
    exact ha e he
  | tick now =>
    intro e he
    simp only [applyOp] at he
    have he2 : e ∈ (alarmPend s.sockets now none s.pendingStore).1 := he
    obtain ⟨a, hamem, _, _, _, h3⟩ := alarmPend_mem s.sockets now s.pendingStore none e he2
    have h4 := ha a hamem
    rcases h3 with h | ⟨h, hlt⟩ <;> omega

theorem runRoom_attempts (ops : List RoomOp) :
    ∀ s : RoomState, keysBound s →
      (∀ e ∈ s.pendingStore, e.2.attempts ≤ DELIVERY_MAX_ATTEMPTS) →
      (∀ op ∈ ops, noResumeAttach op) →
      ∀ e ∈ (runRoom s ops).pendingStore, e.2.attempts ≤ DELIVERY_MAX_ATTEMPTS := by
  induction ops with
  | nil => intro s _ ha _; exact ha
  | cons op rest ih =>
    intro s hk ha hnr
    exact ih _ (applyOp_keysBound s op hk (hnr op (List.mem_cons_self op rest)))
      (applyOp_attempts s op hk ha (hnr op (List.mem_cons_self op rest)))
      (fun o ho => hnr o (List.mem_cons_of_mem op ho))

set_option maxRecDepth 10000 in
/-- C3: counterexample.  The claimed reachable-state invariant
`attempts ≤ MAX_ATTEMPTS (12)` is false: after two peers attach and one
signal is queued for peer 3, twelve disconnect/resume cycles each replay
the pending delivery to the re-connected recipient, and replay
(`replayPendingForPeer` → `tryDeliverPending`) counts an attempt with no
max-attempts guard, so the stored record reaches `attempts = 13`. -/
theorem replay_breaks_attempt_bound :
    ¬ pendingDeliveryInvariant (runRoom initRoom c3Ops) := by decide

/-- C3 (amended): in every room state reachable by any operation
sequence, every stored PendingDelivery record satisfies
`expiresAt = sentAt + MAX_DELIVERY_AGE (90 s)` — so the claimed
inequality holds — and along any sequence whose attaches carry no resume
token (no replay-on-resume), `attempts ≤ MAX_ATTEMPTS (12)` does hold. -/
theorem pendingDelivery_bounds (ops : List RoomOp) :
    (∀ e ∈ (runRoom initRoom ops).pendingStore,
        e.2.expiresAt = e.2.sentAt + DELIVERY_MAX_AGE_MS) ∧
    ((∀ op ∈ ops, noResumeAttach op) →
      ∀ e ∈ (runRoom initRoom ops).pendingStore,
        e.2.attempts ≤ DELIVERY_MAX_ATTEMPTS) := by
  constructor
  · exact runRoom_expiry ops initRoom (by intro e he; simp [initRoom] at he)
  · intro hnr
    exact runRoom_attempts ops initRoom
      ⟨by intro e he; simp [initRoom] at he, by intro e he; simp [initRoom] at he⟩
      (by intro e he; simp [initRoom] at he) hnr

/-- C3 witness: the amended bound theorem instantiated on a concrete
resume-free trace (two attaches and one queued signal). -/
theorem pendingDelivery_bounds_witness :
    pendingDeliveryInvariant (runRoom initRoom c3wOps) := by
  have h := pendingDelivery_bounds c3wOps
  intro e he
  exact ⟨h.2 (by decide) e he, le_of_eq (h.1 e he)⟩

/-! ### Peer/alias consistency (C4) -/

theorem nodup_aput {κ α : Type} [DecidableEq κ] (k : κ) (v : α) :
    ∀ l : List (κ × α), (l.map Prod.fst).Nodup → ((aput l k v).map Prod.fst).Nodup := by
  intro l
  induction l with
  | nil => intro _; simp [aput]
  | cons a rest ih =>
    intro h
    rw [List.map_cons, List.nodup_cons] at h
    by_cases hk : a.1 = k
    · rw [aput, if_pos hk, List.map_cons, List.nodup_cons]
      exact ⟨by rw [← hk]; exact h.1, h.2⟩
    · rw [aput, if_neg hk, List.map_cons, List.nodup_cons]
      constructor
      · intro hmem
        rcases List.mem_map.mp hmem with ⟨e, he, hke⟩
        rcases mem_aput k v rest e he with h2 | h2
        · exact h.1 (List.mem_map.mpr ⟨e, h2, hke⟩)
        · rw [h2] at hke
          exact hk hke.symm
      · exact ih h.2

theorem adel_sublist {κ α : Type} [DecidableEq κ] (k : κ) :
    ∀ l : List (κ × α), (adel l k).Sublist l := by
  intro l
  induction l with
  | nil => exact List.Sublist.refl _
  | cons a rest ih =>
    by_cases hk : a.1 = k
    · rw [adel, if_pos hk]
      exact ih.cons a
    · rw [adel, if_neg hk]
      exact ih.cons₂ a

theorem nodup_adel {κ α : Type} [DecidableEq κ] (k : κ) (l : List (κ × α))
    (h : (l.map Prod.fst).Nodup) : ((adel l k).map Prod.fst).Nodup :=
  h.sublist ((adel_sublist k l).map Prod.fst)

theorem mem_adel_key {κ α : Type} [DecidableEq κ] (k : κ) :
    ∀ (l : List (κ × α)) (e : κ × α), e ∈ adel l k → e.1 ≠ k := by
  intro l
  induction l with
  | nil => intro e he; simp [adel] at he
  | cons a rest ih =>
    intro e he
    by_cases hk : a.1 = k
    · rw [adel, if_pos hk] at he
      exact ih e he
    · rw [adel, if_neg hk] at he
      rcases List.mem_cons.mp he with he | he
      · rw [he]; exact hk
      · exact ih e he

theorem mem_adel_of_ne {κ α : Type} [DecidableEq κ] (k : κ) :
    ∀ (l : List (κ × α)) (e : κ × α), e ∈ l → e.1 ≠ k → e ∈ adel l k := by
  intro l
  induction l with
  | nil => intro e he; simp at he
  | cons a rest ih =>
    intro e he hne
    by_cases hk : a.1 = k
    · rw [adel, if_pos hk]
      rcases List.mem_cons.mp he with he | he
      · exact absurd (by rw [he]; exact hk) hne
      · exact ih e he hne
    · rw [adel, if_neg hk]
      rcases List.mem_cons.mp he with he | he
      · rw [he]; exact List.mem_cons_self a _
      · exact List.mem_cons_of_mem a (ih e he hne)

theorem alookup_eq_some_of_mem {κ α : Type} [DecidableEq κ] :
    ∀ (l : List (κ × α)) (e : κ × α), (l.map Prod.fst).Nodup → e ∈ l →
      alookup l e.1 = some e.2 := by
  intro l
  induction l with
  | nil => intro e _ he; simp at he
  | cons a rest ih =>
    intro e hn he
    rw [List.map_cons, List.nodup_cons] at hn
    rcases List.mem_cons.mp he with he | he
    · rw [he, alookup, if_pos rfl]
    · by_cases hk : a.1 = e.1
      · exact absurd (List.mem_map.mpr ⟨e, he, hk.symm⟩) hn.1
      · rw [alookup, if_neg hk]
        exact ih e hn.2 he

theorem mem_aput_eq_of_key {κ α : Type} [DecidableEq κ] (k : κ) (v : α) :
    ∀ (l : List (κ × α)) (e : κ × α), (l.map Prod.fst).Nodup → e ∈ aput l k v →
      e.1 = k → e = (k, v) := by
  intro l
  induction l with
  | nil =>
    intro e _ he _
    simp [aput] at he
    simp [he]
  | cons a rest ih =>
    intro e hn he hek
    rw [List.map_cons, List.nodup_cons] at hn
    by_cases hk : a.1 = k
    · rw [aput, if_pos hk] at he
      rcases List.mem_cons.mp he with he | he
      · simp [he]
      · have hea : e.1 = a.1 := hek.trans hk.symm
        exact absurd (List.mem_map.mpr ⟨e, he, hea⟩) hn.1
    · rw [aput, if_neg hk] at he
      rcases List.mem_cons.mp he with he | he
      · rw [he] at hek
        exact absurd hek hk
      · exact ih e hn.2 he hek

theorem nodup_key_eq {κ α : Type} [DecidableEq κ] :
    ∀ (l : List (κ × α)) (e1 e2 : κ × α), (l.map Prod.fst).Nodup → e1 ∈ l → e2 ∈ l →
      e1.1 = e2.1 → e1 = e2 := by
  intro l
  induction l with
  | nil => intro e1 e2 _ h1; simp at h1
  | cons a rest ih =>
    intro e1 e2 hn h1 h2 hk
    rw [List.map_cons, List.nodup_cons] at hn
    rcases List.mem_cons.mp h1 with h1 | h1 <;> rcases List.mem_cons.mp h2 with h2 | h2
    · rw [h1, h2]
    · have hea : e2.1 = a.1 := by rw [← hk, h1]
      exact absurd (List.mem_map.mpr ⟨e2, h2, hea⟩) hn.1
    · have hea : e1.1 = a.1 := by rw [hk, h2]
      exact absurd (List.mem_map.mpr ⟨e1, h1, hea⟩) hn.1
    · exact ih e1 e2 hn.2 h1 h2 hk

theorem RoomInvC_updatePeer (n n' : Nat) (peers : List (Nat × PeerRecord))
    (aliasMap : List (Str × Nat)) (resumeStore : List (Nat × ResumeRecord))
    (pid : Nat) (p0 p1 : PeerRecord)
    (h : RoomInvC n peers aliasMap resumeStore)
    (hp : alookup peers pid = some p0)
    (hk : p1.peerId = pid)
    (ha : p1.aliasName = p0.aliasName)
    (hrec : ∀ e ∈ resumeStore, e.2.peerId = pid →
        p1.connected = false ∧ p1.aliasName = e.2.aliasName ∧ p1.resumeToken = e.1)
    (hn : n ≤ n') :
    RoomInvC n' (aput peers pid p1) aliasMap resumeStore := by
  obtain ⟨hnp, hna, hnr, hkey, hfm, hmf, hres⟩ := h
  refine ⟨nodup_aput _ _ _ hnp, hna, hnr, ?_, ?_, ?_, ?_⟩
  · intro e he
    rcases mem_aput _ _ _ e he with h2 | h2
    · obtain ⟨hk2, hb⟩ := hkey e h2
      exact ⟨hk2, lt_of_lt_of_le hb hn⟩
    · rw [h2]
      exact ⟨hk, lt_of_lt_of_le (hkey (pid, p0) (alookup_mem _ _ _ hp)).2 hn⟩
  · intro e he a hea
    rcases mem_aput _ _ _ e he with h2 | h2
    · exact hfm e h2 a hea
    · rw [h2] at hea ⊢
      rw [ha] at hea
      exact hfm (pid, p0) (alookup_mem _ _ _ hp) a hea
  · intro e he
    obtain ⟨p, hpe, hpa⟩ := hmf e he
    by_cases h2 : e.2 = pid
    · rw [h2] at hpe ⊢
      rw [alookup_aput_self]
      rw [hp] at hpe
      have hpp : p0 = p := Option.some.inj hpe
      exact ⟨p1, rfl, by rw [ha, hpp]; exact hpa⟩
    · rw [alookup_aput_ne _ _ _ _ (fun hx => h2 hx.symm)]
      exact ⟨p, hpe, hpa⟩
  · intro e he
    obtain ⟨htok, p, hpe, hc, hal, hrt⟩ := hres e he
    by_cases h2 : e.2.peerId = pid
    · obtain ⟨hc1, ha1, hr1⟩ := hrec e he h2
      rw [h2, alookup_aput_self]
      exact ⟨htok, p1, rfl, hc1, ha1, hr1⟩
    · rw [alookup_aput_ne _ _ _ _ (fun hx => h2 hx.symm)]
      exact ⟨htok, p, hpe, hc, hal, hrt⟩

theorem RoomInvC_setAlias (n : Nat) (peers : List (Nat × PeerRecord))
    (aliasMap m1 : List (Str × Nat)) (resumeStore : List (Nat × ResumeRecord))
    (pid : Nat) (a : Str) (peer : PeerRecord)
    (h : RoomInvC n peers aliasMap resumeStore)
    (hp : alookup peers pid = some peer)
    (hconn : peer.connected = true)
    (hm1n : (m1.map Prod.fst).Nodup)
    (hm1sub : ∀ e ∈ m1, e ∈ aliasMap)
    (hm1keep : ∀ b t, alookup aliasMap b = some t → t ≠ pid → alookup m1 b = some t)
    (hm1pid : ∀ e ∈ m1, e.2 ≠ pid)
    (hfree : alookup aliasMap a = none ∨ alookup aliasMap a = some pid) :
    RoomInvC n (aput peers pid { peer with aliasName := some a }) (aput m1 a pid)
      resumeStore := by
  obtain ⟨hnp, hna, hnr, hkey, hfm, hmf, hres⟩ := h
  have hpm : (pid, peer) ∈ peers := alookup_mem _ _ _ hp
  refine ⟨nodup_aput _ _ _ hnp, nodup_aput _ _ _ hm1n, hnr, ?_, ?_, ?_, ?_⟩
  · intro e he
    rcases mem_aput _ _ _ e he with h2 | h2
    · exact hkey e h2
    · rw [h2]
      exact ⟨(hkey (pid, peer) hpm).1, (hkey (pid, peer) hpm).2⟩
  · intro e he b heb
    by_cases hek : e.1 = pid
    · have he2 := mem_aput_eq_of_key pid { peer with aliasName := some a } peers e hnp he hek
      rw [he2] at heb ⊢
      have hba : b = a := by
        have : some a = some b := heb
        exact (Option.some.inj this).symm
      rw [hba]
      exact alookup_aput_self _ _ _
    · rcases mem_aput _ _ _ e he with h2 | h2
      · have hb0 := hfm e h2 b heb
        by_cases hba : b = a
        · exfalso
          rw [hba] at hb0
          rcases hfree with hf | hf
          · rw [hf] at hb0
            exact Option.noConfusion hb0
          · rw [hf] at hb0
            exact hek (Option.some.inj hb0).symm
        · rw [alookup_aput_ne _ _ _ _ (fun hx => hba hx.symm)]
          exact hm1keep b e.1 hb0 hek
      · exact absurd (congrArg Prod.fst h2) hek
  · intro e he
    by_cases hek : e.1 = a
    · have he2 := mem_aput_eq_of_key a pid m1 e hm1n he hek
      rw [he2]
      exact ⟨{ peer with aliasName := some a }, alookup_aput_self _ _ _, rfl⟩
    · have h2 : e ∈ m1 := by
        rcases mem_aput _ _ _ e he with h2 | h2
        · exact h2
        · exact absurd (congrArg Prod.fst h2) hek
      have hne : e.2 ≠ pid := hm1pid e h2
      obtain ⟨q, hq, hqa⟩ := hmf e (hm1sub e h2)
      rw [alookup_aput_ne _ _ _ _ (fun hx => hne hx.symm)]
      exact ⟨q, hq, hqa⟩
  · intro e he
    obtain ⟨htok, q, hqe, hc, hal, hrt⟩ := hres e he
    by_cases h2 : e.2.peerId = pid
    · exfalso
      rw [h2, hp] at hqe
      have : peer = q := Option.some.inj hqe
      rw [← this] at hc
      rw [hconn] at hc
      exact Bool.noConfusion hc
    · rw [alookup_aput_ne _ _ _ _ (fun hx => h2 hx.symm)]
      exact ⟨htok, q, hqe, hc, hal, hrt⟩

theorem RoomInv_assignAlias (s : RoomState) (pid : Nat) (a : Str)
    (h : RoomInv s)
    (hconn : ∀ p, alookup s.peers pid = some p → p.connected = true) :
    RoomInv (assignAlias s pid a).1 := by
  simp only [assignAlias]
  rcases hp : alookup s.peers pid with _ | peer
  · exact h
  · dsimp only
    split
    · exact h
    · rename_i hcf
      have hfree : alookup s.aliasToPeerId a = none ∨ alookup s.aliasToPeerId a = some pid := by
        rcases hq : alookup s.aliasToPeerId a with _ | c
        · exact Or.inl rfl
        · right
          rw [hq] at hcf
          simp only [decide_eq_true_eq] at hcf
          rw [Decidable.not_not] at hcf
          rw [hcf]
      obtain ⟨hnp, hna, hnr, hkey, hfm, hmf, hres⟩ := h
      have hconn2 : peer.connected = true := hconn peer hp
      rcases hold : peer.aliasName with _ | old
      · simp only [hold]
        have hm1pid : ∀ e ∈ s.aliasToPeerId, e.2 ≠ pid := by
          intro e he hepid
          obtain ⟨q, hq, hqa⟩ := hmf e he
          rw [hepid, hp] at hq
          have : peer = q := Option.some.inj hq
          rw [← this, hold] at hqa
          exact Option.noConfusion hqa
        exact RoomInvC_setAlias s.nextId s.peers s.aliasToPeerId s.aliasToPeerId
          s.resumeStore pid a peer ⟨hnp, hna, hnr, hkey, hfm, hmf, hres⟩ hp hconn2
          hna (fun e he => he) (fun b t hb _ => hb) hm1pid hfree
      · simp only [hold]
        by_cases hcd : alookup s.aliasToPeerId old = some pid
        · rw [if_pos hcd]
          have hm1pid : ∀ e ∈ adel s.aliasToPeerId old, e.2 ≠ pid := by
            intro e he hepid
            obtain ⟨q, hq, hqa⟩ := hmf e (mem_adel _ _ e he)
            rw [hepid, hp] at hq
            have hqq : peer = q := Option.some.inj hq
            rw [← hqq, hold] at hqa
            exact mem_adel_key _ _ e he (Option.some.inj hqa).symm
          have hm1keep : ∀ b t, alookup s.aliasToPeerId b = some t → t ≠ pid →
              alookup (adel s.aliasToPeerId old) b = some t := by
            intro b t hb hne
            by_cases hbo : b = old
            · rw [hbo] at hb
              rw [hb] at hcd
              exact absurd (Option.some.inj hcd) hne
            · rw [alookup_adel_ne _ _ _ (fun hx => hbo hx.symm)]
              exact hb
          exact RoomInvC_setAlias s.nextId s.peers s.aliasToPeerId
            (adel s.aliasToPeerId old) s.resumeStore pid a peer
            ⟨hnp, hna, hnr, hkey, hfm, hmf, hres⟩ hp hconn2
            (nodup_adel _ _ hna) (fun e he => mem_adel _ _ e he) hm1keep hm1pid hfree
        · rw [if_neg hcd]
          have hm1pid : ∀ e ∈ s.aliasToPeerId, e.2 ≠ pid := by
            intro e he hepid
            obtain ⟨q, hq, hqa⟩ := hmf e he
            rw [hepid, hp] at hq
            have hqq : peer = q := Option.some.inj hq
            rw [← hqq, hold] at hqa
            have heo : e.1 = old := (Option.some.inj hqa).symm
            have := alookup_eq_some_of_mem _ e hna he
            rw [heo, hepid] at this
            exact hcd this
          exact RoomInvC_setAlias s.nextId s.peers s.aliasToPeerId s.aliasToPeerId
            s.resumeStore pid a peer ⟨hnp, hna, hnr, hkey, hfm, hmf, hres⟩ hp hconn2
            hna (fun e he => he) (fun b t hb _ => hb) hm1pid hfree

theorem scheduleAlarmAt_aliasMap (s : RoomState) (at_ : Nat) :
    (scheduleAlarmAt s at_).aliasToPeerId = s.aliasToPeerId := by
  rcases h : s.alarmTime with _ | cur <;> simp [scheduleAlarmAt, h]
  split <;> rfl

theorem scheduleAlarmAt_resumeStore (s : RoomState) (at_ : Nat) :
    (scheduleAlarmAt s at_).resumeStore = s.resumeStore := by
  rcases h : s.alarmTime with _ | cur <;> simp [scheduleAlarmAt, h]
  split <;> rfl

theorem RoomInv_scheduleAlarmAt (X : RoomState) (t : Nat) (h : RoomInv X) :
    RoomInv (scheduleAlarmAt X t) := by
  unfold RoomInv
  rw [scheduleAlarmAt_nextId, scheduleAlarmAt_peers, scheduleAlarmAt_aliasMap,
    scheduleAlarmAt_resumeStore]
  exact h

theorem RoomInv_depart (s : RoomState) (sock : Nat) (now : Nat) (h : RoomInv s) :
    RoomInv (handleSocketDeparture s sock now).1 := by
  simp only [handleSocketDeparture]
  rcases ht : alookup s.tags sock with _ | peerId
  · exact h
  · dsimp only
    rcases hp : alookup s.peers peerId with _ | peer
    · exact h
    · dsimp only
      by_cases hc : peer.connected = false
      · simp only [if_pos hc]
        exact h
      · simp only [if_neg hc]
        apply RoomInv_scheduleAlarmAt
        obtain ⟨hnp, hna, hnr, hkey, hfm, hmf, hres⟩ := h
        have hpm : (peerId, peer) ∈ s.peers := alookup_mem _ _ _ hp
        refine ⟨nodup_aput _ _ _ hnp, hna, nodup_aput _ _ _ hnr, ?_, ?_, ?_, ?_⟩
        · intro e he
          rcases mem_aput _ _ _ e he with h2 | h2
          · exact hkey e h2
          · rw [h2]
            exact ⟨(hkey (peerId, peer) hpm).1, (hkey (peerId, peer) hpm).2⟩
        · intro e he b heb
          rcases mem_aput _ _ _ e he with h2 | h2
          · exact hfm e h2 b heb
          · rw [h2] at heb ⊢
            exact hfm (peerId, peer) hpm b heb
        · intro e he
          obtain ⟨q, hq, hqa⟩ := hmf e he
          by_cases h2 : e.2 = peerId
          · rw [h2] at hq ⊢
            rw [alookup_aput_self]
            rw [hp] at hq
            have hqq : peer = q := Option.some.inj hq
            exact ⟨_, rfl, by rw [← hqq] at hqa; exact hqa⟩
          · rw [alookup_aput_ne _ _ _ _ (fun hx => h2 hx.symm)]
            exact ⟨q, hq, hqa⟩
        · intro e he
          rcases mem_aput _ _ _ e he with h2 | h2
          · obtain ⟨htok, q, hqe, hqc, hqa, hqr⟩ := hres e h2
            by_cases h3 : e.2.peerId = peerId
            · exfalso
              rw [h3, hp] at hqe
              have hqq : peer = q := Option.some.inj hqe
              rw [← hqq] at hqc
              exact hc hqc
            · rw [alookup_aput_ne _ _ _ _ (fun hx => h3 hx.symm)]
              exact ⟨htok, q, hqe, hqc, hqa, hqr⟩
          · rw [h2]
            refine ⟨rfl, ?_⟩
            have hqid : peer.peerId = peerId := (hkey (peerId, peer) hpm).1
            rw [hqid, alookup_aput_self]
            exact ⟨_, rfl, rfl, rfl, rfl⟩

theorem tryDeliverPending_aliasMap (s : RoomState) (r : PendingDeliveryRecord) (now : Nat) :
    (tryDeliverPending s r now).1.aliasToPeerId = s.aliasToPeerId := by
  rcases h : tryDeliverCore s.sockets r now with ⟨o, evs⟩
  cases o <;> simp [tryDeliverPending, h]

theorem tryDeliverPending_resumeStore (s : RoomState) (r : PendingDeliveryRecord) (now : Nat) :
    (tryDeliverPending s r now).1.resumeStore = s.resumeStore := by
  rcases h : tryDeliverCore s.sockets r now with ⟨o, evs⟩
  cases o <;> simp [tryDeliverPending, h]

theorem RoomInvC_mono (n n' : Nat) (peers : List (Nat × PeerRecord))
    (aliasMap : List (Str × Nat)) (resumeStore : List (Nat × ResumeRecord))
    (h : RoomInvC n peers aliasMap resumeStore) (hn : n ≤ n') :
    RoomInvC n' peers aliasMap resumeStore := by
  obtain ⟨hnp, hna, hnr, hkey, hfm, hmf, hres⟩ := h
  exact ⟨hnp, hna, hnr,
    fun e he => ⟨(hkey e he).1, lt_of_lt_of_le (hkey e he).2 hn⟩, hfm, hmf, hres⟩

theorem RoomInv_message (s : RoomState) (sock : Nat) (m : ClientMsg) (now : Nat)
    (h : RoomInv s) : RoomInv (handleMessage s sock m now).1 := by
  simp only [handleMessage]
  split
  · exact h
  · rename_i peerId ht
    split
    · exact h
    · rename_i peer0 hp
      split
      · exact h
      · rename_i hcon
        have hconn : peer0.connected = true := by
          revert hcon
          cases peer0.connected <;> simp
        have hkey0 : peer0.peerId = peerId :=
          (h.2.2.2.1 (peerId, peer0) (alookup_mem _ _ _ hp)).1
        have hrec0 : ∀ e ∈ s.resumeStore, e.2.peerId = peerId →
            ({ peer0 with lastSeenAt := now } : PeerRecord).connected = false ∧
            ({ peer0 with lastSeenAt := now } : PeerRecord).aliasName = e.2.aliasName ∧
            ({ peer0 with lastSeenAt := now } : PeerRecord).resumeToken = e.1 := by
          intro e he h2
          exfalso
          obtain ⟨_, q, hqe, hqc, _⟩ := h.2.2.2.2.2.2 e he
          rw [h2, hp] at hqe
          have hqq : peer0 = q := Option.some.inj hqe
          rw [← hqq, hconn] at hqc
          exact Bool.noConfusion hqc
        have hinv0 : RoomInvC s.nextId (aput s.peers peerId { peer0 with lastSeenAt := now })
            s.aliasToPeerId s.resumeStore :=
          RoomInvC_updatePeer s.nextId s.nextId s.peers s.aliasToPeerId s.resumeStore
            peerId peer0 { peer0 with lastSeenAt := now } h hp hkey0 rfl hrec0 (Nat.le_refl _)
        split
        · exact hinv0
        · split
          · exact hinv0
          · rename_i normalized hnorm
            have hconn2 : ∀ p, alookup (aput s.peers peerId
                { peer0 with lastSeenAt := now }) peerId = some p → p.connected = true := by
              intro p hpp
              rw [alookup_aput_self] at hpp
              have : ({ peer0 with lastSeenAt := now } : PeerRecord) = p :=
                Option.some.inj hpp
              rw [← this]
              exact hconn
            have har := RoomInv_assignAlias
              { s with peers := aput s.peers peerId { peer0 with lastSeenAt := now } }
              peerId normalized hinv0 hconn2
            split
            · exact har
            · exact har
        · split <;> exact hinv0
        · split
          · exact hinv0
          · split <;>
            · apply RoomInv_scheduleAlarmAt
              unfold RoomInv
              rw [tryDeliverPending_nextId, tryDeliverPending_peers,
                tryDeliverPending_aliasMap, tryDeliverPending_resumeStore]
              first
                | exact hinv0
                | exact RoomInvC_mono _ _ _ _ _ hinv0 (Nat.le_succ _)
        · split
          · exact hinv0
          · split <;> exact hinv0

theorem RoomInvC_delResume (n : Nat) (peers : List (Nat × PeerRecord))
    (aliasMap : List (Str × Nat)) (resumeStore : List (Nat × ResumeRecord)) (k : Nat)
    (h : RoomInvC n peers aliasMap resumeStore) :
    RoomInvC n peers aliasMap (adel resumeStore k) := by
  obtain ⟨hnp, hna, hnr, hkey, hfm, hmf, hres⟩ := h
  exact ⟨hnp, hna, nodup_adel _ _ hnr, hkey, hfm, hmf,
    fun e he => hres e (mem_adel _ _ e he)⟩

theorem RoomInvC_addFresh (n n' pid : Nat) (peers : List (Nat × PeerRecord))
    (aliasMap : List (Str × Nat)) (resumeStore : List (Nat × ResumeRecord))
    (p1 : PeerRecord)
    (h : RoomInvC n peers aliasMap resumeStore)
    (hpid : n ≤ pid) (hn' : pid < n')
    (hk : p1.peerId = pid) (ha : p1.aliasName = none) :
    RoomInvC n' (aput peers pid p1) aliasMap resumeStore := by
  obtain ⟨hnp, hna, hnr, hkey, hfm, hmf, hres⟩ := h
  have hn : n ≤ n' := le_trans hpid (Nat.le_of_lt hn')
  refine ⟨nodup_aput _ _ _ hnp, hna, hnr, ?_, ?_, ?_, ?_⟩
  · intro e he
    rcases mem_aput _ _ _ e he with h2 | h2
    · exact ⟨(hkey e h2).1, lt_of_lt_of_le (hkey e h2).2 hn⟩
    · rw [h2]
      exact ⟨hk, hn'⟩
  · intro e he b heb
    rcases mem_aput _ _ _ e he with h2 | h2
    · exact hfm e h2 b heb
    · rw [h2] at heb
      rw [ha] at heb
      exact Option.noConfusion heb
  · intro e he
    obtain ⟨q, hq, hqa⟩ := hmf e he
    have hne : e.2 ≠ pid := by
      intro hx
      have hb := (hkey (e.2, q) (alookup_mem _ _ _ hq)).2
      omega
    rw [alookup_aput_ne _ _ _ _ (fun hx => hne hx.symm)]
    exact ⟨q, hq, hqa⟩
  · intro e he
    obtain ⟨htok, q, hqe, hqc, hqa, hqr⟩ := hres e he
    have hne : e.2.peerId ≠ pid := by
      intro hx
      have hb := (hkey (e.2.peerId, q) (alookup_mem _ _ _ hqe)).2
      omega
    rw [alookup_aput_ne _ _ _ _ (fun hx => hne hx.symm)]
    exact ⟨htok, q, hqe, hqc, hqa, hqr⟩

theorem tryResume_spec (s : RoomState) (tok : Nat) (u r : Str) (now : Nat)
    (h : RoomInv s) :
    RoomInv (tryResumeByToken s tok u r now).1 ∧
    (∀ p0, (tryResumeByToken s tok u r now).2 = some p0 →
      ∃ q, alookup (tryResumeByToken s tok u r now).1.peers p0.peerId = some q ∧
        p0.aliasName = q.aliasName ∧
        ∀ e ∈ (tryResumeByToken s tok u r now).1.resumeStore, e.2.peerId ≠ p0.peerId) := by
  simp only [tryResumeByToken]
  rcases hrec : alookup s.resumeStore tok with _ | rec
  · exact ⟨h, fun p0 hp0 => Option.noConfusion hp0⟩
  · dsimp only
    by_cases h1 : rec.expiresAt ≤ now
    · simp only [if_pos h1]
      exact ⟨RoomInvC_delResume _ _ _ _ _ h, fun p0 hp0 => Option.noConfusion hp0⟩
    · simp only [if_neg h1]
      by_cases h2 : rec.userId ≠ u ∨ rec.roomId ≠ r
      · simp only [if_pos h2]
        exact ⟨h, fun p0 hp0 => Option.noConfusion hp0⟩
      · simp only [if_neg h2]
        obtain ⟨htok, p, hpe, hpc, hpa, hpr⟩ :=
          h.2.2.2.2.2.2 (tok, rec) (alookup_mem _ _ _ hrec)
        rw [hpe]
        dsimp only
        constructor
        · exact RoomInvC_delResume _ _ _ _ _ h
        · intro p0 hp0
          have hp0eq : ({ p with
                            aliasName := rec.aliasName, userId := rec.userId,
                            roomId := rec.roomId, resumeToken := rec.token,
                            resumeExpiresAt := rec.expiresAt } : PeerRecord) = p0 :=
            Option.some.inj hp0
          have hpid : p0.peerId = rec.peerId := by
            rw [← hp0eq]
            exact (h.2.2.2.1 (rec.peerId, p) (alookup_mem _ _ _ hpe)).1
          refine ⟨p, ?_, ?_, ?_⟩
          · rw [hpid]
            exact hpe
          · rw [← hp0eq]
            exact hpa.symm ▸ rfl
          · intro e he hne
            obtain ⟨htok2, q2, hq2e, _, _, hq2r⟩ :=
              h.2.2.2.2.2.2 e (mem_adel _ _ e he)
            rw [hne, hpid, hpe] at hq2e
            have hq2p : p = q2 := Option.some.inj hq2e
            rw [← hq2p] at hq2r
            rw [hpr] at hq2r
            exact mem_adel_key _ _ e he hq2r.symm

theorem attachStateBound_peers (s : RoomState) (u r : Str) (t : Option Nat) (now : Nat) :
    (attachStateBound s u r t now).peers =
      aput (attachAdopt s u r t now).1.peers (attachAdopted s u r t now).peerId
        (attachPeer1 s u r t now) := by
  simp only [attachStateBound]
  rcases h : alookup (attachAdopt s u r t now).1.sockets
      (attachAdopted s u r t now).peerId with _ | o <;> simp [h]

theorem attachStateBound_aliasMap (s : RoomState) (u r : Str) (t : Option Nat) (now : Nat) :
    (attachStateBound s u r t now).aliasToPeerId =
      (attachAdopt s u r t now).1.aliasToPeerId := by
  simp only [attachStateBound]
  rcases h : alookup (attachAdopt s u r t now).1.sockets
      (attachAdopted s u r t now).peerId with _ | o <;> simp [h]

theorem attachStateBound_resumeStore (s : RoomState) (u r : Str) (t : Option Nat) (now : Nat) :
    (attachStateBound s u r t now).resumeStore =
      (attachAdopt s u r t now).1.resumeStore := by
  simp only [attachStateBound]
  rcases h : alookup (attachAdopt s u r t now).1.sockets
      (attachAdopted s u r t now).peerId with _ | o <;> simp [h]

theorem attachStateBound_nextId (s : RoomState) (u r : Str) (t : Option Nat) (now : Nat) :
    (attachStateBound s u r t now).nextId = attachBaseId s u r t now + 2 := rfl

theorem attachAdopted_eq_some (s : RoomState) (u r : Str) (t : Option Nat) (now : Nat)
    (p0 : PeerRecord) (h : (attachAdopt s u r t now).2 = some p0) :
    attachAdopted s u r t now = p0 := by
  simp only [attachAdopted, h]

theorem attachAdopted_eq_none (s : RoomState) (u r : Str) (t : Option Nat) (now : Nat)
    (h : (attachAdopt s u r t now).2 = none) :
    attachAdopted s u r t now =
      createNewPeer (attachAdopt s u r t now).1.nextId u r now := by
  simp only [attachAdopted, h]

theorem attachBaseId_eq_some (s : RoomState) (u r : Str) (t : Option Nat) (now : Nat)
    (p0 : PeerRecord) (h : (attachAdopt s u r t now).2 = some p0) :
    attachBaseId s u r t now = (attachAdopt s u r t now).1.nextId := by
  simp only [attachBaseId, h]

theorem attachBaseId_eq_none (s : RoomState) (u r : Str) (t : Option Nat) (now : Nat)
    (h : (attachAdopt s u r t now).2 = none) :
    attachBaseId s u r t now = (attachAdopt s u r t now).1.nextId + 1 := by
  simp only [attachBaseId, h]

theorem RoomInv_attachAdopt (s : RoomState) (u r : Str) (t : Option Nat) (now : Nat)
    (h : RoomInv s) :
    RoomInv (attachAdopt s u r t now).1 ∧
    (∀ p0, (attachAdopt s u r t now).2 = some p0 →
      ∃ q, alookup (attachAdopt s u r t now).1.peers p0.peerId = some q ∧
        p0.aliasName = q.aliasName ∧
        ∀ e ∈ (attachAdopt s u r t now).1.resumeStore, e.2.peerId ≠ p0.peerId) := by
  cases t with
  | none => exact ⟨h, fun p0 hp0 => Option.noConfusion hp0⟩
  | some tok => exact tryResume_spec s tok u r now h

theorem RoomInv_attachStateBound (s : RoomState) (u r : Str) (t : Option Nat) (now : Nat)
    (h : RoomInv s) :
    RoomInv (attachStateBound s u r t now) ∧
    alookup (attachStateBound s u r t now).peers (attachAdopted s u r t now).peerId =
      some (attachPeer1 s u r t now) := by
  obtain ⟨hinv1, hsome⟩ := RoomInv_attachAdopt s u r t now h
  constructor
  · unfold RoomInv
    rw [attachStateBound_nextId, attachStateBound_peers, attachStateBound_aliasMap,
      attachStateBound_resumeStore]
    rcases hadopt : (attachAdopt s u r t now).2 with _ | p0
    · rw [attachAdopted_eq_none s u r t now hadopt, attachBaseId_eq_none s u r t now hadopt]
      refine RoomInvC_addFresh _ _ _ _ _ _ _ hinv1 (Nat.le_refl _) ?_ ?_ ?_
      · rw [createNewPeer_peerId]
        omega
      · simp [attachPeer1, attachAdopted_eq_none s u r t now hadopt]
      · simp [attachPeer1, attachAdopted_eq_none s u r t now hadopt, createNewPeer]
    · obtain ⟨q, hq, hqa, hnores⟩ := hsome p0 hadopt
      rw [attachAdopted_eq_some s u r t now p0 hadopt,
        attachBaseId_eq_some s u r t now p0 hadopt]
      refine RoomInvC_updatePeer _ _ _ _ _ _ q (attachPeer1 s u r t now) hinv1 hq ?_ ?_ ?_
        (by omega)
      · simp [attachPeer1, attachAdopted_eq_some s u r t now p0 hadopt]
      · simp only [attachPeer1, attachAdopted_eq_some s u r t now p0 hadopt]
        exact hqa
      · intro e he hpid
        exact absurd hpid (hnores e he)
  · rw [attachStateBound_peers]
    exact alookup_aput_self _ _ _

theorem RoomInv_attachAliased (s : RoomState) (u r : Str) (nh : Option Str) (t : Option Nat)
    (now : Nat) (h : RoomInv s) : RoomInv (attachAliased s u r nh t now).1 := by
  obtain ⟨hinv3, hbound⟩ := RoomInv_attachStateBound s u r t now h
  simp only [attachAliased]
  split
  · apply RoomInv_assignAlias _ _ _ hinv3
    intro p hpp
    rw [hbound] at hpp
    have : attachPeer1 s u r t now = p := Option.some.inj hpp
    rw [← this]
    rfl
  · exact hinv3

theorem replay_foldl_nextId (now : Nat) (l : List ((Nat × Nat) × PendingDeliveryRecord)) :
    ∀ acc : RoomState × List RoomEvent,
      (l.foldl
        (fun acc e =>
          if e.2.expiresAt ≤ now then
            ({ acc.1 with pendingStore := adel acc.1.pendingStore e.1 }, acc.2)
          else
            let r := tryDeliverPending acc.1 e.2 now
            (r.1, acc.2 ++ r.2))
        acc).1.nextId = acc.1.nextId := by
  induction l with
  | nil => intro acc; rfl
  | cons e rest ih =>
    intro acc
    simp only [List.foldl_cons]
    rw [ih]
    by_cases h : e.2.expiresAt ≤ now <;> simp [h, tryDeliverPending_nextId]

theorem replay_foldl_aliasMap (now : Nat) (l : List ((Nat × Nat) × PendingDeliveryRecord)) :
    ∀ acc : RoomState × List RoomEvent,
      (l.foldl
        (fun acc e =>
          if e.2.expiresAt ≤ now then
            ({ acc.1 with pendingStore := adel acc.1.pendingStore e.1 }, acc.2)
          else
            let r := tryDeliverPending acc.1 e.2 now
            (r.1, acc.2 ++ r.2))
        acc).1.aliasToPeerId = acc.1.aliasToPeerId := by
  induction l with
  | nil => intro acc; rfl
  | cons e rest ih =>
    intro acc
    simp only [List.foldl_cons]
    rw [ih]
    by_cases h : e.2.expiresAt ≤ now <;> simp [h, tryDeliverPending_aliasMap]

theorem replay_foldl_resumeStore (now : Nat) (l : List ((Nat × Nat) × PendingDeliveryRecord)) :
    ∀ acc : RoomState × List RoomEvent,
      (l.foldl
        (fun acc e =>
          if e.2.expiresAt ≤ now then
            ({ acc.1 with pendingStore := adel acc.1.pendingStore e.1 }, acc.2)
          else
            let r := tryDeliverPending acc.1 e.2 now
            (r.1, acc.2 ++ r.2))
        acc).1.resumeStore = acc.1.resumeStore := by
  induction l with
  | nil => intro acc; rfl
  | cons e rest ih =>
    intro acc
    simp only [List.foldl_cons]
    rw [ih]
    by_cases h : e.2.expiresAt ≤ now <;> simp [h, tryDeliverPending_resumeStore]

theorem replayPendingForPeer_nextId (s : RoomState) (pid : Nat) (now : Nat) :
    (replayPendingForPeer s pid now).1.nextId = s.nextId := by
  simp only [replayPendingForPeer]
  exact replay_foldl_nextId now _ (s, [])

theorem replayPendingForPeer_aliasMap (s : RoomState) (pid : Nat) (now : Nat) :
    (replayPendingForPeer s pid now).1.aliasToPeerId = s.aliasToPeerId := by
  simp only [replayPendingForPeer]
  exact replay_foldl_aliasMap now _ (s, [])

theorem replayPendingForPeer_resumeStore (s : RoomState) (pid : Nat) (now : Nat) :
    (replayPendingForPeer s pid now).1.resumeStore = s.resumeStore := by
  simp only [replayPendingForPeer]
  exact replay_foldl_resumeStore now _ (s, [])

theorem RoomInv_replay (X : RoomState) (pid : Nat) (now : Nat) (h : RoomInv X) :
    RoomInv (replayPendingForPeer X pid now).1 := by
  unfold RoomInv
  rw [replayPendingForPeer_nextId, replayPendingForPeer_peers,
    replayPendingForPeer_aliasMap, replayPendingForPeer_resumeStore]
  exact h

theorem RoomInv_attach (s : RoomState) (u r : Str) (nh : Option Str) (t : Option Nat)
    (now : Nat) (h : RoomInv s) : RoomInv (applyAttach s u r nh t now).1 := by
  by_cases hg : u = [] ∨ r = []
  · simp only [applyAttach, if_pos hg]
    exact h
  · simp only [applyAttach, if_neg hg]
    exact RoomInv_scheduleAlarmAt _ _
      (RoomInv_replay _ _ _ (RoomInv_attachAliased s u r nh t now h))

theorem alarmResume_sub (now : Nat) :
    ∀ (l : List (Nat × ResumeRecord)) (acc : Option Nat) (peers : List (Nat × PeerRecord))
      (aliasMap : List (Str × Nat)),
      ∀ e ∈ (alarmResume now acc peers aliasMap l).1, e ∈ l := by
  intro l
  induction l with
  | nil => intro acc peers aliasMap e he; exact absurd he (by simp [alarmResume])
  | cons a rest ih =>
    intro acc peers aliasMap e he
    by_cases h1 : a.2.expiresAt ≤ now
    · rw [alarmResume, if_pos h1] at he
      exact List.mem_cons_of_mem a (ih _ _ _ e he)
    · rw [alarmResume, if_neg h1] at he
      rcases List.mem_cons.mp he with he | he
      · rw [he]; exact List.mem_cons_self a rest
      · exact List.mem_cons_of_mem a (ih _ _ _ e he)

theorem alarmResume_inv (now b : Nat) :
    ∀ (l : List (Nat × ResumeRecord)) (acc : Option Nat) (peers : List (Nat × PeerRecord))
      (aliasMap : List (Str × Nat)),
      (peers.map Prod.fst).Nodup →
      (aliasMap.map Prod.fst).Nodup →
      (l.map Prod.fst).Nodup →
      (∀ e ∈ peers, e.2.peerId = e.1 ∧ e.1 < b) →
      (∀ e ∈ peers, ∀ a, e.2.aliasName = some a → alookup aliasMap a = some e.1) →
      (∀ e ∈ aliasMap, ∃ p, alookup peers e.2 = some p ∧ p.aliasName = some e.1) →
      (∀ e ∈ l, e.2.token = e.1 ∧ ∃ p, alookup peers e.2.peerId = some p ∧
        p.connected = false ∧ p.aliasName = e.2.aliasName ∧ p.resumeToken = e.1) →
      RoomInvC b (alarmResume now acc peers aliasMap l).2.2.1
          (alarmResume now acc peers aliasMap l).2.2.2
          (alarmResume now acc peers aliasMap l).1 ∧
      (∀ q v, alookup peers q = some v → v.resumeToken ∉ l.map Prod.fst →
        alookup (alarmResume now acc peers aliasMap l).2.2.1 q = some v) := by
  intro l
  induction l with
  | nil =>
    intro acc peers aliasMap hnp hna _ hkey hfm hmf _
    refine ⟨⟨hnp, hna, ?_, hkey, hfm, hmf, ?_⟩, fun q v hqv _ => hqv⟩
    · simp [alarmResume]
    · intro e he
      simp [alarmResume] at he
  | cons a rest ih =>
    intro acc peers aliasMap hnp hna hnl hkey hfm hmf hl
    obtain ⟨hatok, p, hap, hac, haa, har⟩ := hl a (List.mem_cons_self a rest)
    rw [List.map_cons, List.nodup_cons] at hnl
    have hpid : p.peerId = a.2.peerId := (hkey (a.2.peerId, p) (alookup_mem _ _ _ hap)).1
    by_cases h1 : a.2.expiresAt ≤ now
    · rw [alarmResume, if_pos h1, hap]
      dsimp only
      have hcij : p.connected = false ∧ p.resumeToken = a.2.token :=
        ⟨hac, by rw [har, hatok]⟩
      simp only [if_pos hcij]
      have hpm : (a.2.peerId, p) ∈ peers := alookup_mem _ _ _ hap
      -- facts about the shrunken alias map
      have hAM : ∀ AM2 : List (Str × Nat),
          (AM2 = match p.aliasName with
            | some al => if alookup aliasMap al = some p.peerId then adel aliasMap al
                         else aliasMap
            | none => aliasMap) →
          (AM2.map Prod.fst).Nodup ∧
          (∀ e ∈ adel peers p.peerId, ∀ a2, e.2.aliasName = some a2 →
            alookup AM2 a2 = some e.1) ∧
          (∀ e ∈ AM2, ∃ q, alookup (adel peers p.peerId) e.2 = some q ∧
            q.aliasName = some e.1) := by
        intro AM2 hAM2
        rcases hpal : p.aliasName with _ | al
        · rw [hpal] at hAM2
          refine ⟨hAM2 ▸ hna, ?_, ?_⟩
          · intro e he a2 hea
            rw [hAM2]
            exact hfm e (mem_adel _ _ e he) a2 hea
          · intro e he
            rw [hAM2] at he
            obtain ⟨q, hq, hqa⟩ := hmf e he
            have hne : e.2 ≠ p.peerId := by
              intro hx
              rw [hx, hpid, hap] at hq
              have : p = q := Option.some.inj hq
              rw [← this, hpal] at hqa
              exact Option.noConfusion hqa
            rw [alookup_adel_ne _ _ _ (fun hx => hne hx.symm)]
            exact ⟨q, hq, hqa⟩
        · rw [hpal] at hAM2
          have hcond : alookup aliasMap al = some p.peerId := by
            rw [hpid]
            exact hfm (a.2.peerId, p) hpm al hpal
          dsimp only at hAM2
          rw [if_pos hcond] at hAM2
          refine ⟨hAM2 ▸ nodup_adel _ _ hna, ?_, ?_⟩
          · intro e he a2 hea
            rw [hAM2]
            have hem := mem_adel _ _ e he
            have hek := mem_adel_key _ _ e he
            have hb0 := hfm e hem a2 hea
            by_cases h2 : a2 = al
            · exfalso
              rw [h2, hcond] at hb0
              exact hek (Option.some.inj hb0).symm
            · rw [alookup_adel_ne _ _ _ (fun hx => h2 hx.symm)]
              exact hb0
          · intro e he
            rw [hAM2] at he
            have hem := mem_adel _ _ e he
            have hek := mem_adel_key _ _ e he
            obtain ⟨q, hq, hqa⟩ := hmf e hem
            have hne : e.2 ≠ p.peerId := by
              intro hx
              rw [hx, hpid, hap] at hq
              have hpq : p = q := Option.some.inj hq
              rw [← hpq, hpal] at hqa
              exact hek (Option.some.inj hqa).symm
            rw [alookup_adel_ne _ _ _ (fun hx => hne hx.symm)]
            exact ⟨q, hq, hqa⟩
      obtain ⟨hAMn, hAMfm, hAMmf⟩ := hAM _ rfl
      have hrest : ∀ e ∈ rest, e.2.token = e.1 ∧
          ∃ q, alookup (adel peers p.peerId) e.2.peerId = some q ∧
            q.connected = false ∧ q.aliasName = e.2.aliasName ∧ q.resumeToken = e.1 := by
        intro e he
        obtain ⟨htok2, q, hqe, hqc, hqa, hqr⟩ := hl e (List.mem_cons_of_mem a he)
        have hne : e.2.peerId ≠ p.peerId := by
          intro hx
          rw [hx, hpid, hap] at hqe
          have hpq : p = q := Option.some.inj hqe
          rw [← hpq] at hqr
          rw [har] at hqr
          exact hnl.1 (hqr ▸ List.mem_map.mpr ⟨e, he, rfl⟩)
        refine ⟨htok2, q, ?_, hqc, hqa, hqr⟩
        rw [alookup_adel_ne _ _ _ (fun hx => hne hx.symm)]
        exact hqe
      have := ih acc (adel peers p.peerId) _ (nodup_adel _ _ hnp) hAMn hnl.2
        (fun e he => hkey e (mem_adel _ _ e he)) hAMfm hAMmf hrest
      refine ⟨this.1, ?_⟩
      intro q v hqv hnot
      have hneq : q ≠ p.peerId := by
        intro hx
        rw [hx, hpid, hap] at hqv
        have hpv : p = v := Option.some.inj hqv
        apply hnot
        rw [List.map_cons]
        rw [← hpv, har]
        exact List.mem_cons_self a.1 _
      exact this.2 q v
        (by rw [alookup_adel_ne _ _ _ (fun hx => hneq hx.symm)]; exact hqv)
        (fun hx => hnot (List.mem_cons_of_mem a.1 hx))
    · rw [alarmResume, if_neg h1]
      have := ih (minOpt acc a.2.expiresAt) peers aliasMap hnp hna hnl.2 hkey hfm hmf
        (fun e he => hl e (List.mem_cons_of_mem a he))
      obtain ⟨⟨ihnp, ihna, ihnr, ihkey, ihfm, ihmf, ihres⟩, ihpres⟩ := this
      dsimp only
      refine ⟨⟨ihnp, ihna, ?_, ihkey, ihfm, ihmf, ?_⟩, ?_⟩
      · rw [List.map_cons, List.nodup_cons]
        refine ⟨?_, ihnr⟩
        intro hmem
        rcases List.mem_map.mp hmem with ⟨e, he, hke⟩
        exact hnl.1 (hke ▸ List.mem_map.mpr
          ⟨e, alarmResume_sub now rest _ peers aliasMap e he, rfl⟩)
      · intro e he
        rcases List.mem_cons.mp he with he | he
        · rw [he]
          refine ⟨hatok, p, ?_, hac, haa, har⟩
          exact ihpres a.2.peerId p hap (by rw [har]; exact hnl.1)
        · exact ihres e he
      · intro q v hqv hnot
        exact ihpres q v hqv (fun hx => hnot (List.mem_cons_of_mem a.1 hx))

theorem RoomInv_alarm (s : RoomState) (now : Nat) (h : RoomInv s) :
    RoomInv (alarm s now).1 := by
  obtain ⟨hnp, hna, hnr, hkey, hfm, hmf, hres⟩ := h
  have hwalk := alarmResume_inv now s.nextId s.resumeStore
    (alarmPend s.sockets now none s.pendingStore).2.1 s.peers s.aliasToPeerId
    hnp hna hnr hkey hfm hmf hres
  exact hwalk.1

theorem RoomInv_applyOp (s : RoomState) (op : RoomOp) (h : RoomInv s) :
    RoomInv (applyOp s op).1 := by
  cases op with
  | attach u r nh t now => exact RoomInv_attach s u r nh t now h
  | message sock m now => exact RoomInv_message s sock m now h
  | depart sock now => exact RoomInv_depart s sock now h
  | tick now => exact RoomInv_alarm s now h

theorem RoomInv_runRoom (ops : List RoomOp) : RoomInv (runRoom initRoom ops) := by
  have haux : ∀ (l : List RoomOp) (s : RoomState), RoomInv s → RoomInv (runRoom s l) := by
    intro l
    induction l with
    | nil => intro s h; exact h
    | cons op rest ih => intro s h; exact ih _ (RoomInv_applyOp s op h)
  refine haux ops initRoom ⟨?_, ?_, ?_, ?_, ?_, ?_, ?_⟩ <;> simp [initRoom]

/-- C4: in every reachable room state, distinct connected peers have
distinct peerIds; two distinct connected peers never hold the same
alias; the alias table is functional (an alias maps to exactly one
peerId); and every alias binding points at a stored peer whose own
alias field equals that alias. -/
theorem roomAliasConsistency (ops : List RoomOp) :
    (∀ e1 ∈ (runRoom initRoom ops).peers, ∀ e2 ∈ (runRoom initRoom ops).peers,
      e1.2.connected = true → e2.2.connected = true → e1 ≠ e2 →
        e1.2.peerId ≠ e2.2.peerId) ∧
    (∀ e1 ∈ (runRoom initRoom ops).peers, ∀ e2 ∈ (runRoom initRoom ops).peers,
      e1.2.connected = true → e2.2.connected = true → e1.2.peerId ≠ e2.2.peerId →
      ∀ a b, e1.2.aliasName = some a → e2.2.aliasName = some b → a ≠ b) ∧
    (∀ a pid1 pid2, (a, pid1) ∈ (runRoom initRoom ops).aliasToPeerId →
      (a, pid2) ∈ (runRoom initRoom ops).aliasToPeerId → pid1 = pid2) ∧
    (∀ a pid, (a, pid) ∈ (runRoom initRoom ops).aliasToPeerId →
      ∃ p, alookup (runRoom initRoom ops).peers pid = some p ∧
        p.aliasName = some a) := by
  obtain ⟨hnp, hna, hnr, hkey, hfm, hmf, hres⟩ := RoomInv_runRoom ops
  refine ⟨?_, ?_, ?_, ?_⟩
  · intro e1 h1 e2 h2 _ _ hne heq
    apply hne
    refine nodup_key_eq _ e1 e2 hnp h1 h2 ?_
    rw [← (hkey e1 h1).1, ← (hkey e2 h2).1]
    exact heq
  · intro e1 h1 e2 h2 _ _ hne a b ha hb hab
    apply hne
    have hm1 := hfm e1 h1 a ha
    have hm2 := hfm e2 h2 b hb
    rw [← hab, hm1] at hm2
    have h12 : e1.1 = e2.1 := Option.some.inj hm2
    rw [(hkey e1 h1).1, (hkey e2 h2).1]
    exact h12
  · intro a pid1 pid2 h1 h2
    have := nodup_key_eq _ (a, pid1) (a, pid2) hna h1 h2 rfl
    exact congrArg Prod.snd this
  · intro a pid hmem
    exact hmf (a, pid) hmem

/-- C4 witness: the consistency theorem instantiated on a one-attach
trace whose join carries the token name `nm`: the table binds `nm` to
peer 0 and that peer's own alias field is `nm`. -/
theorem roomAliasConsistency_witness :
    ((['n', 'm'], 0) ∈ (runRoom initRoom c4wOps).aliasToPeerId) ∧
    ∃ p, alookup (runRoom initRoom c4wOps).peers 0 = some p ∧
      p.aliasName = some ['n', 'm'] :=
  ⟨by decide, (roomAliasConsistency c4wOps).2.2.2 ['n', 'm'] 0 (by decide)⟩

/-! ### Join-token sign/verify round-trip (C7) -/

theorem char_toNat_lt (c : Char) : c.toNat < 1114112 := by
  rcases c.valid with h | ⟨_, h⟩
  · exact lt_trans h (by decide)
  · exact h

theorem toNat_ofNat_valid (n : Nat) (h : n.isValidChar) : (Char.ofNat n).toNat = n := by
  simp only [Char.ofNat, h, dite_true, Char.ofNatAux, Char.toNat]
  rfl

theorem isValidChar_of_lt (n : Nat) (h : n < 55296) : n.isValidChar := Or.inl h

theorem b64UrlChar_ne_dot (n : Nat) : b64UrlChar n ≠ '.' := by
  by_cases h : n < 64
  · have hall : ∀ m < 64, b64UrlChar m ≠ '.' := by decide
    exact hall n h
  · unfold b64UrlChar
    rw [List.getD_eq_default _ _ (by simp [b64UrlAlphabet]; omega)]
    decide

theorem toBase64Url_ne_dot (bs : Bytes) : ∀ c ∈ toBase64Url bs, c ≠ '.' := by
  induction bs using toBase64Url.induct with
  | case1 =>
    intro c hc
    simp [toBase64Url] at hc
  | case2 b0 =>
    intro c hc
    simp only [toBase64Url, List.mem_cons, List.not_mem_nil, or_false] at hc
    rcases hc with h | h <;> exact h ▸ b64UrlChar_ne_dot _
  | case3 b0 b1 =>
    intro c hc
    simp only [toBase64Url, List.mem_cons, List.not_mem_nil, or_false] at hc
    rcases hc with h | h | h <;> exact h ▸ b64UrlChar_ne_dot _
  | case4 b0 b1 b2 rest ih =>
    intro c hc
    simp only [toBase64Url, List.mem_cons] at hc
    rcases hc with h | h | h | h | h
    · exact h ▸ b64UrlChar_ne_dot _
    · exact h ▸ b64UrlChar_ne_dot _
    · exact h ▸ b64UrlChar_ne_dot _
    · exact h ▸ b64UrlChar_ne_dot _
    · exact ih c h

theorem b64UrlDecChar_enc (m : Nat) (h : m < 64) : b64UrlDecChar (b64UrlChar m) = some m := by
  have hall : ∀ k < 64, b64UrlDecChar (b64UrlChar k) = some k := by decide
  exact hall m h

theorem fromBase64Url_toBase64Url (bs : Bytes) (h : BytesValid bs) :
    fromBase64Url (toBase64Url bs) = some bs := by
  induction bs using toBase64Url.induct with
  | case1 => rfl
  | case2 b0 =>
    have hb0 : b0 < 256 := h b0 (List.mem_singleton.mpr rfl)
    simp only [toBase64Url, fromBase64Url,
      b64UrlDecChar_enc (b0 / 4) (by omega),
      b64UrlDecChar_enc (b0 % 4 * 16) (by omega)]
    congr 1
    congr 1
    omega
  | case3 b0 b1 =>
    have hb0 : b0 < 256 := h b0 (List.mem_cons_self _ _)
    have hb1 : b1 < 256 := h b1 (List.mem_cons_of_mem _ (List.mem_singleton.mpr rfl))
    simp only [toBase64Url, fromBase64Url,
      b64UrlDecChar_enc (b0 / 4) (by omega),
      b64UrlDecChar_enc (b0 % 4 * 16 + b1 / 16) (by omega),
      b64UrlDecChar_enc (b1 % 16 * 4) (by omega)]
    congr 1
    congr 1
    · omega
    · congr 1
      omega
  | case4 b0 b1 b2 rest ih =>
    have hb0 : b0 < 256 := h b0 (List.mem_cons_self _ _)
    have hb1 : b1 < 256 := h b1 (List.mem_cons_of_mem _ (List.mem_cons_self _ _))
    have hb2 : b2 < 256 := h b2 (List.mem_cons_of_mem _ (List.mem_cons_of_mem _
      (List.mem_cons_self _ _)))
    have hrest : BytesValid rest := fun b hb =>
      h b (List.mem_cons_of_mem _ (List.mem_cons_of_mem _ (List.mem_cons_of_mem _ hb)))
    simp only [toBase64Url, fromBase64Url,
      b64UrlDecChar_enc (b0 / 4) (by omega),
      b64UrlDecChar_enc (b0 % 4 * 16 + b1 / 16) (by omega),
      b64UrlDecChar_enc (b1 % 16 * 4 + b2 / 64) (by omega),
      b64UrlDecChar_enc (b2 % 64) (by omega), ih hrest]
    congr 1
    congr 1
    · omega
    · congr 1
      · omega
      · congr 1
        omega

theorem splitDots_nodot (s : Str) (h : ∀ c ∈ s, c ≠ '.') : splitDots s = [s] := by
  induction s with
  | nil => rfl
  | cons c rest ih =>
    rw [splitDots]
    rw [ih (fun x hx => h x (List.mem_cons_of_mem c hx))]
    rw [if_neg (h c (List.mem_cons_self c rest))]

theorem splitDots_append (a rest : Str) (h : ∀ c ∈ a, c ≠ '.') :
    splitDots (a ++ '.' :: rest) = a :: splitDots rest := by
  induction a with
  | nil =>
    rw [List.nil_append, splitDots, if_pos rfl]
  | cons c a1 ih =>
    rw [List.cons_append, splitDots,
      ih (fun x hx => h x (List.mem_cons_of_mem c hx)),
      if_neg (h c (List.mem_cons_self c a1))]

theorem timingSafeEqual_self (bs : Bytes) : timingSafeEqual bs bs = true := by
  rw [timingSafeEqual, if_neg (by simp)]
  have haux : ∀ l : Bytes, (List.zip l l).foldl
      (fun acc xy => Nat.lor acc (Nat.xor xy.1 xy.2)) 0 = 0 := by
    intro l
    induction l with
    | nil => rfl
    | cons b rest ih =>
      have hstep : Nat.lor 0 (Nat.xor b b) = 0 := by
        have h1 : Nat.xor b b = 0 := Nat.xor_self b
        rw [h1]
        decide
      simp only [List.zip_cons_cons, List.foldl_cons, hstep]
      exact ih
  simp [haux bs]

theorem wordsToBytes_valid (ws : List Nat) : BytesValid (wordsToBytes ws) := by
  induction ws with
  | nil => intro b hb; simp [wordsToBytes] at hb
  | cons w rest ih =>
    intro b hb
    simp only [wordsToBytes, List.mem_cons] at hb
    rcases hb with h | h | h | h | h
    · omega
    · omega
    · omega
    · omega
    · exact ih b h

theorem sha256_valid (msg : Bytes) : BytesValid (sha256 msg) := by
  unfold sha256
  exact wordsToBytes_valid _

theorem hmacSha256_valid (key msg : Bytes) : BytesValid (hmacSha256 key msg) := by
  unfold hmacSha256 hmac
  exact sha256_valid _

theorem utf8EncodeChar_valid (c : Char) : ∀ b ∈ utf8EncodeChar c, b < 256 := by
  have hv := char_toNat_lt c
  intro b hb
  rw [utf8EncodeChar] at hb
  by_cases h1 : c.toNat < 128
  · rw [if_pos h1] at hb
    simp only [List.mem_singleton] at hb
    omega
  · rw [if_neg h1] at hb
    by_cases h2 : c.toNat < 2048
    · rw [if_pos h2] at hb
      simp only [List.mem_cons, List.not_mem_nil, or_false] at hb
      rcases hb with h | h <;> omega
    · rw [if_neg h2] at hb
      by_cases h3 : c.toNat < 65536
      · rw [if_pos h3] at hb
        simp only [List.mem_cons, List.not_mem_nil, or_false] at hb
        rcases hb with h | h | h <;> omega
      · rw [if_neg h3] at hb
        simp only [List.mem_cons, List.not_mem_nil, or_false] at hb
        rcases hb with h | h | h | h <;> omega

theorem toUtf8Bytes_valid (s : Str) : BytesValid (toUtf8Bytes s) := by
  induction s with
  | nil => intro b hb; simp [toUtf8Bytes] at hb
  | cons c cs ih =>
    intro b hb
    rw [toUtf8Bytes] at hb
    rcases List.mem_append.mp hb with h | h
    · exact utf8EncodeChar_valid c b h
    · exact ih b h

theorem utf8Cont_of (n : Nat) (h1 : 128 ≤ n) (h2 : n < 192) : utf8Cont n = true := by
  simp only [utf8Cont, decide_eq_true_eq]
  omega

theorem utf8EncodeChar_ne_nil (c : Char) : utf8EncodeChar c ≠ [] := by
  rw [utf8EncodeChar]
  by_cases h1 : c.toNat < 128
  · simp [h1]
  · rw [if_neg h1]
    by_cases h2 : c.toNat < 2048
    · simp [h2]
    · rw [if_neg h2]
      by_cases h3 : c.toNat < 65536
      · simp [h3]
      · simp [h3]

theorem toUtf8Bytes_length_ge (s : Str) : s.length ≤ (toUtf8Bytes s).length := by
  induction s with
  | nil => simp [toUtf8Bytes]
  | cons c cs ih =>
    rw [toUtf8Bytes, List.length_cons, List.length_append]
    have h1 : 1 ≤ (utf8EncodeChar c).length := by
      rcases h : utf8EncodeChar c with _ | ⟨e0, erest⟩
      · exact absurd h (utf8EncodeChar_ne_nil c)
      · simp
    omega

theorem utf8DecodeOne_enc (c : Char) (tail : Bytes) :
    utf8DecodeOne (utf8EncodeChar c ++ tail) = some (c.toNat, tail) := by
  have hv := char_toNat_lt c
  have hsur : c.toNat < 55296 ∨ (57343 < c.toNat ∧ c.toNat < 1114112) := by
    rcases c.valid with h | ⟨hx1, hx2⟩
    · exact Or.inl h
    · exact Or.inr ⟨hx1, hx2⟩
  rw [utf8EncodeChar]
  by_cases h1 : c.toNat < 128
  · rw [if_pos h1, List.singleton_append, utf8DecodeOne, if_pos h1]
  · rw [if_neg h1]
    by_cases h2 : c.toNat < 2048
    · rw [if_pos h2, List.cons_append, List.singleton_append, utf8DecodeOne,
        if_neg (by omega), if_pos (show 192 + c.toNat / 64 < 224 by omega)]
      rw [if_neg (by simp)]
      dsimp only [List.headD, List.tail]
      rw [if_pos ⟨by omega, utf8Cont_of _ (by omega) (by omega)⟩,
        if_pos (show 128 ≤ (192 + c.toNat / 64 - 192) * 64 + (128 + c.toNat % 64 - 128)
          by omega)]
      have hn : (192 + c.toNat / 64 - 192) * 64 + (128 + c.toNat % 64 - 128) = c.toNat := by
        omega
      rw [hn]
    · rw [if_neg h2]
      by_cases h3 : c.toNat < 65536
      · rw [if_pos h3, List.cons_append, List.cons_append, List.singleton_append,
          utf8DecodeOne,
          if_neg (by omega),
          if_neg (show ¬ 224 + c.toNat / 4096 < 224 by omega),
          if_pos (show 224 + c.toNat / 4096 < 240 by omega)]
        rw [if_neg (by simp)]
        dsimp only [List.headD, List.tail]
        rw [if_pos ⟨utf8Cont_of _ (by omega) (by omega), utf8Cont_of _ (by omega) (by omega)⟩]
        rw [if_pos (show 2048 ≤ (224 + c.toNat / 4096 - 224) * 4096 +
            (128 + c.toNat / 64 % 64 - 128) * 64 + (128 + c.toNat % 64 - 128) ∧
            ¬ (55296 ≤ (224 + c.toNat / 4096 - 224) * 4096 +
              (128 + c.toNat / 64 % 64 - 128) * 64 + (128 + c.toNat % 64 - 128) ∧
              (224 + c.toNat / 4096 - 224) * 4096 +
              (128 + c.toNat / 64 % 64 - 128) * 64 + (128 + c.toNat % 64 - 128) < 57344)
            by omega)]
        have hn : (224 + c.toNat / 4096 - 224) * 4096 +
            (128 + c.toNat / 64 % 64 - 128) * 64 + (128 + c.toNat % 64 - 128) = c.toNat := by
          omega
        rw [hn]
      · rw [if_neg h3, List.cons_append, List.cons_append, List.cons_append,
          List.singleton_append, utf8DecodeOne,
          if_neg (by omega),
          if_neg (show ¬ 240 + c.toNat / 262144 < 224 by omega),
          if_neg (show ¬ 240 + c.toNat / 262144 < 240 by omega),
          if_pos (show 240 + c.toNat / 262144 < 248 by omega)]
        rw [if_neg (by simp)]
        dsimp only [List.headD, List.tail]
        rw [if_pos ⟨utf8Cont_of _ (by omega) (by omega), utf8Cont_of _ (by omega) (by omega),
          utf8Cont_of _ (by omega) (by omega)⟩]
        rw [if_pos (show 65536 ≤ (240 + c.toNat / 262144 - 240) * 262144 +
            (128 + c.toNat / 4096 % 64 - 128) * 4096 +
            (128 + c.toNat / 64 % 64 - 128) * 64 + (128 + c.toNat % 64 - 128) ∧
            (240 + c.toNat / 262144 - 240) * 262144 +
            (128 + c.toNat / 4096 % 64 - 128) * 4096 +
            (128 + c.toNat / 64 % 64 - 128) * 64 + (128 + c.toNat % 64 - 128) < 1114112
            by omega)]
        have hn : (240 + c.toNat / 262144 - 240) * 262144 +
            (128 + c.toNat / 4096 % 64 - 128) * 4096 +
            (128 + c.toNat / 64 % 64 - 128) * 64 + (128 + c.toNat % 64 - 128) = c.toNat := by
          omega
        rw [hn]

theorem utf8DecodeLoop_nil (fuel : Nat) : utf8DecodeLoop fuel [] = some [] := by
  cases fuel <;> rfl

theorem utf8DecodeLoop_enc (s : Str) :
    ∀ fuel : Nat, s.length ≤ fuel → utf8DecodeLoop fuel (toUtf8Bytes s) = some s := by
  induction s with
  | nil => intro fuel _; exact utf8DecodeLoop_nil fuel
  | cons c cs ih =>
    intro fuel hf
    rcases fuel with _ | f
    · simp at hf
    · rw [toUtf8Bytes]
      rcases hE : utf8EncodeChar c with _ | ⟨e0, erest⟩
      · exact absurd hE (utf8EncodeChar_ne_nil c)
      · rw [List.cons_append, utf8DecodeLoop, ← List.cons_append, ← hE,
          utf8DecodeOne_enc]
        dsimp only
        rw [ih f (by simpa using hf), consChar, Char.ofNat_toNat]

theorem utf8Decode_toUtf8Bytes (s : Str) : utf8Decode (toUtf8Bytes s) = some s := by
  have h1 := toUtf8Bytes_length_ge s
  exact utf8DecodeLoop_enc s (toUtf8Bytes s).length (by omega)

theorem parseHexDigit_jsonHexDigit (m : Nat) (h : m < 16) :
    parseHexDigit (jsonHexDigit m) = some m := by
  have hall : ∀ k < 16, parseHexDigit (jsonHexDigit k) = some k := by decide
  exact hall m h

theorem parseJStringBody_escape (s : Str) : ∀ rest : Str,
    parseJStringBody (jsonEscape s ++ quoteChar :: rest) = some (s, rest) := by
  induction s with
  | nil =>
    intro rest
    rw [jsonEscape, List.nil_append, parseJStringBody.eq_def]
    dsimp only
    rw [if_pos rfl]
  | cons c cs ih =>
    intro rest
    rw [jsonEscape, List.append_assoc, jsonEscapeChar]
    by_cases h1 : c = quoteChar
    · rw [if_pos h1]
      simp only [List.cons_append, List.nil_append]
      rw [parseJStringBody.eq_def]
      dsimp only
      rw [if_neg (by decide), if_pos rfl]
      rw [if_pos rfl, ih rest, consFst, h1]
    · rw [if_neg h1]
      by_cases h2 : c = backslashChar
      · rw [if_pos h2]
        simp only [List.cons_append, List.nil_append]
        rw [parseJStringBody.eq_def]
        dsimp only
        rw [if_neg (by decide), if_pos rfl]
        rw [if_neg (by decide), if_pos rfl, ih rest, consFst, h2]
      · rw [if_neg h2]
        by_cases h3 : c = Char.ofNat 8
        · rw [if_pos h3]
          simp only [List.cons_append, List.nil_append]
          rw [parseJStringBody.eq_def]
          dsimp only
          rw [if_neg (by decide), if_pos rfl]
          rw [if_neg (by decide), if_neg (by decide), if_neg (by decide), if_pos rfl,
            ih rest, consFst, h3]
        · rw [if_neg h3]
          by_cases h4 : c = Char.ofNat 9
          · rw [if_pos h4]
            simp only [List.cons_append, List.nil_append]
            rw [parseJStringBody.eq_def]
            dsimp only
            rw [if_neg (by decide), if_pos rfl]
            rw [if_neg (by decide), if_neg (by decide), if_neg (by decide),
              if_neg (by decide), if_pos rfl, ih rest, consFst, h4]
          · rw [if_neg h4]
            by_cases h5 : c = Char.ofNat 10
            · rw [if_pos h5]
              simp only [List.cons_append, List.nil_append]
              rw [parseJStringBody.eq_def]
              dsimp only
              rw [if_neg (by decide), if_pos rfl]
              rw [if_neg (by decide), if_neg (by decide), if_neg (by decide),
                if_neg (by decide), if_neg (by decide), if_pos rfl, ih rest, consFst, h5]
            · rw [if_neg h5]
              by_cases h6 : c = Char.ofNat 12
              · rw [if_pos h6]
                simp only [List.cons_append, List.nil_append]
                rw [parseJStringBody.eq_def]
                dsimp only
                rw [if_neg (by decide), if_pos rfl]
                rw [if_neg (by decide), if_neg (by decide), if_neg (by decide),
                  if_neg (by decide), if_neg (by decide), if_neg (by decide), if_pos rfl,
                  ih rest, consFst, h6]
              · rw [if_neg h6]
                by_cases h7 : c = Char.ofNat 13
                · rw [if_pos h7]
                  simp only [List.cons_append, List.nil_append]
                  rw [parseJStringBody.eq_def]
                  dsimp only
                  rw [if_neg (by decide), if_pos rfl]
                  rw [if_neg (by decide), if_neg (by decide), if_neg (by decide),
                    if_neg (by decide), if_neg (by decide), if_neg (by decide),
                    if_neg (by decide), if_pos rfl, ih rest, consFst, h7]
                · rw [if_neg h7]
                  by_cases h8 : c.toNat < 32
                  · rw [if_pos h8]
                    simp only [List.cons_append, List.nil_append]
                    rw [parseJStringBody.eq_def]
                    dsimp only
                    rw [if_neg (by decide), if_pos rfl]
                    rw [if_neg (by decide), if_neg (by decide), if_neg (by decide),
                      if_neg (by decide), if_neg (by decide), if_neg (by decide),
                      if_neg (by decide), if_neg (by decide), if_pos rfl]
                    rw [show parseHexDigit '0' = some 0 from by decide,
                      parseHexDigit_jsonHexDigit (c.toNat / 16) (by omega),
                      parseHexDigit_jsonHexDigit (c.toNat % 16) (by omega)]
                    dsimp only
                    rw [if_neg (by omega)]
                    rw [ih rest, consFst]
                    have hn : 0 * 4096 + 0 * 256 + c.toNat / 16 * 16 + c.toNat % 16 =
                        c.toNat := by omega
                    rw [hn, Char.ofNat_toNat]
                  · rw [if_neg h8]
                    simp only [List.cons_append, List.nil_append, List.singleton_append]
                    rw [parseJStringBody.eq_def]
                    dsimp only
                    rw [if_neg h1, if_neg h2, if_neg h8, ih rest, consFst]

theorem natToDecAux_eq_decRep :
    ∀ (fuel n : Nat) (acc : Str), n ≤ fuel → natToDecAux fuel n acc = decRep n ++ acc := by
  intro fuel
  induction fuel with
  | zero =>
    intro n acc h
    have hn : n = 0 := by omega
    subst hn
    rw [natToDecAux, decRep]
    rfl
  | succ f ih =>
    intro n acc h
    rw [natToDecAux]
    by_cases hn : n = 0
    · rw [if_pos hn, hn, decRep]
      rfl
    · rw [if_neg hn, ih (n / 10) _ (by omega)]
      conv_rhs => rw [decRep, if_neg hn]
      rw [List.append_assoc]
      rfl

theorem natToDec_eq (n : Nat) : natToDec n = if n = 0 then ['0'] else decRep n := by
  rw [natToDec]
  by_cases h : n = 0
  · rw [if_pos h, if_pos h]
  · rw [if_neg h, if_neg h, natToDecAux_eq_decRep n n [] (Nat.le_refl n), List.append_nil]

theorem foldl_decRep (n : Nat) :
    ∀ a : Nat, List.foldl (fun acc c => acc * 10 + (c.toNat - 48)) a (decRep n) =
      a * 10 ^ (decRep n).length + n := by
  induction n using Nat.strong_induction_on with
  | _ n ih =>
    intro a
    by_cases h : n = 0
    · subst h
      rw [decRep]
      simp
    · conv_lhs => rw [decRep, if_neg h]
      conv_rhs => rw [decRep, if_neg h]
      rw [List.foldl_append, ih (n / 10) (Nat.div_lt_self (Nat.pos_of_ne_zero h) (by omega)) a]
      simp only [List.foldl_cons, List.foldl_nil, List.length_append, List.length_cons,
        List.length_nil]
      rw [decDigit, toNat_ofNat_valid _ (isValidChar_of_lt _ (by omega))]
      have h48 : 48 + n % 10 % 10 - 48 = n % 10 := by omega
      rw [h48]
      have hexp : List.length (decRep (n / 10)) + (0 + 1) =
          List.length (decRep (n / 10)) + 1 := by omega
      rw [hexp, pow_succ]
      have hdm : n / 10 * 10 + n % 10 = n := Nat.div_add_mod' n 10
      rw [Nat.add_mul, Nat.add_assoc, hdm, ← Nat.mul_assoc]

theorem digitsToNat_natToDec (n : Nat) : digitsToNat (natToDec n) = n := by
  rw [natToDec_eq, digitsToNat]
  by_cases h : n = 0
  · rw [if_pos h, h]
    decide
  · rw [if_neg h, foldl_decRep n 0]
    simp

theorem decRep_digits (n : Nat) : ∀ c ∈ decRep n, isDigitCh c = true := by
  induction n using Nat.strong_induction_on with
  | _ n ih =>
    intro c hc
    by_cases h : n = 0
    · subst h
      rw [decRep] at hc
      simp at hc
    · rw [decRep, if_neg h] at hc
      rcases List.mem_append.mp hc with h2 | h2
      · exact ih (n / 10) (Nat.div_lt_self (Nat.pos_of_ne_zero h) (by omega)) c h2
      · simp only [List.mem_singleton] at h2
        rw [h2, isDigitCh, decDigit, toNat_ofNat_valid _ (isValidChar_of_lt _ (by omega))]
        simp only [decide_eq_true_eq]
        omega

theorem natToDec_digits (n : Nat) : ∀ c ∈ natToDec n, isDigitCh c = true := by
  rw [natToDec_eq]
  by_cases h : n = 0
  · rw [if_pos h]
    intro c hc
    simp only [List.mem_singleton] at hc
    rw [hc]
    decide
  · rw [if_neg h]
    exact decRep_digits n

theorem natToDec_ne_nil (n : Nat) : natToDec n ≠ [] := by
  rw [natToDec_eq]
  by_cases h : n = 0
  · rw [if_pos h]
    simp
  · rw [if_neg h, decRep, if_neg h]
    simp

theorem takeDigits_spec (ds : Str) (d : Char) (rest : Str)
    (hds : ∀ c ∈ ds, isDigitCh c = true) (hd : ¬ isDigitCh d = true) :
    takeDigits (ds ++ d :: rest) = (ds, d :: rest) := by
  induction ds with
  | nil =>
    rw [List.nil_append, takeDigits, if_neg hd]
  | cons c ds1 ih =>
    rw [List.cons_append, takeDigits,
      if_pos (hds c (List.mem_cons_self c ds1)),
      ih (fun x hx => hds x (List.mem_cons_of_mem c hx))]

theorem parseNatNum_natToDec (n : Nat) (d : Char) (rest : Str) (hd : ¬ isDigitCh d = true) :
    parseNatNum (natToDec n ++ d :: rest) = some (n, d :: rest) := by
  rw [parseNatNum, takeDigits_spec (natToDec n) d rest (natToDec_digits n) hd]
  dsimp only
  rw [if_neg (natToDec_ne_nil n), digitsToNat_natToDec]

theorem parseJVal_str (s : Str) (rest : Str) :
    parseJVal (printJString s ++ rest) = some (.str s, rest) := by
  rw [printJString, List.cons_append, List.append_assoc, List.singleton_append]
  rw [parseJVal.eq_def]
  dsimp only
  rw [if_pos rfl, parseJStringBody_escape s rest]

theorem digit_ne_quote (c : Char) (h : isDigitCh c = true) : ¬ c = quoteChar := by
  intro he
  rw [he] at h
  simp only [isDigitCh, quoteChar] at h
  exact absurd h (by decide)

theorem parseJVal_num (n : Nat) (d : Char) (rest : Str) (hd : ¬ isDigitCh d = true) :
    parseJVal (natToDec n ++ d :: rest) = some (.num n, d :: rest) := by
  rcases hN : natToDec n with _ | ⟨c0, ctail⟩
  · exact absurd hN (natToDec_ne_nil n)
  · have hc0 : isDigitCh c0 = true := natToDec_digits n c0 (by rw [hN]; exact List.mem_cons_self _ _)
    rw [List.cons_append, parseJVal.eq_def]
    dsimp only
    rw [if_neg (digit_ne_quote c0 hc0), if_pos hc0, ← List.cons_append, ← hN,
      parseNatNum_natToDec n d rest hd]

theorem parseJVal_print (v : JVal) (d : Char) (rest : Str)
    (hd : ¬ isDigitCh d = true) :
    parseJVal (printJVal v ++ d :: rest) = some (v, d :: rest) := by
  cases v with
  | str s => exact parseJVal_str s (d :: rest)
  | num n => exact parseJVal_num n d rest hd

theorem printJPairs_len (ps : List (Str × JVal)) : ps.length ≤ (printJPairs ps).length := by
  induction ps with
  | nil => simp [printJPairs]
  | cons p rest ih =>
    cases rest with
    | nil =>
      simp only [printJPairs, List.length_cons, List.length_nil, List.length_append,
        printJString]
      omega
    | cons q rest2 =>
      rw [printJPairs]
      · simp only [List.length_cons, List.length_append, printJString] at ih ⊢
        omega
      · intro hx
        exact List.noConfusion hx

theorem parseJPairsAux_print (ps : List (Str × JVal)) :
    ∀ (fuel : Nat) (rest : Str), ps.length + 1 ≤ fuel →
      parseJPairsAux fuel (printJPairs ps ++ rbraceChar :: rest) = some (ps, rest) := by
  induction ps with
  | nil =>
    intro fuel rest hf
    rcases fuel with _ | f
    · omega
    · rw [printJPairs, List.nil_append, parseJPairsAux.eq_def]
      dsimp only
      rw [if_pos rfl]
  | cons p tail ih =>
    intro fuel rest hf
    rcases fuel with _ | f
    · omega
    · obtain ⟨k, v⟩ := p
      cases tail with
      | nil =>
        rw [printJPairs]
        dsimp only
        simp only [printJString, List.append_assoc, List.cons_append,
          List.singleton_append]
        rw [parseJPairsAux.eq_def]
        dsimp only
        rw [if_neg (by decide), if_pos rfl, parseJStringBody_escape k]
        dsimp only
        split
        · rename_i rest3x d rest4 heq
          injection heq with hd hr
          subst hr
          rw [if_pos hd.symm, parseJVal_print v rbraceChar rest (by decide)]
          dsimp only
          rw [if_neg (by decide), if_pos rfl]
        · rename_i rest3x heq
          exact List.noConfusion heq
      | cons q tail2 =>
        rw [printJPairs]
        · dsimp only
          simp only [printJString, List.append_assoc, List.cons_append,
            List.singleton_append]
          rw [parseJPairsAux.eq_def]
          dsimp only
          rw [if_neg (by decide), if_pos rfl, parseJStringBody_escape k]
          dsimp only
          split
          · rename_i rest3x d rest4 heq
            injection heq with hd hr
            subst hr
            rw [if_pos hd.symm,
              parseJVal_print v ',' (printJPairs (q :: tail2) ++ rbraceChar :: rest)
                (by decide)]
            dsimp only
            rw [if_pos rfl, ih f rest (by simp at hf ⊢; omega)]
          · rename_i rest3x heq
            exact List.noConfusion heq
        · intro hx
          exact List.noConfusion hx

theorem parseJson_print (ps : List (Str × JVal)) : parseJson (printJObj ps) = some ps := by
  rw [printJObj, parseJson.eq_def]
  dsimp only
  rw [if_pos rfl]
  have hlen : ps.length + 1 ≤ (printJPairs ps ++ [rbraceChar]).length + 1 := by
    have := printJPairs_len ps
    simp only [List.length_append, List.length_cons, List.length_nil]
    omega
  rw [show printJPairs ps ++ [rbraceChar] =
    printJPairs ps ++ rbraceChar :: [] from rfl] at hlen ⊢
  rw [parseJPairsAux_print ps _ [] hlen]

theorem payload_fields (p : JoinTokenPayload) :
    jGetStr (payloadPairs p) ['s', 'u', 'b'] = some p.sub ∧
    jGetStr (payloadPairs p) ['r', 'o', 'o', 'm'] = some p.room ∧
    jGetNum (payloadPairs p) ['e', 'x', 'p'] = some p.exp ∧
    jGetStr (payloadPairs p) ['n', 'a', 'm', 'e'] = p.name ∧
    jGetNum (payloadPairs p) ['i', 'a', 't'] = p.iat ∧
    jGetStr (payloadPairs p) ['j', 't', 'i'] = p.jti := by
  rcases hn : p.name with _ | nm <;> rcases hi : p.iat with _ | t <;>
    rcases hj : p.jti with _ | j <;>
    simp [payloadPairs, jGetStr, jGetNum, alookup, hn, hi, hj]

theorem verify_sign (p : JoinTokenPayload) (secret : Str) (now : Nat) :
    verifyJoinToken (signJoinToken p secret) secret none now =
      if p.sub = [] ∨ p.room = [] then .error .invalidPayload
      else if p.exp ≤ now then .error .expired
      else .ok p := by
  have hsplit : splitDots (signJoinToken p secret) =
      [toBase64Url (toUtf8Bytes (printJObj joinTokenHeaderPairs)),
       toBase64Url (toUtf8Bytes (printJObj (payloadPairs p))),
       toBase64Url (hmacSha256 (toUtf8Bytes secret) (toUtf8Bytes
         (toBase64Url (toUtf8Bytes (printJObj joinTokenHeaderPairs)) ++ '.' ::
          toBase64Url (toUtf8Bytes (printJObj (payloadPairs p))))))] := by
    rw [signJoinToken]
    rw [List.append_assoc, List.cons_append,
      splitDots_append _ _ (toBase64Url_ne_dot _),
      splitDots_append _ _ (toBase64Url_ne_dot _),
      splitDots_nodot _ (toBase64Url_ne_dot _)]
  simp only [verifyJoinToken]
  rw [hsplit]
  dsimp only
  rw [fromBase64Url_toBase64Url _ (hmacSha256_valid _ _)]
  dsimp only
  rw [if_neg (by rw [timingSafeEqual_self]; simp)]
  rw [fromBase64Url_toBase64Url _ (toUtf8Bytes_valid _)]
  dsimp only
  rw [utf8Decode_toUtf8Bytes]
  dsimp only
  rw [parseJson_print]
  dsimp only
  rw [if_neg (by decide)]
  rw [fromBase64Url_toBase64Url _ (toUtf8Bytes_valid _)]
  dsimp only
  rw [utf8Decode_toUtf8Bytes]
  dsimp only
  rw [parseJson_print]
  dsimp only
  obtain ⟨hsub, hroom, hexp, hname, hiat, hjti⟩ := payload_fields p
  rw [hsub, hroom, hexp]
  dsimp only
  rw [hname, hiat, hjti]

/-- C7: counterexample.  A claim set with an empty `sub` and unexpired
`exp` signs to a structurally valid token whose verification nevertheless
fails: `verifyJoinToken` rejects empty `sub`/`room` (JS falsiness check
`!payload.sub || !payload.room`) with INVALID_PAYLOAD, so the round-trip
does not return the claims. -/
theorem verify_sign_empty_sub :
    (0 : Nat) < c7Bad.exp ∧
    verifyJoinToken (signJoinToken c7Bad ['k']) ['k'] none 0 =
      .error .invalidPayload := by
  constructor
  · decide
  · rw [verify_sign]
    simp [c7Bad]

/-- C7 (amended): for every claim set with nonempty `sub` and `room` and
`exp` strictly beyond `now`, verifying the token signed with the same
secret at that `now` succeeds and returns exactly the original claims. -/
theorem verify_sign_roundtrip (p : JoinTokenPayload) (secret : Str) (now : Nat)
    (hsub : p.sub ≠ []) (hroom : p.room ≠ []) (hexp : now < p.exp) :
    verifyJoinToken (signJoinToken p secret) secret none now = .ok p := by
  rw [verify_sign,
    if_neg (show ¬ (p.sub = [] ∨ p.room = []) from fun h => h.elim hsub hroom),
    if_neg (by omega)]

/-- C7 witness: the round-trip theorem at a concrete claim set and
secret. -/
theorem verify_sign_roundtrip_witness :
    verifyJoinToken (signJoinToken c7Good ['k']) ['k'] none 0 = .ok c7Good :=
  verify_sign_roundtrip c7Good ['k'] 0 (by decide) (by decide) (by decide)
